import Mathlib

/-!
# IntSetMap (xcom, `src/com/int_hash.h`)

A shallow embedding of the integer-sequence trie `IntSetMap<IntType, MappedObj>`
and of the node type `IntVal2Node<IntType, MappedObj>`, followed by theorems about
`set`, `find`, `dump_helper` and `count_mem`.

Conventions of the embedding.

* `IntType` is `Int` (keys are only compared, never computed with).
* `MappedObj` is a type `M` with decidable equality and a zero; `MappedObj(0)` is `(0 : M)`.
* A pointer `V2NMap*` is `Ptr = Option Nat`: `none` is `nullptr`, `some a` is the
  address of the `a`-th object of the node store.
* The node store `mem` lists the node objects in allocation order: the root
  (allocated by the constructor) at address 0, then the nodes handed out by
  `allocV2NMap`.
* An element count is a `UINT` below `2 ^ 32`. The loops of `set` and `find` compare the
  index with `(VecIdx)num`, the count cast to the signed 32-bit index type: for a
  sequence of `2 ^ 31` elements or more the cast is negative and the loop body does not
  run. A `for` loop that runs `n` times is a structural recursion on the number of
  remaining iterations, carrying the index `i` alongside.
* The indent of the dump is a `UINT` supplied by the caller: the sum `ind + 2` is taken
  modulo `2 ^ 32`. The node counter `m_num_node` and the byte counts of `count_mem`
  count objects that exist in memory and are natural numbers.
* The loop of `dump_helper` has no bound in the source: it takes a number of iterations
  `fuel` and yields `none` when that number does not reach the exit of the loop.
* `ASSERT0` does not abort: `set` returns the state reached when the assertion is
  compiled out, together with the outcome of the check.
-/

namespace xcom

/-- Pointer to a node: `none` is `nullptr`, `some a` the address of a node object. -/
abbrev Ptr := Option Nat

/-- Modelled from the spec: the ordered child index `TMap<IntType, V2NMap*>` (spec 4.2),
whose source is not part of the fragment. Entries are kept in ascending key order. -/
abbrev TMap := List (Int × Ptr)

/-- Modelled from the spec: point lookup of the child index; yields `nullptr` when the
key is absent. -/
def TMap.get : TMap → Int → Ptr
  | [], _ => none
  | (k, v) :: rest, t => if t = k then v else TMap.get rest t

/-- Modelled from the spec: point insertion into the child index, keeping ascending key
order (the mapped pointer of an existing key is replaced). -/
def TMap.set : TMap → Int → Ptr → TMap
  | [], t, p => [(t, p)]
  | (k, v) :: rest, t, p =>
    if t < k then (t, p) :: (k, v) :: rest
    else if t = k then (k, p) :: rest
    else (k, v) :: TMap.set rest t p

/-- Modelled from the spec: `Vector<IntType>`, the random-access sequence. -/
structure Vector where
  elems : List Int
  deriving DecidableEq, Repr

/-- Modelled from the spec: number of elements of the vector, a `UINT`: a vector holds
fewer than `2 ^ 32` elements. -/
def Vector.get_elem_count (v : Vector) : Nat := v.elems.length

/-- Modelled from the spec: `Vector::get(i)`, the `i`-th element (`IntType(0)` outside
the vector). -/
def Vector.get (v : Vector) (i : Nat) : Int := v.elems.getD i 0

/-- Modelled from the spec: `List<IntType>`, the singly-traversable linked sequence.
The cells are the elements of `cells`, in order. -/
structure LinkedList where
  cells : List Int
  deriving DecidableEq, Repr

/-- Modelled from the spec: `List<IntType>::Iter`, a pointer to a cell, represented by
the cells from the current one onwards; `[]` is the null iterator. -/
abbrev LinkedList.Iter := List Int

/-- Modelled from the spec: number of elements of the linked list, a `UINT`: a list holds
fewer than `2 ^ 32` elements. -/
def LinkedList.get_elem_count (l : LinkedList) : Nat := l.cells.length

/-- Modelled from the spec: `get_head(&it)` points `it` at the first cell and returns its
value (`IntType(0)` for an empty list). -/
def LinkedList.get_head (l : LinkedList) : Int × LinkedList.Iter :=
  (l.cells.headD 0, l.cells)

/-- Modelled from the spec: `get_next(&it)` advances `it` to the following cell and
returns its value (`IntType(0)` when there is none). -/
def LinkedList.get_next (_l : LinkedList) (it : LinkedList.Iter) : Int × LinkedList.Iter :=
  (it.tail.headD 0, it.tail)

/-- Modelled from the spec: `it->val()`, the value of the cell the iterator points at;
`none` stands for the read through a null iterator, which has no defined value. -/
def LinkedList.Iter.val (it : LinkedList.Iter) : Option Int := it.head?

/-- The number of values of the type `UINT` (`unsigned int`, 32 bits wide): sums of
`UINT` values are taken modulo this number. -/
def UINT_MOD : Nat := 2 ^ 32

/-- Modelled from the spec: the cast `(VecIdx)num` of an element count `num` of type `UINT`
to the index type `VecIdx` of the sequences, whose declaration is not part of the
fragment; it is taken as the signed type `INT`, 32 bits wide: counts from `2 ^ 31` on
become negative. -/
def VecIdx_cast (num : Nat) : Int :=
  if num % UINT_MOD < 2 ^ 31 then ((num % UINT_MOD : Nat) : Int)
  else ((num % UINT_MOD : Nat) : Int) - ((UINT_MOD : Nat) : Int)

/-- Modelled from the spec: `Stack<T>`, the explicit stack of the traversal; the top is
the head of the list. -/
abbrev Stack (α : Type) := List α

/-- Modelled from the spec: `push(t)`. -/
def Stack.push {α : Type} (s : Stack α) (t : α) : Stack α := t :: s

/-- Modelled from the spec: `pop()` removes the top and returns it; on an empty stack it
returns `T(0)`, given here as `zero`. -/
def Stack.pop {α : Type} (s : Stack α) (zero : α) : α × Stack α := (s.headD zero, s.tail)

/-- Modelled from the spec: `get_top()` returns the top without removing it; on an empty
stack it returns `T(0)`, given here as `zero`. -/
def Stack.get_top {α : Type} (s : Stack α) (zero : α) : α := s.headD zero

/-- The class `IntVal2Node`: the mapped object and the child index `next`. -/
structure IntVal2Node (M : Type) where
  mapped : M
  next : TMap
  deriving DecidableEq, Repr

/-- The body of `IntVal2Node::init` (and of the constructor): `mapped = MappedObj(0)` and
an empty child index. -/
def IntVal2Node.init {M : Type} [Zero M] : IntVal2Node M :=
  { mapped := 0, next := [] }

/-- The class `IntSetMap`: the node store, the debug node counter and the root pointer. -/
structure IntSetMap (M : Type) where
  mem : List (IntVal2Node M)
  m_num_node : Nat
  m_root_val2node : Ptr
  deriving DecidableEq, Repr

/-- Outcome of the consistency assertions at the end of `set`. -/
inductive Check where
  | notEvaluated
  | passed
  | failed
  deriving DecidableEq, Repr

section Ops

variable {M : Type} [Zero M] [DecidableEq M]

/-- The constructor `IntSetMap()`: no pool node yet, a freshly constructed root. -/
def IntSetMap.new : IntSetMap M :=
  { mem := [IntVal2Node.init], m_num_node := 0, m_root_val2node := some 0 }

/-- Reading `*p`. A null or dangling pointer reads as an initialised node. -/
def IntSetMap.load (m : IntSetMap M) (p : Ptr) : IntVal2Node M :=
  match p with
  | none => IntVal2Node.init
  | some a => m.mem.getD a IntVal2Node.init

/-- The statement `p->next.set(ival, q)`. -/
def IntSetMap.storeNext (m : IntSetMap M) (p : Ptr) (ival : Int) (q : Ptr) : IntSetMap M :=
  match p with
  | none => m
  | some a =>
    { m with mem := m.mem.set a { m.load p with next := TMap.set (m.load p).next ival q } }

/-- The statement `p->mapped = v`. -/
def IntSetMap.storeMapped (m : IntSetMap M) (p : Ptr) (v : M) : IntSetMap M :=
  match p with
  | none => m
  | some a => { m with mem := m.mem.set a { m.load p with mapped := v } }

/-- The function `allocV2NMap`: a new initialised node at the next free address;
`m_num_node` is incremented. -/
def IntSetMap.allocV2NMap (m : IntSetMap M) : IntSetMap M × Ptr :=
  ({ m with mem := m.mem ++ [IntVal2Node.init], m_num_node := m.m_num_node + 1 },
   some m.mem.length)

/-- The function `get_root`. -/
def IntSetMap.get_root (m : IntSetMap M) : Ptr := m.m_root_val2node

/-- The body of the loop `for (i++; i < (VecIdx)num; i++)` of `set(Vector)`, repeated:
`n` iterations remain, the index is `i`. -/
def IntSetMap.set_Vector_loop (iset : Vector) :
    Nat → Nat → IntSetMap M → Ptr → IntSetMap M × Ptr
  | 0, _, m, mn => (m, mn)
  | n + 1, i, m, mn =>
    let ival := iset.get i
    let nextmn := TMap.get (m.load mn).next ival
    let r :=
      if nextmn = none then
        let a := m.allocV2NMap
        (a.1.storeNext mn ival a.2, a.2)
      else (m, nextmn)
    IntSetMap.set_Vector_loop iset n (i + 1) r.1 r.2

/-- The two assertions before the final assignment of `set`:
`ASSERT0(mn)` and `ASSERT0(mn->mapped == mapped || mn->mapped == MappedObj(0))`. -/
def IntSetMap.set_check (m : IntSetMap M) (mn : Ptr) (mapped : M) : Check :=
  if mn ≠ none ∧ ((m.load mn).mapped = mapped ∨ (m.load mn).mapped = 0) then Check.passed
  else Check.failed

/-- The function `set(Vector<IntType> const& iset, MappedObj mapped)`. The loop
`for (i++; i < (VecIdx)num; i++)` starts at index `1` and runs `(VecIdx)num - 1` times
when that number is positive, and not at all otherwise. -/
def IntSetMap.set_Vector (m : IntSetMap M) (iset : Vector) (mapped : M) :
    IntSetMap M × Check :=
  let num := iset.get_elem_count
  if num = 0 then (m, Check.notEvaluated)
  else
    let ival := iset.get 0
    let mn := TMap.get (m.load m.m_root_val2node).next ival
    let r :=
      if mn = none then
        let a := m.allocV2NMap
        (a.1.storeNext a.1.m_root_val2node ival a.2, a.2)
      else (m, mn)
    let r := IntSetMap.set_Vector_loop iset (VecIdx_cast num - 1).toNat 1 r.1 r.2
    (r.1.storeMapped r.2 mapped, r.1.set_check r.2 mapped)

/-- The body of the loop `for (i++; i < (VecIdx)num; i++)` of `set(List)`, repeated:
`n` iterations remain, `it` is the list iterator. -/
def IntSetMap.set_List_loop (iset : LinkedList) :
    Nat → LinkedList.Iter → IntSetMap M → Ptr → IntSetMap M × Ptr
  | 0, _, m, mn => (m, mn)
  | n + 1, it, m, mn =>
    let g := iset.get_next it
    let ival := g.1
    let nextmn := TMap.get (m.load mn).next ival
    let r :=
      if nextmn = none then
        let a := m.allocV2NMap
        (a.1.storeNext mn ival a.2, a.2)
      else (m, nextmn)
    IntSetMap.set_List_loop iset n g.2 r.1 r.2

/-- The function `set(List<IntType> const& iset, MappedObj mapped)`, with the same loop
bound `(VecIdx)num` as `set(Vector)`. -/
def IntSetMap.set_List (m : IntSetMap M) (iset : LinkedList) (mapped : M) :
    IntSetMap M × Check :=
  let num := iset.get_elem_count
  if num = 0 then (m, Check.notEvaluated)
  else
    let g := iset.get_head
    let ival := g.1
    let mn := TMap.get (m.load m.m_root_val2node).next ival
    let r :=
      if mn = none then
        let a := m.allocV2NMap
        (a.1.storeNext a.1.m_root_val2node ival a.2, a.2)
      else (m, mn)
    let r := IntSetMap.set_List_loop iset (VecIdx_cast num - 1).toNat g.2 r.1 r.2
    (r.1.storeMapped r.2 mapped, r.1.set_check r.2 mapped)

/-- The loop of `find(Vector)`: `n` iterations remain, the index is `i`. The result is
`none` when the loop executes `return false`, and the final `mn` otherwise. -/
def IntSetMap.find_Vector_loop (m : IntSetMap M) (set : Vector) :
    Nat → Nat → Ptr → Option Ptr
  | 0, _, mn => some mn
  | n + 1, i, mn =>
    let ival := set.get i
    if mn = none then none
    else
      let nextmn := TMap.get (m.load mn).next ival
      if nextmn = none then none
      else IntSetMap.find_Vector_loop m set n (i + 1) nextmn

/-- The function `find(Vector<IntType> const& set, OUT MappedObj & mapped)`. The second
argument is the content of the output variable before the call; the result is the
returned boolean and the content of the output variable after the call. The loop
`for (VecIdx i = 0; i < (VecIdx)num; i++)` runs `(VecIdx)num` times when that number is
positive, and not at all otherwise. -/
def IntSetMap.find_Vector (m : IntSetMap M) (set : Vector) (mapped : M) : Bool × M :=
  let mn := m.get_root
  let num := set.get_elem_count
  match IntSetMap.find_Vector_loop m set (VecIdx_cast num).toNat 0 mn with
  | none => (false, mapped)
  | some mn => (true, (m.load mn).mapped)

/-- The loop of `find(List)`: `n` iterations remain, `it` is the list iterator. The result
is `none` when `it->val()` is evaluated on a null iterator; otherwise it is `some none`
when the loop executes `return false`, and the final `mn` otherwise. -/
def IntSetMap.find_List_loop (m : IntSetMap M) (set : LinkedList) :
    Nat → LinkedList.Iter → Ptr → Option (Option Ptr)
  | 0, _, mn => some (some mn)
  | n + 1, it, mn =>
    match it.val with
    | none => none
    | some ival =>
      if mn = none then some none
      else
        let nextmn := TMap.get (m.load mn).next ival
        if nextmn = none then some none
        else IntSetMap.find_List_loop m set n (set.get_next it).2 nextmn

/-- The function `find(List<IntType> const& set, OUT MappedObj & mapped)`, with the
conventions and the loop bound `(VecIdx)num` of `find_Vector`; the result is `none` when
the iterator is dereferenced while null. -/
def IntSetMap.find_List (m : IntSetMap M) (set : LinkedList) (mapped : M) :
    Option (Bool × M) :=
  let mn := m.get_root
  let num := set.get_elem_count
  let it := set.get_head.2
  match IntSetMap.find_List_loop m set (VecIdx_cast num).toNat it mn with
  | none => none
  | some none => some (false, mapped)
  | some (some mn) => some (true, (m.load mn).mapped)

/-- One iteration of the outer loop of `dump_helper`: the node popped from `mn_stack` and
the arguments `mapped`, `indent`, `ival` handed to `dump_helper_mapped`. -/
structure DumpVisit (M : Type) where
  node : Ptr
  indent : Nat
  ival : Int
  mapped : M
  deriving DecidableEq, Repr

/-- The local state of `dump_helper`: the three stacks, the calls of `dump_helper_mapped`
made so far (in order), and whether every `ASSERT0(nextmn)` executed so far held. -/
structure DumpState (M : Type) where
  mn_stack : Stack Ptr
  ival_stack : Stack Int
  indent_stack : Stack Nat
  out : List (DumpVisit M)
  asserts : Bool
  deriving DecidableEq, Repr

/-- The inner loop of `dump_helper` over the child index, from `get_first` to `ti.end()`
in ascending key order: `ASSERT0(nextmn)`, then the three pushes; `ind + 2` is a sum of
`UINT` values. -/
def IntSetMap.dump_push (ind : Nat) : TMap → DumpState M → DumpState M
  | [], st => st
  | (nival, nextmn) :: rest, st =>
    IntSetMap.dump_push ind rest
      { st with
        mn_stack := st.mn_stack.push nextmn
        ival_stack := st.ival_stack.push nival
        indent_stack := st.indent_stack.push ((ind + 2) % UINT_MOD)
        asserts := st.asserts && nextmn.isSome }

/-- The body of the outer loop of `dump_helper`: the three pops, the call of
`dump_helper_mapped`, and the inner loop over the children of the popped node. -/
def IntSetMap.dump_body (m : IntSetMap M) (st : DumpState M) : DumpState M :=
  let p := st.mn_stack.pop none
  let pi := st.ival_stack.pop 0
  let pd := st.indent_stack.pop 0
  let mn2 := p.1
  let ival := pi.1
  let ind := pd.1
  IntSetMap.dump_push ind (m.load mn2).next
    { mn_stack := p.2
      ival_stack := pi.2
      indent_stack := pd.2
      out := st.out ++ [{ node := mn2, indent := ind, ival := ival, mapped := (m.load mn2).mapped }]
      asserts := st.asserts }

/-- The outer loop `for (; mn_stack.get_top() != nullptr;)` of `dump_helper`, run for at
most `fuel` iterations: the state at the exit of the loop, or `none` when `fuel`
iterations do not reach the exit. -/
def IntSetMap.dump_loop (m : IntSetMap M) : Nat → DumpState M → Option (DumpState M)
  | 0, st => if st.mn_stack.get_top none = none then some st else none
  | fuel + 1, st =>
    if st.mn_stack.get_top none = none then some st
    else IntSetMap.dump_loop m fuel (m.dump_body st)

/-- The function `dump_helper(h, mn, indent)`: `ASSERT0(mn)`, the three initial pushes
(the key of the start node is the placeholder `IntType(0)`), then the outer loop. -/
def IntSetMap.dump_helper (m : IntSetMap M) (fuel : Nat) (mn : Ptr) (indent : Nat) :
    Option (DumpState M) :=
  m.dump_loop fuel
    { mn_stack := Stack.push [] mn
      ival_stack := Stack.push [] 0
      indent_stack := Stack.push [] indent
      out := []
      asserts := mn.isSome }

/-- The function `IntVal2Node::count_mem`: `next.count_mem() + sizeof(mapped)`. The byte
count of a child index and the size of a mapped object are parameters. -/
def IntVal2Node.count_mem (tmap_count_mem : TMap → Nat) (sizeof_mapped : Nat)
    (n : IntVal2Node M) : Nat :=
  tmap_count_mem n.next + sizeof_mapped

/-- The function `IntSetMap::count_mem`. The results of `smpoolGetPoolSize(m_pool)` and
`smpoolGetPoolSize(m_rbtn_pool)` are the parameters `pool_size` and `rbtn_pool_size`. -/
def IntSetMap.count_mem (m : IntSetMap M) (pool_size rbtn_pool_size : Nat)
    (tmap_count_mem : TMap → Nat) (sizeof_mapped : Nat) : Nat :=
  let count := pool_size
  let count := count + rbtn_pool_size
  let count := count + (m.load m.get_root).count_mem tmap_count_mem sizeof_mapped
  count

end Ops

/-! ## Observations used to state the properties -/

section Model

variable {M : Type} [Zero M]

/-- The lookup performed by one iteration of the loop of `find`: the child of `mn` under
`k`, or `nullptr` when `mn` is `nullptr` or has no such child. -/
def IntSetMap.child (m : IntSetMap M) (mn : Ptr) (k : Int) : Ptr :=
  if mn = none then none else TMap.get (m.load mn).next k

/-- The node reached from `mn` along the key sequence `K` (`nullptr` when the path
leaves the tree). -/
def IntSetMap.walk (m : IntSetMap M) (mn : Ptr) (K : List Int) : Ptr :=
  K.foldl m.child mn

/-- One descent of `set`, as written for the root and again in the loop body: look up
`ival` below `mn`; allocate and link a child when the lookup yields `nullptr`. Returns
the new state and the child. -/
def IntSetMap.set_step (m : IntSetMap M) (mn : Ptr) (ival : Int) : IntSetMap M × Ptr :=
  let nextmn := TMap.get (m.load mn).next ival
  if nextmn = none then
    let a := m.allocV2NMap
    (a.1.storeNext mn ival a.2, a.2)
  else (m, nextmn)

/-- The descent of `set` along a whole key sequence, starting below `mn`. -/
def IntSetMap.extend (m : IntSetMap M) (mn : Ptr) (K : List Int) : IntSetMap M × Ptr :=
  K.foldl (fun r k => r.1.set_step r.2 k) (m, mn)

/-- The representation invariant of a container: the root is the first object of the
store, the counter counts the pool nodes, every child pointer is a valid address, and
every object of the store is the node of exactly one path from the root. -/
structure IntSetMap.Inv (m : IntSetMap M) : Prop where
  root : m.m_root_val2node = some 0
  count : m.mem.length = m.m_num_node + 1
  valid : ∀ a k q, TMap.get (m.load (some a)).next k = some q → q < m.mem.length
  tree : ∃ path : Nat → List Int,
    (∀ a, a < m.mem.length → m.walk (some 0) (path a) = some a) ∧
    (∀ K a, m.walk (some 0) K = some a → path a = K)

/-- What a descent of `set` may do to the store: stored values are untouched, existing
child entries are kept, and the store does not shrink. -/
structure IntSetMap.Grows (m m' : IntSetMap M) : Prop where
  mapped : ∀ p, (m'.load p).mapped = (m.load p).mapped
  child : ∀ p k q, m.child p k = some q → m'.child p k = some q
  length : m.mem.length ≤ m'.mem.length

/-- The number of non-negative values of the index type `VecIdx`: the loops of `set` and
`find` traverse the whole of a sequence exactly when it has fewer elements than this. -/
def VecIdx_LIMIT : Nat := 2 ^ 31

/-- The elements of a key sequence that the descent of `set` visits: the first one, and
those the loop bounded by `(VecIdx)num` reaches. -/
def setKey (K : List Int) : List Int := K.take ((VecIdx_cast K.length - 1).toNat + 1)

/-- The elements of a key sequence that the loop of `find`, bounded by `(VecIdx)num`,
visits. -/
def findKey (K : List Int) : List Int := K.take (VecIdx_cast K.length).toNat

/-- A key of `2 ^ 31` elements: `1` followed by `2 ^ 31 - 1` further ones. -/
def longKey : List Int := 1 :: List.replicate 2147483647 1

/-- The value stored at the node of the path `K` (the sentinel when there is no such
node). -/
def IntSetMap.valueAt (m : IntSetMap M) (K : List Int) : M :=
  (m.load (m.walk m.m_root_val2node K)).mapped

/-- A call of `set`, through either overload. -/
inductive SetCall (M : Type) where
  | vector (iset : Vector) (mapped : M)
  | list (iset : LinkedList) (mapped : M)
  deriving DecidableEq, Repr

/-- The key sequence passed by a call of `set`. -/
def SetCall.key : SetCall M → List Int
  | SetCall.vector iset _ => iset.elems
  | SetCall.list iset _ => iset.cells

/-- The value passed by a call of `set`. -/
def SetCall.value : SetCall M → M
  | SetCall.vector _ mapped => mapped
  | SetCall.list _ mapped => mapped

/-- The call with the key replaced by the elements that `set` visits. -/
def SetCall.eff : SetCall M → SetCall M
  | SetCall.vector iset mapped => SetCall.vector ⟨setKey iset.elems⟩ mapped
  | SetCall.list iset mapped => SetCall.list ⟨setKey iset.cells⟩ mapped

/-- The value of the last call of the history whose key is the non-empty sequence `K`;
the sentinel when there is none. -/
def lastSet (calls : List (SetCall M)) (K : List Int) : M :=
  calls.foldl (fun v c => if c.key = K ∧ K ≠ [] then c.value else v) 0

variable [DecidableEq M]

/-- The container after a call of `set`. -/
def IntSetMap.call (m : IntSetMap M) : SetCall M → IntSetMap M
  | SetCall.vector iset mapped => (m.set_Vector iset mapped).1
  | SetCall.list iset mapped => (m.set_List iset mapped).1

/-- The container obtained from a fresh one by a list of `set` calls. -/
def IntSetMap.run (calls : List (SetCall M)) : IntSetMap M :=
  calls.foldl IntSetMap.call IntSetMap.new

/-- The iterator of `find(List)` at the start of iteration `i`: `get_head`, then `i`
times `get_next`. -/
def LinkedList.iterAt (l : LinkedList) : Nat → LinkedList.Iter
  | 0 => l.get_head.2
  | i + 1 => (l.get_next (LinkedList.iterAt l i)).2

/-- The keys of a child index ascend strictly. -/
def TMap.Ascending (l : TMap) : Prop := (l.map Prod.fst).Pairwise (· < ·)

/-- The invariant of the child indices: keys ascend strictly, and every entry points to a
node of the store that was allocated after the node holding the entry. -/
structure IntSetMap.Shape (m : IntSetMap M) : Prop where
  sorted : ∀ a, TMap.Ascending (m.load (some a)).next
  entries : ∀ a k q, (k, q) ∈ (m.load (some a)).next →
    ∃ c, q = some c ∧ a < c ∧ c < m.mem.length

/-- The paths of the nodes below and including `mn`, whose own path is `K`, in the order
in which a stack-driven traversal that pushes the children in ascending key order pops
them; `D` bounds the depth explored. -/
def IntSetMap.prePaths (m : IntSetMap M) : Nat → Ptr → List Int → List (List Int)
  | 0, _, _ => []
  | D + 1, mn, K =>
    K :: ((m.load mn).next.reverse.flatMap
      (fun e => IntSetMap.prePaths m D e.2 (K ++ [e.1])))

/-- The frame that `dump_helper` pushes for the node of the path `K`, the base indent
being `b`: the node, the last key segment (the placeholder `0` for the root), and the
indent. -/
def IntSetMap.frameOf (m : IntSetMap M) (b : Nat) (K : List Int) : Ptr × Int × Nat :=
  (m.walk m.m_root_val2node K, K.getLastD 0, (b + 2 * K.length) % UINT_MOD)

/-- What `dump_helper` hands to `dump_helper_mapped` for the node of the path `K`, the
base indent being `b`. -/
def IntSetMap.visitOf (m : IntSetMap M) (b : Nat) (K : List Int) : DumpVisit M :=
  { node := m.walk m.m_root_val2node K
    indent := (b + 2 * K.length) % UINT_MOD
    ival := K.getLastD 0
    mapped := m.valueAt K }

/-- The state of `dump_helper` whose three stacks hold the given frames, top first. -/
def DumpState.ofFrames (F : List (Ptr × Int × Nat)) (out : List (DumpVisit M)) :
    DumpState M :=
  { mn_stack := F.map (fun f => f.1)
    ival_stack := F.map (fun f => f.2.1)
    indent_stack := F.map (fun f => f.2.2)
    out := out
    asserts := true }

/-- The state of `dump_helper(h, mn, indent)` after `n` iterations of the body of its
outer loop. -/
def IntSetMap.dump_state (m : IntSetMap M) (n : Nat) (mn : Ptr) (indent : Nat) :
    DumpState M :=
  Nat.iterate m.dump_body n
    { mn_stack := Stack.push [] mn
      ival_stack := Stack.push [] 0
      indent_stack := Stack.push [] indent
      out := []
      asserts := mn.isSome }

end Model

/-! ## Lemmas about the store, the loops of `set` and `find`, and the traversal -/

section Lemmas

variable {M : Type} [Zero M]

/-- A count below `2 ^ 31` is unchanged by the cast to `VecIdx`. -/
theorem VecIdx_cast_of_lt {n : Nat} (h : n < VecIdx_LIMIT) : VecIdx_cast n = (n : Int) := by
  unfold VecIdx_cast VecIdx_LIMIT UINT_MOD at *
  have h1 : n % 2 ^ 32 = n := Nat.mod_eq_of_lt (by omega)
  rw [h1, if_pos h]

theorem VecIdx_cast_le (n : Nat) : VecIdx_cast n ≤ (n : Int) := by
  unfold VecIdx_cast UINT_MOD
  have := Nat.mod_le n (2 ^ 32)
  split_ifs <;> omega

theorem VecIdx_cast_lt (n : Nat) : VecIdx_cast n < 2147483648 := by
  unfold VecIdx_cast UINT_MOD
  have := Nat.mod_lt n (show 2 ^ 32 > 0 by norm_num)
  split_ifs <;> omega

/-- A count from `2 ^ 31` on, below `2 ^ 32`, is negative after the cast to `VecIdx`. -/
theorem VecIdx_cast_neg {n : Nat} (h1 : VecIdx_LIMIT ≤ n) (h2 : n < UINT_MOD) :
    VecIdx_cast n < 0 := by
  unfold VecIdx_cast VecIdx_LIMIT UINT_MOD at *
  have h3 : n % 2 ^ 32 = n := Nat.mod_eq_of_lt h2
  rw [h3, if_neg (by omega)]
  omega

/-- On a key of fewer than `2 ^ 31` elements `set` visits every element. -/
theorem setKey_of_lt {K : List Int} (h : K.length < VecIdx_LIMIT) : setKey K = K := by
  unfold setKey
  rw [VecIdx_cast_of_lt h]
  apply List.take_of_length_le
  omega

/-- On a key of fewer than `2 ^ 31` elements `find` visits every element. -/
theorem findKey_of_lt {K : List Int} (h : K.length < VecIdx_LIMIT) : findKey K = K := by
  unfold findKey
  rw [VecIdx_cast_of_lt h]
  apply List.take_of_length_le
  simp

/-- On a key of `2 ^ 31` elements or more, below `2 ^ 32`, `find` visits no element. -/
theorem findKey_of_ge {K : List Int} (h1 : VecIdx_LIMIT ≤ K.length) (h2 : K.length < UINT_MOD) :
    findKey K = [] := by
  unfold findKey
  have := VecIdx_cast_neg h1 h2
  have h0 : (VecIdx_cast K.length).toNat = 0 := by omega
  rw [h0]; rfl

theorem setKey_length_lt (K : List Int) : (setKey K).length < VecIdx_LIMIT := by
  unfold setKey VecIdx_LIMIT
  have h1 := VecIdx_cast_lt K.length
  rw [List.length_take]
  omega

theorem setKey_ne_nil {K : List Int} (h : K ≠ []) : setKey K ≠ [] := by
  cases K with
  | nil => exact absurd rfl h
  | cons k K => simp [setKey]

theorem setKey_eq_nil_iff (K : List Int) : setKey K = [] ↔ K = [] := by
  constructor
  · intro h
    by_contra hne
    exact setKey_ne_nil hne h
  · intro h
    rw [h]; rfl

theorem setKey_setKey (K : List Int) : setKey (setKey K) = setKey K :=
  setKey_of_lt (setKey_length_lt K)

theorem cons_replicate_length (n : Nat) (a : Int) :
    (a :: List.replicate n a).length = n + 1 := by
  rw [List.length_cons, List.length_replicate]

theorem longKey_length : longKey.length = 2147483648 := cons_replicate_length 2147483647 1

theorem cons_replicate_take_one (n : Nat) (a : Int) :
    (a :: List.replicate n a).take 1 = [a] := rfl

/-- Of the key of `2 ^ 31` ones `set` visits the first element only. -/
theorem setKey_longKey : setKey longKey = [1] := by
  unfold setKey
  rw [longKey_length]
  have h : (VecIdx_cast 2147483648 - 1).toNat + 1 = 1 := by decide
  rw [h]
  exact cons_replicate_take_one 2147483647 1

/-- Of the key of `2 ^ 31` ones `find` visits no element. -/
theorem findKey_longKey : findKey longKey = [] := by
  unfold findKey
  rw [longKey_length]
  have h : (VecIdx_cast 2147483648).toNat = 0 := by decide
  rw [h]
  rfl

theorem longKey_ne_nil : longKey ≠ [] := by
  intro h
  have := congrArg List.length h
  rw [longKey_length] at this
  exact absurd this (by decide)

theorem longKey_ne_one : longKey ≠ [1] := by
  intro h
  have := congrArg List.length h
  rw [longKey_length] at this
  exact absurd this (by decide)

theorem TMap.get_set (l : TMap) (k : Int) (q : Ptr) (t : Int) :
    TMap.get (TMap.set l k q) t = if t = k then q else TMap.get l t := by
  induction l with
  | nil => simp [TMap.set, TMap.get]
  | cons hd rest ih =>
    obtain ⟨k', v'⟩ := hd
    simp only [TMap.set]
    split_ifs with h1 h2 h3 <;> simp only [TMap.get, ih] <;> split_ifs <;> first | rfl | omega

theorem IntSetMap.load_alloc (m : IntSetMap M) (p : Ptr) :
    m.allocV2NMap.1.load p = m.load p := by
  cases p with
  | none => rfl
  | some a =>
    simp only [IntSetMap.load, IntSetMap.allocV2NMap]
    by_cases h : a < m.mem.length
    · simp [List.getD_eq_getElem?_getD, List.getElem?_append_left h]
    · have h' : m.mem.length ≤ a := Nat.le_of_not_lt h
      rw [List.getD_eq_getElem?_getD, List.getD_eq_getElem?_getD, List.getElem?_eq_none h']
      by_cases h2 : a = m.mem.length
      · subst h2; simp
      · rw [List.getElem?_eq_none]
        simp; omega

theorem IntSetMap.load_storeNext (m : IntSetMap M) (b : Nat) (hb : b < m.mem.length)
    (k : Int) (q : Ptr) (p : Ptr) :
    (m.storeNext (some b) k q).load p =
      if p = some b then { m.load p with next := TMap.set (m.load p).next k q } else m.load p := by
  cases p with
  | none => simp [IntSetMap.load]
  | some a =>
    simp only [IntSetMap.load, IntSetMap.storeNext, List.getD_eq_getElem?_getD, List.getElem?_set]
    by_cases h : b = a
    · subst h; simp [hb]
    · have : ¬ a = b := fun e => h e.symm
      simp [h, this]

theorem IntSetMap.load_storeMapped (m : IntSetMap M) (b : Nat) (hb : b < m.mem.length)
    (v : M) (p : Ptr) :
    (m.storeMapped (some b) v).load p =
      if p = some b then { m.load p with mapped := v } else m.load p := by
  cases p with
  | none => simp [IntSetMap.load]
  | some a =>
    simp only [IntSetMap.load, IntSetMap.storeMapped, List.getD_eq_getElem?_getD, List.getElem?_set]
    by_cases h : b = a
    · subst h; simp [hb]
    · have : ¬ a = b := fun e => h e.symm
      simp [h, this]

theorem IntSetMap.load_dangling (m : IntSetMap M) (a : Nat) (h : m.mem.length ≤ a) :
    m.load (some a) = IntVal2Node.init := by
  simp [IntSetMap.load, List.getD_eq_getElem?_getD, List.getElem?_eq_none h]

@[simp] theorem IntSetMap.walk_nil (m : IntSetMap M) (mn : Ptr) : m.walk mn [] = mn := rfl

@[simp] theorem IntSetMap.walk_cons (m : IntSetMap M) (mn : Ptr) (k : Int) (K : List Int) :
    m.walk mn (k :: K) = m.walk (m.child mn k) K := rfl

theorem IntSetMap.walk_append (m : IntSetMap M) (mn : Ptr) (K K' : List Int) :
    m.walk mn (K ++ K') = m.walk (m.walk mn K) K' := by
  simp [IntSetMap.walk, List.foldl_append]

theorem IntSetMap.walk_concat (m : IntSetMap M) (mn : Ptr) (K : List Int) (k : Int) :
    m.walk mn (K ++ [k]) = m.child (m.walk mn K) k := by
  simp [IntSetMap.walk_append]

@[simp] theorem IntSetMap.child_none (m : IntSetMap M) (k : Int) : m.child none k = none := by
  simp [IntSetMap.child]

@[simp] theorem IntSetMap.walk_none (m : IntSetMap M) (K : List Int) : m.walk none K = none := by
  induction K with
  | nil => rfl
  | cons k K ih => simp [ih]

theorem IntSetMap.walk_prefix (m : IntSetMap M) (mn : Ptr) {K K' : List Int} (h : K <+: K')
    (hp : m.walk mn K' ≠ none) : m.walk mn K ≠ none := by
  obtain ⟨t, rfl⟩ := h
  intro h0
  rw [IntSetMap.walk_append, h0] at hp
  simp at hp

/-- Two stores with the same child indices everywhere have the same paths. -/
theorem IntSetMap.walk_congr (m m' : IntSetMap M)
    (h : ∀ p, (m'.load p).next = (m.load p).next) (mn : Ptr) (K : List Int) :
    m'.walk mn K = m.walk mn K := by
  induction K generalizing mn with
  | nil => rfl
  | cons k K ih => simp [IntSetMap.child, h, ih]

theorem IntSetMap.child_some (m : IntSetMap M) (b : Nat) (k : Int) :
    m.child (some b) k = TMap.get (m.load (some b)).next k := by
  simp [IntSetMap.child]

theorem IntSetMap.child_eq_some {m : IntSetMap M} {p : Ptr} {k : Int} {a : Nat}
    (h : m.child p k = some a) : ∃ b, p = some b ∧ TMap.get (m.load (some b)).next k = some a := by
  cases p with
  | none => simp at h
  | some b => exact ⟨b, rfl, by simpa [IntSetMap.child] using h⟩

theorem IntSetMap.Inv.walk_valid {m : IntSetMap M} (hm : m.Inv) :
    ∀ (K : List Int) (a : Nat), m.walk (some 0) K = some a → a < m.mem.length := by
  intro K
  induction K using List.reverseRecOn with
  | nil =>
    intro a h
    have := hm.count
    simp at h
    omega
  | append_singleton K k _ =>
    intro a h
    rw [IntSetMap.walk_concat] at h
    obtain ⟨b, _, hb⟩ := IntSetMap.child_eq_some h
    exact hm.valid b k a hb

theorem IntSetMap.Inv.walk_inj {m : IntSetMap M} (hm : m.Inv) {K K' : List Int} {a : Nat}
    (h : m.walk (some 0) K = some a) (h' : m.walk (some 0) K' = some a) : K = K' := by
  obtain ⟨path, _, hp⟩ := hm.tree
  rw [← hp K a h, ← hp K' a h']

/-- Linking a fresh node `c` below `b` under the key `k` adds exactly the path to `c`. -/
theorem IntSetMap.Inv.walk_link {m m' : IntSetMap M} (hm : m.Inv) {K0 : List Int} {b c : Nat}
    {k : Int} (hb : m.walk (some 0) K0 = some b) (hk : m.child (some b) k = none)
    (hc : m.mem.length ≤ c)
    (hchild : ∀ p k2, m'.child p k2 = if p = some b ∧ k2 = k then some c else m.child p k2)
    (K2 : List Int) :
    m'.walk (some 0) K2 = if K2 = K0 ++ [k] then some c else m.walk (some 0) K2 := by
  induction K2 using List.reverseRecOn with
  | nil => simp
  | append_singleton K k2 ih =>
    rw [IntSetMap.walk_concat, IntSetMap.walk_concat, ih, hchild]
    by_cases h1 : K = K0 ++ [k]
    · -- below the fresh node there is nothing
      have hne : ¬ (K ++ [k2] = K0 ++ [k]) := by
        intro h
        have := congrArg List.length h
        simp [h1] at this
      have hcb : ¬ ((some c : Ptr) = some b ∧ k2 = k) := by
        rintro ⟨h, _⟩
        have hlt := hm.walk_valid K0 b hb
        simp at h
        omega
      have hold : m.walk (some 0) K = none := by
        rw [h1, IntSetMap.walk_concat, hb, hk]
      rw [if_pos h1, if_neg hcb, if_neg hne, hold]
      simp [IntSetMap.child, IntSetMap.load_dangling m c hc, IntVal2Node.init, TMap.get]
    · rw [if_neg h1]
      by_cases h2 : m.walk (some 0) K = some b ∧ k2 = k
      · obtain ⟨h2a, h2b⟩ := h2
        have hK : K = K0 := hm.walk_inj h2a hb
        rw [if_pos ⟨h2a, h2b⟩, if_pos (by rw [hK, h2b])]
      · rw [if_neg h2, if_neg]
        intro h
        obtain ⟨hK, hk2⟩ := List.append_inj' h rfl
        apply h2
        refine ⟨by rw [hK]; exact hb, by simpa using hk2⟩

theorem IntSetMap.Grows.refl (m : IntSetMap M) : m.Grows m :=
  ⟨fun _ => rfl, fun _ _ _ h => h, Nat.le_refl _⟩

theorem IntSetMap.Grows.trans {m m' m'' : IntSetMap M} (h : m.Grows m') (h' : m'.Grows m'') :
    m.Grows m'' :=
  ⟨fun p => (h'.mapped p).trans (h.mapped p), fun p k q e => h'.child p k q (h.child p k q e),
   Nat.le_trans h.length h'.length⟩

theorem IntSetMap.Grows.walk {m m' : IntSetMap M} (h : m.Grows m') (K : List Int) :
    ∀ (p : Ptr) (a : Nat), m.walk p K = some a → m'.walk p K = some a := by
  induction K using List.reverseRecOn with
  | nil => intro p a e; simpa using e
  | append_singleton K k ih =>
    intro p a e
    rw [IntSetMap.walk_concat] at e ⊢
    obtain ⟨b, hb, _⟩ := IntSetMap.child_eq_some e
    rw [ih p b hb]
    rw [hb] at e
    exact h.child _ _ _ e

/-- Specification of one descent of `set` below the node of the path `K0`. -/
theorem IntSetMap.Inv.set_step {m : IntSetMap M} (hm : m.Inv) {K0 : List Int} {b : Nat}
    (hb : m.walk (some 0) K0 = some b) (k : Int) :
    (m.set_step (some b) k).1.Inv ∧ m.Grows (m.set_step (some b) k).1 ∧
    ∃ c, (m.set_step (some b) k).2 = some c ∧
      ∀ K2, (m.set_step (some b) k).1.walk (some 0) K2 =
        if K2 = K0 ++ [k] then some c else m.walk (some 0) K2 := by
  have hblt : b < m.mem.length := hm.walk_valid K0 b hb
  unfold IntSetMap.set_step
  cases hg : TMap.get (m.load (some b)).next k with
  | some q =>
    simp only [reduceCtorEq, if_false]
    refine ⟨hm, IntSetMap.Grows.refl m, q, rfl, fun K2 => ?_⟩
    split_ifs with h
    · rw [h, IntSetMap.walk_concat, hb, IntSetMap.child_some, hg]
    · rfl
  | none =>
    simp only [if_true]
    have hk : m.child (some b) k = none := by rw [IntSetMap.child_some, hg]
    have hlen : (m.allocV2NMap.1).mem.length = m.mem.length + 1 := by
      simp [IntSetMap.allocV2NMap]
    have hload : ∀ p, ((m.allocV2NMap.1).storeNext (some b) k (m.allocV2NMap.2)).load p =
        if p = some b then
          { m.load p with next := TMap.set (m.load p).next k (some m.mem.length) }
        else m.load p := by
      intro p
      rw [IntSetMap.load_storeNext _ b (by omega)]
      simp only [IntSetMap.load_alloc]
      rfl
    have hchild : ∀ p k2,
        ((m.allocV2NMap.1).storeNext (some b) k (m.allocV2NMap.2)).child p k2 =
          if p = some b ∧ k2 = k then some m.mem.length else m.child p k2 := by
      intro p k2
      unfold IntSetMap.child
      rw [hload]
      by_cases hp : p = some b
      · subst hp
        simp only [reduceCtorEq, if_false, if_true, TMap.get_set, true_and]
      · by_cases hn : p = none
        · simp [hn]
        · simp [hp, hn]
    have hwalk := fun K2 => hm.walk_link hb hk (Nat.le_refl _) hchild K2
    have hlen' : ((m.allocV2NMap.1).storeNext (some b) k (m.allocV2NMap.2)).mem.length =
        m.mem.length + 1 := by
      simp [IntSetMap.storeNext, hlen]
    refine ⟨⟨?_, ?_, ?_, ?_⟩, ⟨?_, ?_, ?_⟩, m.mem.length, rfl, hwalk⟩
    · simpa [IntSetMap.storeNext, IntSetMap.allocV2NMap] using hm.root
    · rw [hlen']
      simp [IntSetMap.storeNext, IntSetMap.allocV2NMap, hm.count]
    · intro a k2 q hq
      rw [hlen']
      rw [← IntSetMap.child_some, hchild] at hq
      split_ifs at hq with h
      · simp at hq; omega
      · rw [IntSetMap.child_some] at hq
        have := hm.valid a k2 q hq
        omega
    · obtain ⟨path, hp1, hp2⟩ := hm.tree
      refine ⟨fun a => if a = m.mem.length then K0 ++ [k] else path a, ?_, ?_⟩
      · intro a ha
        rw [hlen'] at ha
        rw [hwalk]
        by_cases h : a = m.mem.length
        · simp [h]
        · have ha' : a < m.mem.length := by omega
          have hne : path a ≠ K0 ++ [k] := by
            intro e
            have := hp1 a ha'
            rw [e, IntSetMap.walk_concat, hb, hk] at this
            simp at this
          simp only [h, if_false, hne]
          exact hp1 a ha'
      · intro K a ha
        rw [hwalk] at ha
        split_ifs at ha with h
        · simp at ha
          simp [← ha, h]
        · have := hm.walk_valid K a ha
          have hne : a ≠ m.mem.length := by omega
          simp only [hne, if_false]
          exact hp2 K a ha
    · intro p
      rw [hload]
      split_ifs <;> rfl
    · intro p k2 q hq
      rw [hchild]
      split_ifs with h
      · obtain ⟨h1, h2⟩ := h
        rw [h1, h2, hk] at hq
        simp at hq
      · exact hq
    · rw [hlen']; omega

theorem IntSetMap.extend_cons (m : IntSetMap M) (mn : Ptr) (k : Int) (K : List Int) :
    m.extend mn (k :: K) = (m.set_step mn k).1.extend (m.set_step mn k).2 K := rfl

/-- Specification of the whole descent of `set` below the node of the path `K0`. -/
theorem IntSetMap.Inv.extend {m : IntSetMap M} (hm : m.Inv) (K K0 : List Int) (b : Nat)
    (hb : m.walk (some 0) K0 = some b) :
    (m.extend (some b) K).1.Inv ∧ m.Grows (m.extend (some b) K).1 ∧
    (∃ c, (m.extend (some b) K).2 = some c ∧
      (m.extend (some b) K).1.walk (some 0) (K0 ++ K) = some c) ∧
    ∀ K2, (m.extend (some b) K).1.walk (some 0) K2 ≠ none →
      m.walk (some 0) K2 ≠ none ∨ K2 <+: K0 ++ K := by
  induction K generalizing m K0 b with
  | nil =>
    refine ⟨hm, IntSetMap.Grows.refl m, ⟨b, rfl, by simpa using hb⟩, fun K2 h => Or.inl h⟩
  | cons k K ih =>
    obtain ⟨hinv, hgrow, c, hc, hwalk⟩ := hm.set_step hb k
    rw [IntSetMap.extend_cons, hc]
    have hb' : (m.set_step (some b) k).1.walk (some 0) (K0 ++ [k]) = some c := by
      rw [hwalk]; simp
    obtain ⟨i1, i2, i3, i4⟩ := ih hinv (K0 ++ [k]) c hb'
    have happ : K0 ++ [k] ++ K = K0 ++ k :: K := by simp
    rw [happ] at i3 i4
    refine ⟨i1, hgrow.trans i2, i3, fun K2 h => ?_⟩
    rcases i4 K2 h with h1 | h1
    · rw [hwalk] at h1
      split_ifs at h1 with e
      · right
        rw [e, ← happ]
        exact List.prefix_append _ _
      · exact Or.inl h1
    · exact Or.inr h1

theorem IntSetMap.set_Vector_loop_eq (K : List Int) :
    ∀ (n i : Nat) (m : IntSetMap M) (mn : Ptr), i + n ≤ K.length →
      IntSetMap.set_Vector_loop ⟨K⟩ n i m mn = m.extend mn ((K.drop i).take n) := by
  intro n
  induction n with
  | zero => intro i m mn _; rfl
  | succ n ih =>
    intro i m mn h
    have hi : i < K.length := by omega
    rw [List.drop_eq_getElem_cons hi, List.take_succ_cons, IntSetMap.extend_cons,
      IntSetMap.set_Vector_loop]
    have hget : Vector.get ⟨K⟩ i = K[i] := by
      simp [Vector.get, List.getD_eq_getElem?_getD, List.getElem?_eq_getElem hi]
    simp only [hget]
    exact ih (i + 1) _ _ (by omega)

theorem IntSetMap.set_List_loop_eq (l : LinkedList) :
    ∀ (n : Nat) (it : LinkedList.Iter) (m : IntSetMap M) (mn : Ptr), n ≤ it.tail.length →
      IntSetMap.set_List_loop l n it m mn = m.extend mn (it.tail.take n) := by
  intro n
  induction n with
  | zero => intro it m mn _; rfl
  | succ n ih =>
    intro it m mn h
    cases ht : it.tail with
    | nil => rw [ht] at h; simp at h
    | cons x t =>
      rw [ht] at h
      rw [List.take_succ_cons, IntSetMap.extend_cons, IntSetMap.set_List_loop]
      simp only [LinkedList.get_next, ht, List.headD_cons]
      have := ih (x :: t) (m.set_step mn x).1 (m.set_step mn x).2 (by simpa using h)
      simpa using this

section Checked
variable [DecidableEq M]

/-- The function `set(Vector)` descends along the elements it visits and assigns at the
end. -/
theorem IntSetMap.set_Vector_eq (m : IntSetMap M) (K : List Int) (V : M) :
    m.set_Vector ⟨K⟩ V =
      if K = [] then (m, Check.notEvaluated)
      else ((m.extend m.m_root_val2node (setKey K)).1.storeMapped
              (m.extend m.m_root_val2node (setKey K)).2 V,
            (m.extend m.m_root_val2node (setKey K)).1.set_check
              (m.extend m.m_root_val2node (setKey K)).2 V) := by
  cases K with
  | nil => rfl
  | cons k K =>
    have hle : 1 + (VecIdx_cast (K.length + 1) - 1).toNat ≤ (k :: K).length := by
      have := VecIdx_cast_le (K.length + 1)
      simp only [List.length_cons]
      omega
    have hkey : setKey (k :: K) = k :: K.take (VecIdx_cast (K.length + 1) - 1).toNat := by
      simp only [setKey, List.length_cons, List.take_succ_cons]
    simp only [IntSetMap.set_Vector, Vector.get_elem_count, List.length_cons, reduceCtorEq,
      Nat.add_one_ne_zero, if_false]
    rw [IntSetMap.set_Vector_loop_eq (k :: K) _ 1 _ _ hle, hkey]
    rfl

/-- The function `set(List)` descends along the elements it visits and assigns at the
end. -/
theorem IntSetMap.set_List_eq (m : IntSetMap M) (K : List Int) (V : M) :
    m.set_List ⟨K⟩ V =
      if K = [] then (m, Check.notEvaluated)
      else ((m.extend m.m_root_val2node (setKey K)).1.storeMapped
              (m.extend m.m_root_val2node (setKey K)).2 V,
            (m.extend m.m_root_val2node (setKey K)).1.set_check
              (m.extend m.m_root_val2node (setKey K)).2 V) := by
  cases K with
  | nil => rfl
  | cons k K =>
    have hle : (VecIdx_cast (K.length + 1) - 1).toNat ≤ (k :: K).tail.length := by
      have := VecIdx_cast_le (K.length + 1)
      simp only [List.tail_cons]
      omega
    have hkey : setKey (k :: K) = k :: K.take (VecIdx_cast (K.length + 1) - 1).toNat := by
      simp only [setKey, List.length_cons, List.take_succ_cons]
    simp only [IntSetMap.set_List, LinkedList.get_elem_count, List.length_cons, reduceCtorEq,
      Nat.add_one_ne_zero, if_false, LinkedList.get_head]
    rw [IntSetMap.set_List_loop_eq ⟨k :: K⟩ _ (k :: K) _ _ hle, hkey]
    rfl

end Checked

theorem IntSetMap.find_Vector_loop_eq (m : IntSetMap M) (K : List Int) :
    ∀ (n i a : Nat), i + n ≤ K.length →
      m.find_Vector_loop ⟨K⟩ n i (some a) =
        Option.map some (m.walk (some a) ((K.drop i).take n)) := by
  intro n
  induction n with
  | zero => intro i a _; rfl
  | succ n ih =>
    intro i a h
    have hi : i < K.length := by omega
    have hget : Vector.get ⟨K⟩ i = K[i] := by
      simp [Vector.get, List.getD_eq_getElem?_getD, List.getElem?_eq_getElem hi]
    rw [List.drop_eq_getElem_cons hi, List.take_succ_cons, IntSetMap.walk_cons,
      IntSetMap.child_some, IntSetMap.find_Vector_loop]
    simp only [hget, reduceCtorEq, if_false]
    cases hg : TMap.get (m.load (some a)).next K[i] with
    | none => simp
    | some c =>
      simp only [reduceCtorEq, if_false]
      exact ih (i + 1) c (by omega)

/-- The function `find(Vector)` reports the node of the path it follows and its value. -/
theorem IntSetMap.find_Vector_eq (m : IntSetMap M) (hroot : m.m_root_val2node ≠ none)
    (K : List Int) (out : M) :
    m.find_Vector ⟨K⟩ out =
      if m.walk m.m_root_val2node (findKey K) = none then (false, out)
      else (true, m.valueAt (findKey K)) := by
  obtain ⟨r, hr⟩ := Option.ne_none_iff_exists'.mp hroot
  have hle : 0 + (VecIdx_cast K.length).toNat ≤ K.length := by
    have := VecIdx_cast_le K.length
    omega
  unfold IntSetMap.find_Vector IntSetMap.valueAt IntSetMap.get_root findKey
  simp only [Vector.get_elem_count]
  rw [hr, IntSetMap.find_Vector_loop_eq m K _ 0 r hle]
  simp only [List.drop_zero]
  cases m.walk (some r) (K.take (VecIdx_cast K.length).toNat) <;> simp

theorem IntSetMap.Inv.storeMapped {m : IntSetMap M} (hm : m.Inv) {c : Nat}
    (hc : c < m.mem.length) (V : M) :
    (m.storeMapped (some c) V).Inv ∧
    ∀ mn K, (m.storeMapped (some c) V).walk mn K = m.walk mn K := by
  have hnext : ∀ p, ((m.storeMapped (some c) V).load p).next = (m.load p).next := by
    intro p
    rw [IntSetMap.load_storeMapped m c hc]
    split_ifs <;> rfl
  have hw := IntSetMap.walk_congr m (m.storeMapped (some c) V) hnext
  have hlen : (m.storeMapped (some c) V).mem.length = m.mem.length := by
    simp [IntSetMap.storeMapped]
  refine ⟨⟨?_, ?_, ?_, ?_⟩, hw⟩
  · simpa [IntSetMap.storeMapped] using hm.root
  · rw [hlen]; simpa [IntSetMap.storeMapped] using hm.count
  · intro a k q hq
    rw [hnext] at hq
    rw [hlen]
    exact hm.valid a k q hq
  · obtain ⟨path, h1, h2⟩ := hm.tree
    refine ⟨path, ?_, ?_⟩
    · intro a ha
      rw [hw]
      exact h1 a (by rwa [hlen] at ha)
    · intro K a ha
      rw [hw] at ha
      exact h2 K a ha

/-- A descent changes no value, whichever path it is read through. -/
theorem IntSetMap.Inv.valueAt_grows {m m' : IntSetMap M} (hm : m.Inv) (hm' : m'.Inv)
    (hg : m.Grows m') (K2 : List Int) : m'.valueAt K2 = m.valueAt K2 := by
  unfold IntSetMap.valueAt
  rw [hm.root, hm'.root]
  cases hw : m.walk (some 0) K2 with
  | some a => rw [hg.walk K2 _ a hw, hg.mapped]
  | none =>
    rw [hg.mapped]
    cases hw' : m'.walk (some 0) K2 with
    | none => rfl
    | some a =>
      by_cases ha : a < m.mem.length
      · exfalso
        obtain ⟨path, h1, _⟩ := hm.tree
        have e := hm'.walk_inj (hg.walk _ _ a (h1 a ha)) hw'
        rw [← e, h1 a ha] at hw
        simp at hw
      · rw [IntSetMap.load_dangling m a (by omega)]
        rfl

section Checked
variable [DecidableEq M]

/-- Specification of `set(Vector)` on a non-empty sequence of fewer than `2 ^ 31`
elements: the invariant is kept, the paths of the tree grow by the prefixes of `K`, the
value read through `K` becomes `V` and every other value is kept, and the check compares
`V` with the value held before. -/
theorem IntSetMap.Inv.set_Vector {m : IntSetMap M} (hm : m.Inv) {K : List Int}
    (hK : K ≠ []) (hlen : K.length < VecIdx_LIMIT) (V : M) :
    (m.set_Vector ⟨K⟩ V).1.Inv ∧
    (∀ K2, (m.set_Vector ⟨K⟩ V).1.walk (some 0) K2 ≠ none ↔
      (m.walk (some 0) K2 ≠ none ∨ K2 <+: K)) ∧
    (∀ K2, (m.set_Vector ⟨K⟩ V).1.valueAt K2 = if K2 = K then V else m.valueAt K2) ∧
    (m.set_Vector ⟨K⟩ V).2 =
      (if m.valueAt K = V ∨ m.valueAt K = 0 then Check.passed else Check.failed) ∧
    (∀ p k q, m.child p k = some q → (m.set_Vector ⟨K⟩ V).1.child p k = some q) ∧
    (∀ p, p ≠ (m.set_Vector ⟨K⟩ V).1.walk (some 0) K →
      ((m.set_Vector ⟨K⟩ V).1.load p).mapped = (m.load p).mapped) ∧
    (m.set_Vector ⟨K⟩ V).1.walk (some 0) K ≠ none := by
  rw [IntSetMap.set_Vector_eq, if_neg hK, setKey_of_lt hlen, hm.root]
  obtain ⟨hinv, hgrow, ⟨c, hc, hwc⟩, hnew⟩ := hm.extend K [] 0 rfl
  simp only [List.nil_append] at hwc hnew
  have hclt := hinv.walk_valid K c hwc
  obtain ⟨hinv', hw⟩ := hinv.storeMapped hclt V
  have hval := fun K2 => hm.valueAt_grows hinv hgrow K2
  rw [hc]
  simp only
  have hload := IntSetMap.load_storeMapped (m.extend (some 0) K).1 c hclt V
  refine ⟨hinv', ?_, ?_, ?_, ?_, ?_, ?_⟩
  · intro K2
    rw [hw]
    constructor
    · exact hnew K2
    · rintro (h | h)
      · obtain ⟨a, ha⟩ := Option.ne_none_iff_exists'.mp h
        rw [hgrow.walk K2 _ a ha]; simp
      · exact IntSetMap.walk_prefix _ _ h (by rw [hwc]; simp)
  · intro K2
    have hroot' : ((m.extend (some 0) K).1.storeMapped (some c) V).m_root_val2node = some 0 :=
      hinv'.root
    rw [← hval K2]
    unfold IntSetMap.valueAt
    rw [hroot', hinv.root, hw, hload]
    by_cases hk : K2 = K
    · rw [hk, hwc]; simp
    · have hne : (m.extend (some 0) K).1.walk (some 0) K2 ≠ some c := by
        intro e
        exact hk (hinv.walk_inj e hwc)
      rw [if_neg hne, if_neg hk]
  · have hv : ((m.extend (some 0) K).1.load (some c)).mapped = m.valueAt K := by
      rw [← hval K]
      unfold IntSetMap.valueAt
      rw [hinv.root, hwc]
    unfold IntSetMap.set_check
    rw [hv]
    simp
  · intro p k q hq
    have := hgrow.child p k q hq
    unfold IntSetMap.child at this ⊢
    rw [hload]
    split_ifs at this ⊢ with h1 h2 <;> exact this
  · intro p hp
    rw [hw, hwc] at hp
    rw [hload, if_neg hp, hgrow.mapped]
  · rw [hw, hwc]; simp

/-- The two overloads of `set` are the same function of the sequence. -/
theorem IntSetMap.set_List_eq_set_Vector (m : IntSetMap M) (K : List Int) (V : M) :
    m.set_List ⟨K⟩ V = m.set_Vector ⟨K⟩ V := by
  rw [IntSetMap.set_List_eq, IntSetMap.set_Vector_eq]

/-- The function `set` acts on a sequence as on the elements of it that it visits. -/
theorem IntSetMap.set_Vector_setKey (m : IntSetMap M) (K : List Int) (V : M) :
    m.set_Vector ⟨K⟩ V = m.set_Vector ⟨setKey K⟩ V := by
  rw [IntSetMap.set_Vector_eq, IntSetMap.set_Vector_eq m (setKey K), setKey_setKey]
  by_cases h : K = []
  · rw [if_pos h, if_pos ((setKey_eq_nil_iff K).mpr h)]
  · rw [if_neg h, if_neg (setKey_ne_nil h)]

end Checked

theorem IntSetMap.Inv.new : (IntSetMap.new : IntSetMap M).Inv := by
  have hchild : ∀ (p : Ptr) (k : Int), (IntSetMap.new : IntSetMap M).child p k = none := by
    intro p k
    cases p with
    | none => simp
    | some a =>
      cases a with
      | zero => rfl
      | succ a => rfl
  have hwalk : ∀ (K : List Int) (a : Nat),
      (IntSetMap.new : IntSetMap M).walk (some 0) K = some a → K = [] ∧ a = 0 := by
    intro K
    induction K using List.reverseRecOn with
    | nil => intro a h; simp at h; exact ⟨rfl, h.symm⟩
    | append_singleton K k _ =>
      intro a h
      rw [IntSetMap.walk_concat, hchild] at h
      simp at h
  refine ⟨rfl, rfl, ?_, fun _ => [], ?_, ?_⟩
  · intro a k q h
    rw [← IntSetMap.child_some, hchild] at h
    simp at h
  · intro a ha
    have : a = 0 := by simpa [IntSetMap.new] using ha
    subst this; rfl
  · intro K a h
    exact (hwalk K a h).1.symm

section Checked
variable [DecidableEq M]

theorem IntSetMap.call_eq (m : IntSetMap M) (c : SetCall M) :
    m.call c = (m.set_Vector ⟨c.key⟩ c.value).1 := by
  cases c with
  | vector iset v => rfl
  | list iset v =>
    show (m.set_List ⟨iset.cells⟩ v).1 = _
    rw [IntSetMap.set_List_eq_set_Vector]; rfl

theorem IntSetMap.run_concat (calls : List (SetCall M)) (c : SetCall M) :
    IntSetMap.run (calls ++ [c]) = (IntSetMap.run calls).call c := by
  simp [IntSetMap.run, List.foldl_append]

omit [Zero M] [DecidableEq M] in
theorem SetCall.eff_key (c : SetCall M) : c.eff.key = setKey c.key := by
  cases c <;> rfl

omit [Zero M] [DecidableEq M] in
theorem SetCall.eff_value (c : SetCall M) : c.eff.value = c.value := by
  cases c <;> rfl

omit [Zero M] [DecidableEq M] in
theorem SetCall.eff_short (calls : List (SetCall M)) :
    ∀ c ∈ calls.map SetCall.eff, c.key.length < VecIdx_LIMIT := by
  intro c hc
  obtain ⟨c', _, rfl⟩ := List.mem_map.mp hc
  rw [SetCall.eff_key]
  exact setKey_length_lt _

/-- A call of `set` acts as the call on the elements that it visits. -/
theorem IntSetMap.call_eff (m : IntSetMap M) (c : SetCall M) : m.call c = m.call c.eff := by
  rw [IntSetMap.call_eq, IntSetMap.call_eq, SetCall.eff_key, SetCall.eff_value,
    ← IntSetMap.set_Vector_setKey]

/-- A history of `set` calls builds the container of the history of the calls on the
elements visited. -/
theorem IntSetMap.run_eff (calls : List (SetCall M)) :
    IntSetMap.run calls = IntSetMap.run (calls.map SetCall.eff) := by
  induction calls using List.reverseRecOn with
  | nil => rfl
  | append_singleton calls c ih =>
    rw [List.map_append, List.map_singleton, IntSetMap.run_concat, IntSetMap.run_concat, ih,
      ← IntSetMap.call_eff]

omit [DecidableEq M] in
theorem lastSet_concat (calls : List (SetCall M)) (c : SetCall M) (K : List Int) :
    lastSet (calls ++ [c]) K = if c.key = K ∧ K ≠ [] then c.value else lastSet calls K := by
  simp [lastSet, List.foldl_append]

omit [DecidableEq M] in
theorem lastSet_of_not_mem (calls : List (SetCall M)) (K : List Int)
    (h : ∀ c ∈ calls, c.key ≠ K) : lastSet calls K = 0 := by
  induction calls using List.reverseRecOn with
  | nil => rfl
  | append_singleton calls c ih =>
    rw [lastSet_concat, if_neg (fun e => h c (by simp) e.1)]
    exact ih (fun c' hc' => h c' (by simp [hc']))

omit [DecidableEq M] in
theorem lastSet_mem (calls : List (SetCall M)) (K : List Int) (h : lastSet calls K ≠ 0) :
    ∃ c ∈ calls, c.key = K ∧ c.value = lastSet calls K := by
  induction calls using List.reverseRecOn with
  | nil => exact absurd rfl h
  | append_singleton calls c ih =>
    rw [lastSet_concat] at h ⊢
    split_ifs at h ⊢ with e
    · exact ⟨c, by simp, e.1, rfl⟩
    · obtain ⟨c', hc', h'⟩ := ih h
      exact ⟨c', by simp [hc'], h'⟩

/-- Every container built by `set` calls satisfies the invariant; its paths are the
prefixes of the keys set so far, and the value read through a path is the last one set
there. -/
theorem IntSetMap.run_spec (calls : List (SetCall M))
    (hs : ∀ c ∈ calls, c.key.length < VecIdx_LIMIT) :
    (IntSetMap.run calls).Inv ∧
    (∀ K, (IntSetMap.run calls).walk (some 0) K ≠ none ↔
      (K = [] ∨ ∃ c ∈ calls, c.key ≠ [] ∧ K <+: c.key)) ∧
    (∀ K, (IntSetMap.run calls).valueAt K = lastSet calls K) := by
  induction calls using List.reverseRecOn with
  | nil =>
    have hinv : (IntSetMap.new : IntSetMap M).Inv := IntSetMap.Inv.new
    refine ⟨hinv, fun K => ?_, fun K => ?_⟩
    · constructor
      · intro h
        left
        obtain ⟨a, ha⟩ := Option.ne_none_iff_exists'.mp h
        have h0 : (IntSetMap.new : IntSetMap M).walk (some 0) [] = some 0 := rfl
        have ha0 : a = 0 := by
          have := hinv.walk_valid K a ha
          simpa [IntSetMap.new] using this
        rw [ha0] at ha
        exact hinv.walk_inj ha h0
      · rintro (h | ⟨c, hc, _⟩)
        · rw [h]; simp
        · simp at hc
    · show (IntSetMap.new : IntSetMap M).valueAt K = 0
      unfold IntSetMap.valueAt
      cases hw : (IntSetMap.new : IntSetMap M).walk (IntSetMap.new : IntSetMap M).m_root_val2node K with
      | none => rfl
      | some a =>
        have := hinv.walk_valid K a hw
        have ha0 : a = 0 := by simpa [IntSetMap.new] using this
        rw [ha0]; rfl
  | append_singleton calls c ih =>
    obtain ⟨hinv, hpaths, hvals⟩ := ih (fun c' hc' => hs c' (by simp [hc']))
    rw [IntSetMap.run_concat, IntSetMap.call_eq]
    by_cases hk : c.key = []
    · rw [hk, IntSetMap.set_Vector_eq, if_pos rfl]
      refine ⟨hinv, fun K => ?_, fun K => ?_⟩
      · rw [hpaths K]
        constructor
        · rintro (h | ⟨c', hc', h'⟩)
          · exact Or.inl h
          · exact Or.inr ⟨c', by simp [hc'], h'⟩
        · rintro (h | ⟨c', hc', h1, h2⟩)
          · exact Or.inl h
          · rcases List.mem_append.mp hc' with h | h
            · exact Or.inr ⟨c', h, h1, h2⟩
            · simp at h
              rw [h] at h1
              exact absurd hk h1
      · rw [hvals K, lastSet_concat, hk]
        by_cases hK : K = []
        · simp [hK]
        · have : ¬ ([] = K ∧ K ≠ []) := fun e => hK e.1.symm
          rw [if_neg this]
    · obtain ⟨s1, s2, s3, _⟩ := hinv.set_Vector hk (hs c (by simp)) c.value
      refine ⟨s1, fun K => ?_, fun K => ?_⟩
      · rw [s2 K, hpaths K]
        constructor
        · rintro ((h | ⟨c', hc', h'⟩) | h)
          · exact Or.inl h
          · exact Or.inr ⟨c', by simp [hc'], h'⟩
          · exact Or.inr ⟨c, by simp, hk, h⟩
        · rintro (h | ⟨c', hc', h1, h2⟩)
          · exact Or.inl (Or.inl h)
          · rcases List.mem_append.mp hc' with h | h
            · exact Or.inl (Or.inr ⟨c', h, h1, h2⟩)
            · simp at h
              rw [h] at h2
              exact Or.inr h2
      · rw [s3 K, hvals K, lastSet_concat]
        by_cases hK : K = c.key
        · have : c.key = K ∧ K ≠ [] := ⟨hK.symm, by rw [hK]; exact hk⟩
          rw [if_pos hK, if_pos this]
        · have : ¬ (c.key = K ∧ K ≠ []) := fun e => hK e.1.symm
          rw [if_neg hK, if_neg this]

/-- Every container built by `set` calls satisfies the invariant of the store. -/
theorem IntSetMap.run_inv (calls : List (SetCall M)) : (IntSetMap.run calls).Inv := by
  rw [IntSetMap.run_eff]
  exact (IntSetMap.run_spec _ (SetCall.eff_short calls)).1

end Checked

/-- Along a path that already exists the descent of `set` allocates nothing. -/
theorem IntSetMap.extend_present (m : IntSetMap M) (K : List Int) :
    ∀ mn : Ptr, m.walk mn K ≠ none → m.extend mn K = (m, m.walk mn K) := by
  induction K with
  | nil => intro mn _; rfl
  | cons k K ih =>
    intro mn h
    rw [IntSetMap.walk_cons] at h ⊢
    have hc : m.child mn k ≠ none := by
      intro e; rw [e] at h; simp at h
    have hstep : m.set_step mn k = (m, m.child mn k) := by
      unfold IntSetMap.child at hc ⊢
      unfold IntSetMap.set_step
      split_ifs at hc ⊢ with h1
      · exact absurd rfl hc
      · simp only [if_neg hc]
    rw [IntSetMap.extend_cons, hstep]
    exact ih _ h

/-- Storing the value a node already holds leaves the store as it is. -/
theorem IntSetMap.storeMapped_self (m : IntSetMap M) (p : Ptr) (V : M)
    (h : (m.load p).mapped = V) (hp : ∀ a, p = some a → a < m.mem.length) :
    m.storeMapped p V = m := by
  cases p with
  | none => rfl
  | some a =>
    have ha := hp a rfl
    have hl : m.load (some a) = m.mem[a] := by
      simp [IntSetMap.load, List.getD_eq_getElem?_getD, List.getElem?_eq_getElem ha]
    unfold IntSetMap.storeMapped
    simp only
    have hnode : ({ m.load (some a) with mapped := V } : IntVal2Node M) = m.mem[a] := by
      rw [← h, hl]
    rw [hnode]
    have : m.mem.set a m.mem[a] = m.mem := by
      apply List.ext_getElem?
      intro j
      rw [List.getElem?_set]
      split_ifs with h1
      · rw [← h1, List.getElem?_eq_getElem ha]
      · rfl
    rw [this]

section Checked
variable [DecidableEq M]

omit [DecidableEq M] in
/-- The function `find` acts on a sequence as on the elements of it that it visits. -/
theorem IntSetMap.find_Vector_findKey (m : IntSetMap M) (hroot : m.m_root_val2node ≠ none)
    (K : List Int) (out : M) : m.find_Vector ⟨K⟩ out = m.find_Vector ⟨findKey K⟩ out := by
  have h : findKey (findKey K) = findKey K := by
    apply findKey_of_lt
    unfold findKey VecIdx_LIMIT
    have h1 := VecIdx_cast_lt K.length
    rw [List.length_take]
    omega
  rw [IntSetMap.find_Vector_eq m hroot, IntSetMap.find_Vector_eq m hroot (findKey K), h]

/-- The result of `find(Vector)` in terms of the history of `set` calls. -/
theorem IntSetMap.find_run (calls : List (SetCall M))
    (hs : ∀ c ∈ calls, c.key.length < VecIdx_LIMIT) (K : List Int)
    (hlen : K.length < VecIdx_LIMIT) (out : M) :
    (IntSetMap.run calls).find_Vector ⟨K⟩ out =
      if K = [] ∨ ∃ c ∈ calls, c.key ≠ [] ∧ K <+: c.key then (true, lastSet calls K)
      else (false, out) := by
  obtain ⟨hinv, hpaths, hvals⟩ := IntSetMap.run_spec calls hs
  rw [IntSetMap.find_Vector_eq _ (by rw [hinv.root]; simp), findKey_of_lt hlen, hinv.root, hvals]
  by_cases h : K = [] ∨ ∃ c ∈ calls, c.key ≠ [] ∧ K <+: c.key
  · rw [if_pos h, if_neg ((hpaths K).mpr h)]
  · rw [if_neg h, if_pos]
    by_contra h'
    exact h ((hpaths K).mp h')

/-- The outcome of the check of `set(Vector)` in terms of the history of `set` calls. -/
theorem IntSetMap.check_run (calls : List (SetCall M))
    (hs : ∀ c ∈ calls, c.key.length < VecIdx_LIMIT) (K : List Int) (hK : K ≠ [])
    (hlen : K.length < VecIdx_LIMIT) (V : M) :
    ((IntSetMap.run calls).set_Vector ⟨K⟩ V).2 =
      if lastSet calls K = V ∨ lastSet calls K = 0 then Check.passed else Check.failed := by
  obtain ⟨hinv, _, hvals⟩ := IntSetMap.run_spec calls hs
  obtain ⟨_, _, _, h, _⟩ := hinv.set_Vector hK hlen V
  rw [h, hvals]

omit [DecidableEq M] in
theorem lastSet_nil (calls : List (SetCall M)) : lastSet calls [] = 0 := by
  induction calls using List.reverseRecOn with
  | nil => rfl
  | append_singleton calls c ih =>
    rw [lastSet_concat, if_neg (fun e => e.2 rfl)]
    exact ih

/-- A path is found after a history exactly when it is empty or a prefix of a key. -/
theorem IntSetMap.found_run (calls : List (SetCall M))
    (hs : ∀ c ∈ calls, c.key.length < VecIdx_LIMIT) (K : List Int)
    (hlen : K.length < VecIdx_LIMIT) (out : M) :
    ((IntSetMap.run calls).find_Vector ⟨K⟩ out).1 = true ↔
      (K = [] ∨ ∃ c ∈ calls, c.key ≠ [] ∧ K <+: c.key) := by
  rw [IntSetMap.find_run calls hs K hlen]
  split_ifs with h
  · simp [h]
  · simp only [Bool.false_eq_true, false_iff]
    exact h

/-- A found path reports the last value set there. -/
theorem IntSetMap.found_value_run (calls : List (SetCall M))
    (hs : ∀ c ∈ calls, c.key.length < VecIdx_LIMIT) (K : List Int)
    (hlen : K.length < VecIdx_LIMIT) (out v : M)
    (h : (IntSetMap.run calls).find_Vector ⟨K⟩ out = (true, v)) : v = lastSet calls K := by
  rw [IntSetMap.find_run calls hs K hlen] at h
  split_ifs at h with e
  · exact (Prod.mk.inj h).2.symm
  · simp at h

end Checked

theorem LinkedList.iterAt_eq (l : LinkedList) (i : Nat) : l.iterAt i = l.cells.drop i := by
  induction i with
  | zero => rfl
  | succ i ih =>
    simp only [LinkedList.iterAt, LinkedList.get_next, ih, List.tail_drop]

theorem IntSetMap.find_List_loop_eq (m : IntSetMap M) (K : List Int) :
    ∀ (n i : Nat) (mn : Ptr), i + n ≤ K.length →
      m.find_List_loop ⟨K⟩ n (K.drop i) mn = some (m.find_Vector_loop ⟨K⟩ n i mn) := by
  intro n
  induction n with
  | zero => intro i mn _; rfl
  | succ n ih =>
    intro i mn h
    have hi : i < K.length := by omega
    have hget : Vector.get ⟨K⟩ i = K[i] := by
      simp [Vector.get, List.getD_eq_getElem?_getD, List.getElem?_eq_getElem hi]
    have hval : LinkedList.Iter.val (K.drop i) = some K[i] := by
      rw [List.drop_eq_getElem_cons hi]; rfl
    have hnext : (LinkedList.get_next ⟨K⟩ (K.drop i)).2 = K.drop (i + 1) := by
      simp [LinkedList.get_next, List.tail_drop]
    simp only [IntSetMap.find_List_loop, IntSetMap.find_Vector_loop, hval, hget, hnext]
    split_ifs with h1 h2
    · rfl
    · rfl
    · exact ih (i + 1) _ (by omega)

theorem IntSetMap.find_List_eq_find_Vector (m : IntSetMap M) (K : List Int) (out : M) :
    m.find_List ⟨K⟩ out = some (m.find_Vector ⟨K⟩ out) := by
  unfold IntSetMap.find_List IntSetMap.find_Vector
  have hle : 0 + (VecIdx_cast K.length).toNat ≤ K.length := by
    have := VecIdx_cast_le K.length
    omega
  have h := IntSetMap.find_List_loop_eq m K _ 0 m.get_root hle
  simp only [List.drop_zero] at h
  simp only [LinkedList.get_elem_count, LinkedList.get_head, Vector.get_elem_count, h]
  cases m.find_Vector_loop ⟨K⟩ (VecIdx_cast K.length).toNat 0 m.get_root with
  | none => rfl
  | some mn => rfl

theorem TMap.mem_set {l : TMap} {k : Int} {p : Ptr} {e : Int × Ptr}
    (h : e ∈ TMap.set l k p) : e = (k, p) ∨ e ∈ l := by
  induction l with
  | nil => simpa [TMap.set] using h
  | cons hd rest ih =>
    obtain ⟨k', v'⟩ := hd
    simp only [TMap.set] at h
    split_ifs at h with h1 h2
    · rcases List.mem_cons.mp h with h | h
      · exact Or.inl h
      · exact Or.inr h
    · rcases List.mem_cons.mp h with h | h
      · left; rw [h, h2]
      · exact Or.inr (List.mem_cons_of_mem _ h)
    · rcases List.mem_cons.mp h with h | h
      · right; rw [h]; exact List.mem_cons_self _ _
      · rcases ih h with h | h
        · exact Or.inl h
        · exact Or.inr (List.mem_cons_of_mem _ h)

theorem TMap.set_ascending {l : TMap} (h : TMap.Ascending l) (k : Int) (p : Ptr) :
    TMap.Ascending (TMap.set l k p) := by
  induction l with
  | nil => simp [TMap.set, TMap.Ascending]
  | cons hd rest ih =>
    obtain ⟨k', v'⟩ := hd
    unfold TMap.Ascending at h ih ⊢
    simp only [List.map_cons, List.pairwise_cons] at h
    simp only [TMap.set]
    split_ifs with h1 h2
    · simp only [List.map_cons, List.pairwise_cons]
      refine ⟨?_, h⟩
      intro x hx
      rcases List.mem_cons.mp hx with hx | hx
      · rw [hx]; exact h1
      · exact lt_trans h1 (h.1 x hx)
    · simp only [List.map_cons, List.pairwise_cons]
      exact h
    · simp only [List.map_cons, List.pairwise_cons]
      refine ⟨?_, ih h.2⟩
      intro x hx
      obtain ⟨e, he, rfl⟩ := List.mem_map.mp hx
      rcases TMap.mem_set he with he | he
      · rw [he]
        show k' < k
        omega
      · exact h.1 e.1 (List.mem_map_of_mem _ he)

theorem TMap.mem_of_get {l : TMap} {k : Int} {c : Nat} (h : TMap.get l k = some c) :
    (k, some c) ∈ l := by
  induction l with
  | nil => simp [TMap.get] at h
  | cons hd rest ih =>
    obtain ⟨k', v'⟩ := hd
    simp only [TMap.get] at h
    split_ifs at h with h1
    · rw [h1, h]; exact List.mem_cons_self _ _
    · exact List.mem_cons_of_mem _ (ih h)

theorem TMap.get_of_mem {l : TMap} (hl : TMap.Ascending l) {k : Int} {q : Ptr}
    (h : (k, q) ∈ l) : TMap.get l k = q := by
  induction l with
  | nil => simp at h
  | cons hd rest ih =>
    obtain ⟨k', v'⟩ := hd
    unfold TMap.Ascending at hl ih
    simp only [List.map_cons, List.pairwise_cons] at hl
    simp only [TMap.get]
    rcases List.mem_cons.mp h with h | h
    · have h1 : k = k' := congrArg Prod.fst h
      have h2 : q = v' := congrArg Prod.snd h
      rw [if_pos h1, h2]
    · have hlt := hl.1 k (List.mem_map_of_mem Prod.fst h)
      have hne : ¬ k = k' := by
        intro e
        simp only [e] at hlt
        omega
      rw [if_neg hne]
      exact ih hl.2 h

/-- The store after a descent of `set` that found no child and allocated one. -/
theorem IntSetMap.set_step_alloc (m : IntSetMap M) {b : Nat} (hb : b < m.mem.length)
    {k : Int} (hk : m.child (some b) k = none) :
    (m.set_step (some b) k).2 = some m.mem.length ∧
    (m.set_step (some b) k).1.mem.length = m.mem.length + 1 ∧
    (m.set_step (some b) k).1.m_num_node = m.m_num_node + 1 ∧
    ∀ p, (m.set_step (some b) k).1.load p =
      if p = some b then
        { m.load p with next := TMap.set (m.load p).next k (some m.mem.length) }
      else m.load p := by
  have hg : TMap.get (m.load (some b)).next k = none := by
    rwa [IntSetMap.child_some] at hk
  unfold IntSetMap.set_step
  simp only [hg, if_true]
  have hlen : (m.allocV2NMap.1).mem.length = m.mem.length + 1 := by
    simp [IntSetMap.allocV2NMap]
  refine ⟨rfl, ?_, ?_, ?_⟩
  · simp [IntSetMap.storeNext, hlen]
  · simp [IntSetMap.storeNext, IntSetMap.allocV2NMap]
  · intro p
    rw [IntSetMap.load_storeNext _ b (by omega)]
    simp only [IntSetMap.load_alloc]
    rfl

/-- A descent of `set` that finds the child leaves the store as it is. -/
theorem IntSetMap.set_step_found (m : IntSetMap M) (mn : Ptr) {k : Int}
    (hk : m.child mn k ≠ none) : m.set_step mn k = (m, m.child mn k) := by
  unfold IntSetMap.child at hk ⊢
  unfold IntSetMap.set_step
  split_ifs at hk ⊢ with h1
  · exact absurd rfl hk
  · simp only [if_neg hk]

theorem IntSetMap.Shape.after_set_step {m : IntSetMap M} (hm : m.Inv) (hs : m.Shape)
    {K0 : List Int} {b : Nat} (hb : m.walk (some 0) K0 = some b) (k : Int) :
    (m.set_step (some b) k).1.Shape := by
  have hblt : b < m.mem.length := hm.walk_valid K0 b hb
  by_cases hk : m.child (some b) k = none
  · obtain ⟨_, hlen, _, hload⟩ := m.set_step_alloc hblt hk
    refine ⟨fun a => ?_, fun a k' q hq => ?_⟩
    · rw [hload]
      split_ifs with h
      · exact TMap.set_ascending (hs.sorted a) k _
      · exact hs.sorted a
    · rw [hlen]
      rw [hload] at hq
      split_ifs at hq with h
      · have hab : a = b := by simpa using h
        rcases TMap.mem_set hq with e | e
        · refine ⟨m.mem.length, (Prod.mk.inj e).2, by omega, by omega⟩
        · obtain ⟨c, h1, h2, h3⟩ := hs.entries a k' q e
          exact ⟨c, h1, h2, by omega⟩
      · obtain ⟨c, h1, h2, h3⟩ := hs.entries a k' q hq
        exact ⟨c, h1, h2, by omega⟩
  · rw [IntSetMap.set_step_found m (some b) hk]
    exact hs

theorem IntSetMap.Shape.after_extend {m : IntSetMap M} (hm : m.Inv) (hs : m.Shape)
    (K K0 : List Int) (b : Nat) (hb : m.walk (some 0) K0 = some b) :
    (m.extend (some b) K).1.Shape := by
  induction K generalizing m K0 b with
  | nil => exact hs
  | cons k K ih =>
    obtain ⟨hinv, _, c, hc, hwalk⟩ := hm.set_step hb k
    rw [IntSetMap.extend_cons, hc]
    have hb' : (m.set_step (some b) k).1.walk (some 0) (K0 ++ [k]) = some c := by
      rw [hwalk]; simp
    exact ih hinv (hs.after_set_step hm hb k) (K0 ++ [k]) c hb'

theorem IntSetMap.Shape.after_storeMapped {m : IntSetMap M} (hs : m.Shape) {c : Nat}
    (hc : c < m.mem.length) (V : M) : (m.storeMapped (some c) V).Shape := by
  have hnext : ∀ p, ((m.storeMapped (some c) V).load p).next = (m.load p).next := by
    intro p
    rw [IntSetMap.load_storeMapped m c hc]
    split_ifs <;> rfl
  have hlen : (m.storeMapped (some c) V).mem.length = m.mem.length := by
    simp [IntSetMap.storeMapped]
  refine ⟨fun a => ?_, fun a k q hq => ?_⟩
  · rw [hnext]; exact hs.sorted a
  · rw [hnext] at hq
    rw [hlen]
    exact hs.entries a k q hq

theorem IntSetMap.Shape.of_new : (IntSetMap.new : IntSetMap M).Shape := by
  have hnext : ∀ a, ((IntSetMap.new : IntSetMap M).load (some a)).next = [] := by
    intro a
    cases a with
    | zero => rfl
    | succ a => rfl
  refine ⟨fun a => ?_, fun a k q hq => ?_⟩
  · rw [hnext]; simp [TMap.Ascending]
  · rw [hnext] at hq; simp at hq

section Checked
variable [DecidableEq M]

theorem IntSetMap.Shape.after_set_Vector {m : IntSetMap M} (hm : m.Inv) (hs : m.Shape)
    (K : List Int) (V : M) : (m.set_Vector ⟨K⟩ V).1.Shape := by
  rw [IntSetMap.set_Vector_eq]
  split_ifs with hK
  · exact hs
  · rw [hm.root]
    obtain ⟨hinv, _, ⟨c, hc, hwc⟩, _⟩ := hm.extend (setKey K) [] 0 rfl
    simp only [List.nil_append] at hwc
    have hclt := hinv.walk_valid (setKey K) c hwc
    simp only [hc]
    exact (hs.after_extend hm (setKey K) [] 0 rfl).after_storeMapped hclt V

/-- Every container built by `set` calls satisfies the invariant of the child indices. -/
theorem IntSetMap.run_shape (calls : List (SetCall M)) : (IntSetMap.run calls).Shape := by
  induction calls using List.reverseRecOn with
  | nil => exact IntSetMap.Shape.of_new
  | append_singleton calls c ih =>
    rw [IntSetMap.run_concat, IntSetMap.call_eq]
    exact ih.after_set_Vector (IntSetMap.run_inv calls) c.key c.value

end Checked

/-- The store holds one object per path of the tree. -/
theorem IntSetMap.Inv.length_eq {m : IntSetMap M} (hm : m.Inv) (L : List (List Int))
    (hnd : L.Nodup) (hmem : ∀ K, K ∈ L ↔ m.walk (some 0) K ≠ none) :
    m.mem.length = L.length := by
  obtain ⟨path, h1, h2⟩ := hm.tree
  have hnd' : ((List.range m.mem.length).map path).Nodup := by
    apply List.Nodup.map_on _ (List.nodup_range _)
    intro a ha a' ha' e
    have ha1 := h1 a (List.mem_range.mp ha)
    have ha2 := h1 a' (List.mem_range.mp ha')
    rw [e, ha2] at ha1
    simpa using ha1.symm
  have hperm : ((List.range m.mem.length).map path).Perm L := by
    rw [List.perm_ext_iff_of_nodup hnd' hnd]
    intro K
    rw [hmem K]
    constructor
    · intro h
      obtain ⟨a, ha, rfl⟩ := List.mem_map.mp h
      rw [h1 a (List.mem_range.mp ha)]
      simp
    · intro h
      obtain ⟨a, ha⟩ := Option.ne_none_iff_exists'.mp h
      exact List.mem_map.mpr ⟨a, List.mem_range.mpr (hm.walk_valid K a ha), h2 K a ha⟩
  have := hperm.length_eq
  simpa using this

/-- Two containers with the same paths hold the same number of nodes. -/
theorem IntSetMap.Inv.num_node_eq {m m' : IntSetMap M} (hm : m.Inv) (hm' : m'.Inv)
    (h : ∀ K, m.walk (some 0) K ≠ none ↔ m'.walk (some 0) K ≠ none) :
    m.m_num_node = m'.m_num_node := by
  obtain ⟨path, h1, h2⟩ := hm.tree
  have hnd : ((List.range m.mem.length).map path).Nodup := by
    apply List.Nodup.map_on _ (List.nodup_range _)
    intro a ha a' ha' e
    have ha1 := h1 a (List.mem_range.mp ha)
    have ha2 := h1 a' (List.mem_range.mp ha')
    rw [e, ha2] at ha1
    simpa using ha1.symm
  have hmem : ∀ K, K ∈ (List.range m.mem.length).map path ↔ m.walk (some 0) K ≠ none := by
    intro K
    constructor
    · intro h
      obtain ⟨a, ha, rfl⟩ := List.mem_map.mp h
      rw [h1 a (List.mem_range.mp ha)]
      simp
    · intro h
      obtain ⟨a, ha⟩ := Option.ne_none_iff_exists'.mp h
      exact List.mem_map.mpr ⟨a, List.mem_range.mpr (hm.walk_valid K a ha), h2 K a ha⟩
  have e1 := hm.length_eq _ hnd hmem
  have e2 := hm'.length_eq _ hnd (fun K => (hmem K).trans (h K))
  have c1 := hm.count
  have c2 := hm'.count
  omega

section Checked
variable [DecidableEq M]

end Checked

theorem IntSetMap.dump_loop_step (m : IntSetMap M) (fuel : Nat) (st : DumpState M)
    (h : st.mn_stack.get_top none ≠ none) :
    m.dump_loop (fuel + 1) st = m.dump_loop fuel (m.dump_body st) := by
  simp only [IntSetMap.dump_loop, if_neg h]

theorem IntSetMap.dump_loop_exit (m : IntSetMap M) (fuel : Nat) (st : DumpState M)
    (h : st.mn_stack.get_top none = none) : m.dump_loop fuel st = some st := by
  cases fuel <;> simp only [IntSetMap.dump_loop, if_pos h]

omit [Zero M] in
/-- The inner loop pushes one frame per entry of the child index; the last entry ends up
on top. -/
theorem IntSetMap.dump_push_frames (ind : Nat) (l : TMap) :
    ∀ (F : List (Ptr × Int × Nat)) (out : List (DumpVisit M)),
      (∀ e ∈ l, e.2 ≠ none) →
      IntSetMap.dump_push ind l (DumpState.ofFrames F out) =
        DumpState.ofFrames
          (l.reverse.map (fun e => (e.2, e.1, (ind + 2) % UINT_MOD)) ++ F) out := by
  induction l with
  | nil => intro F out _; rfl
  | cons e rest ih =>
    intro F out h
    obtain ⟨k, q⟩ := e
    have hq : q ≠ none := h (k, q) (List.mem_cons_self _ _)
    obtain ⟨c, rfl⟩ := Option.ne_none_iff_exists'.mp hq
    have := ih ((some c, k, (ind + 2) % UINT_MOD) :: F) out
      (fun e he => h e (List.mem_cons_of_mem _ he))
    simp only [IntSetMap.dump_push, List.reverse_cons, List.map_append, List.map_cons,
      List.map_nil, List.append_assoc, List.singleton_append]
    rw [← this]
    rfl

theorem IntSetMap.frameOf_child {m : IntSetMap M} (hm : m.Inv) (hs : m.Shape) (b : Nat)
    {K : List Int} {a : Nat} (ha : m.walk (some 0) K = some a) {e : Int × Ptr}
    (he : e ∈ (m.load (some a)).next) :
    m.frameOf b (K ++ [e.1]) = (e.2, e.1, ((b + 2 * K.length) % UINT_MOD + 2) % UINT_MOD) := by
  have hget : TMap.get (m.load (some a)).next e.1 = e.2 := TMap.get_of_mem (hs.sorted a) he
  unfold IntSetMap.frameOf
  rw [hm.root, IntSetMap.walk_concat, ha, IntSetMap.child_some, hget]
  have h1 : (K ++ [e.1]).getLastD 0 = e.1 := by simp
  have h2 : (b + 2 * (K ++ [e.1]).length) % UINT_MOD =
      ((b + 2 * K.length) % UINT_MOD + 2) % UINT_MOD := by
    simp only [List.length_append, List.length_singleton, UINT_MOD]
    omega
  rw [h1, h2]

/-- One iteration of the outer loop on a stack whose top frame is that of the path `K`:
the node of `K` is rendered, and the frames of its children replace it, the child with
the largest key on top. -/
theorem IntSetMap.dump_body_frame {m : IntSetMap M} (hm : m.Inv) (hs : m.Shape) (b : Nat)
    {K : List Int} {a : Nat} (ha : m.walk (some 0) K = some a)
    (F : List (Ptr × Int × Nat)) (out : List (DumpVisit M)) :
    m.dump_body (DumpState.ofFrames (m.frameOf b K :: F) out) =
      DumpState.ofFrames
        ((m.load (some a)).next.reverse.map (fun e => m.frameOf b (K ++ [e.1])) ++ F)
        (out ++ [m.visitOf b K]) := by
  have hnn : ∀ e ∈ (m.load (some a)).next, e.2 ≠ none := by
    intro e he
    obtain ⟨c, hc, _⟩ := hs.entries a e.1 e.2 he
    rw [hc]; simp
  have hmap : (m.load (some a)).next.reverse.map (fun e => m.frameOf b (K ++ [e.1])) =
      (m.load (some a)).next.reverse.map
        (fun e => (e.2, e.1, ((b + 2 * K.length) % UINT_MOD + 2) % UINT_MOD)) := by
    apply List.map_congr_left
    intro e he
    exact IntSetMap.frameOf_child hm hs b ha (List.mem_reverse.mp he)
  rw [hmap, ← IntSetMap.dump_push_frames _ _ F _ hnn]
  unfold IntSetMap.dump_body
  simp only [DumpState.ofFrames, IntSetMap.frameOf, IntSetMap.visitOf, IntSetMap.valueAt,
    Stack.pop, List.map_cons, List.headD_cons, List.tail_cons, hm.root, ha]

theorem IntSetMap.frameOf_top {m : IntSetMap M} (hm : m.Inv) (b : Nat)
    {K : List Int} {a : Nat} (ha : m.walk (some 0) K = some a)
    (F : List (Ptr × Int × Nat)) (out : List (DumpVisit M)) :
    (DumpState.ofFrames (m.frameOf b K :: F) out).mn_stack.get_top none ≠ none := by
  simp [DumpState.ofFrames, IntSetMap.frameOf, Stack.get_top, hm.root, ha]

/-- The traversal of a stack of subtrees: with enough iterations, the outer loop renders
the subtree of the top frame in the order `prePaths` and then continues with the frames
below it. -/
theorem IntSetMap.dump_loop_subtree {m : IntSetMap M} (hm : m.Inv) (hs : m.Shape) (b : Nat) :
    ∀ (D : Nat) (K : List Int) (a : Nat), m.walk (some 0) K = some a →
      m.mem.length - a ≤ D →
      ∀ (F : List (Ptr × Int × Nat)) (out : List (DumpVisit M)) (fuel : Nat),
        m.dump_loop (fuel + (m.prePaths D (some a) K).length)
            (DumpState.ofFrames (m.frameOf b K :: F) out) =
          m.dump_loop fuel
            (DumpState.ofFrames F (out ++ (m.prePaths D (some a) K).map (m.visitOf b))) := by
  intro D
  induction D with
  | zero =>
    intro K a ha hD
    have := hm.walk_valid K a ha
    omega
  | succ D ih =>
    intro K a ha hD F out fuel
    -- the children, as a list of entries of the child index of `a`
    have hchildren : ∀ (C : TMap), (∀ e ∈ C, e ∈ (m.load (some a)).next) →
        ∀ (out' : List (DumpVisit M)) (fuel' : Nat),
          m.dump_loop
              (fuel' + (C.flatMap (fun e => m.prePaths D e.2 (K ++ [e.1]))).length)
              (DumpState.ofFrames (C.map (fun e => m.frameOf b (K ++ [e.1])) ++ F) out') =
            m.dump_loop fuel'
              (DumpState.ofFrames F
                (out' ++ (C.flatMap (fun e => m.prePaths D e.2 (K ++ [e.1]))).map
                  (m.visitOf b))) := by
      intro C
      induction C with
      | nil => intro _ out' fuel'; simp
      | cons e C ihC =>
        intro hC out' fuel'
        have he := hC e (List.mem_cons_self _ _)
        obtain ⟨c, hc, hac, hclt⟩ := hs.entries a e.1 e.2 he
        have hwc : m.walk (some 0) (K ++ [e.1]) = some c := by
          rw [IntSetMap.walk_concat, ha, IntSetMap.child_some,
            TMap.get_of_mem (hs.sorted a) he, hc]
        have h1 := ih (K ++ [e.1]) c hwc (by omega)
          (C.map (fun e => m.frameOf b (K ++ [e.1])) ++ F) out'
          (fuel' + (C.flatMap (fun e => m.prePaths D e.2 (K ++ [e.1]))).length)
        have h2 := ihC (fun e' he' => hC e' (List.mem_cons_of_mem _ he'))
          (out' ++ (m.prePaths D (some c) (K ++ [e.1])).map (m.visitOf b)) fuel'
        simp only [List.flatMap_cons, List.length_append, List.map_cons, List.cons_append,
          List.map_append, hc]
        rw [show fuel' + ((m.prePaths D (some c) (K ++ [e.1])).length +
              (C.flatMap (fun e => m.prePaths D e.2 (K ++ [e.1]))).length) =
            fuel' + (C.flatMap (fun e => m.prePaths D e.2 (K ++ [e.1]))).length +
              (m.prePaths D (some c) (K ++ [e.1])).length by omega]
        rw [h1, h2, List.append_assoc]
    have hstep := IntSetMap.dump_loop_step m
      (fuel + ((m.load (some a)).next.reverse.flatMap
        (fun e => m.prePaths D e.2 (K ++ [e.1]))).length)
      (DumpState.ofFrames (m.frameOf b K :: F) out) (IntSetMap.frameOf_top hm b ha F out)
    have hpre : m.prePaths (D + 1) (some a) K =
        K :: ((m.load (some a)).next.reverse.flatMap
          (fun e => m.prePaths D e.2 (K ++ [e.1]))) := rfl
    rw [hpre, List.length_cons, ← Nat.add_assoc, hstep, IntSetMap.dump_body_frame hm hs b ha,
      hchildren _ (fun e he => List.mem_reverse.mp he)]
    simp

theorem sublist_flatMap_of_mem {α β : Type} (f : α → List β) {l : List α} {e : α}
    (h : e ∈ l) : List.Sublist (f e) (l.flatMap f) := by
  induction l with
  | nil => simp at h
  | cons hd rest ih =>
    rw [List.flatMap_cons]
    rcases List.mem_cons.mp h with h | h
    · rw [h]; exact List.sublist_append_left _ _
    · exact (ih h).trans (List.sublist_append_right _ _)

/-- Elements of the parts of two list entries keep the order of the entries. -/
theorem pair_sublist_flatMap {α β : Type} (f : α → List β) {l : List α} {p q : α} {x y : β}
    (h : List.Sublist [p, q] l) (hx : x ∈ f p) (hy : y ∈ f q) :
    List.Sublist [x, y] (l.flatMap f) := by
  induction l with
  | nil => simp at h
  | cons hd rest ih =>
    rw [List.flatMap_cons]
    cases h with
    | cons _ h' => exact (ih h').trans (List.sublist_append_right _ _)
    | cons₂ _ h' =>
      have hq : q ∈ rest := List.singleton_sublist.mp h'
      have h1 : List.Sublist [x] (f p) := List.singleton_sublist.mpr hx
      have h2 : List.Sublist [y] (rest.flatMap f) :=
        List.singleton_sublist.mpr (List.mem_flatMap.mpr ⟨q, hq, hy⟩)
      exact h1.append h2

/-- In a child index two entries stand in the order of their keys. -/
theorem TMap.pair_sublist {l : TMap} (hl : TMap.Ascending l) {e1 e2 : Int × Ptr}
    (h1 : e1 ∈ l) (h2 : e2 ∈ l) (hlt : e1.1 < e2.1) : List.Sublist [e1, e2] l := by
  induction l with
  | nil => simp at h1
  | cons hd rest ih =>
    unfold TMap.Ascending at hl ih
    simp only [List.map_cons, List.pairwise_cons] at hl
    rcases List.mem_cons.mp h1 with h1 | h1
    · rcases List.mem_cons.mp h2 with h2 | h2
      · rw [h1, h2] at hlt; omega
      · rw [h1]
        exact List.Sublist.cons₂ _ (List.singleton_sublist.mpr h2)
    · rcases List.mem_cons.mp h2 with h2 | h2
      · have := hl.1 e1.1 (List.mem_map_of_mem Prod.fst h1)
        rw [h2] at hlt
        omega
      · exact List.Sublist.cons _ (ih hl.2 h1 h2)

/-- The paths listed by `prePaths` are those of the subtree. -/
theorem IntSetMap.Shape.mem_prePaths {m : IntSetMap M} (hs : m.Shape) :
    ∀ (D : Nat) (a : Nat) (K K2 : List Int), a < m.mem.length → m.mem.length - a ≤ D →
      (K2 ∈ m.prePaths D (some a) K ↔ ∃ R, K2 = K ++ R ∧ m.walk (some a) R ≠ none) := by
  intro D
  induction D with
  | zero => intro a K K2 ha hD; omega
  | succ D ih =>
    intro a K K2 ha hD
    simp only [IntSetMap.prePaths, List.mem_cons, List.mem_flatMap, List.mem_reverse]
    constructor
    · rintro (h | ⟨e, he, h⟩)
      · exact ⟨[], by simp [h], by simp⟩
      · obtain ⟨c, hc, hac, hclt⟩ := hs.entries a e.1 e.2 he
        rw [hc] at h
        obtain ⟨R, hR, hw⟩ := (ih c (K ++ [e.1]) K2 hclt (by omega)).mp h
        refine ⟨e.1 :: R, by simp [hR], ?_⟩
        rw [IntSetMap.walk_cons, IntSetMap.child_some, TMap.get_of_mem (hs.sorted a) he, hc]
        exact hw
    · rintro ⟨R, hR, hw⟩
      cases R with
      | nil => left; simpa using hR
      | cons k R =>
        right
        rw [IntSetMap.walk_cons] at hw
        have hc : m.child (some a) k ≠ none := by
          intro e; rw [e] at hw; simp at hw
        obtain ⟨c, hc⟩ := Option.ne_none_iff_exists'.mp hc
        rw [hc] at hw
        have hmem : (k, some c) ∈ (m.load (some a)).next :=
          TMap.mem_of_get (by rwa [IntSetMap.child_some] at hc)
        obtain ⟨c', hc', hac, hclt⟩ := hs.entries a k (some c) hmem
        have hcc : c' = c := by simpa using hc'.symm
        subst hcc
        refine ⟨(k, some c'), hmem, ?_⟩
        exact (ih c' (K ++ [k]) K2 hclt (by omega)).mpr ⟨R, by simp [hR], hw⟩

/-- No path is listed twice by `prePaths`. -/
theorem IntSetMap.Shape.nodup_prePaths {m : IntSetMap M} (hs : m.Shape) :
    ∀ (D : Nat) (a : Nat) (K : List Int), a < m.mem.length → m.mem.length - a ≤ D →
      (m.prePaths D (some a) K).Nodup := by
  intro D
  induction D with
  | zero => intro a K ha hD; omega
  | succ D ih =>
    intro a K ha hD
    simp only [IntSetMap.prePaths]
    rw [List.nodup_cons, List.nodup_flatMap]
    refine ⟨?_, ?_, ?_⟩
    · intro h
      obtain ⟨e, he, h⟩ := List.mem_flatMap.mp h
      obtain ⟨c, hc, hac, hclt⟩ := hs.entries a e.1 e.2 (List.mem_reverse.mp he)
      rw [hc] at h
      obtain ⟨R, hR, _⟩ := (hs.mem_prePaths D c (K ++ [e.1]) K hclt (by omega)).mp h
      have := congrArg List.length hR
      simp at this
    · intro e he
      obtain ⟨c, hc, hac, hclt⟩ := hs.entries a e.1 e.2 (List.mem_reverse.mp he)
      rw [hc]
      exact ih c (K ++ [e.1]) hclt (by omega)
    · have hkeys : List.Pairwise (fun e1 e2 : Int × Ptr => e1.1 ≠ e2.1)
          (m.load (some a)).next.reverse := by
        rw [List.pairwise_reverse]
        have := hs.sorted a
        unfold TMap.Ascending at this
        rw [List.pairwise_map] at this
        exact this.imp (fun h e => by omega)
      refine hkeys.imp_of_mem ?_
      intro e1 e2 h1 h2 hne
      obtain ⟨c1, hc1, _, hclt1⟩ := hs.entries a e1.1 e1.2 (List.mem_reverse.mp h1)
      obtain ⟨c2, hc2, _, hclt2⟩ := hs.entries a e2.1 e2.2 (List.mem_reverse.mp h2)
      show List.Disjoint _ _
      intro K2 hm1 hm2
      have hm1 : K2 ∈ m.prePaths D e1.2 (K ++ [e1.1]) := hm1
      have hm2 : K2 ∈ m.prePaths D e2.2 (K ++ [e2.1]) := hm2
      rw [hc1] at hm1
      rw [hc2] at hm2
      obtain ⟨R1, hR1, _⟩ := (hs.mem_prePaths D c1 (K ++ [e1.1]) K2 hclt1 (by omega)).mp hm1
      obtain ⟨R2, hR2, _⟩ := (hs.mem_prePaths D c2 (K ++ [e2.1]) K2 hclt2 (by omega)).mp hm2
      rw [hR1] at hR2
      simp only [List.append_assoc, List.append_cancel_left_eq, List.singleton_append,
        List.cons.injEq] at hR2
      exact hne hR2.1

/-- A listed path that continues with the segment `k0` is listed in the part of the child
under `k0`. -/
theorem IntSetMap.Shape.locate_prePaths {m : IntSetMap M} (hs : m.Shape) (D : Nat) {a : Nat}
    {K K2 : List Int} (ha : a < m.mem.length) (hD : m.mem.length - a ≤ D + 1)
    (hmem : K2 ∈ m.prePaths (D + 1) (some a) K) {k0 : Int} {R : List Int}
    (hK2 : K2 = K ++ k0 :: R) :
    ∃ c0, m.child (some a) k0 = some c0 ∧ (k0, some c0) ∈ (m.load (some a)).next ∧
      a < c0 ∧ c0 < m.mem.length ∧ K2 ∈ m.prePaths D (some c0) (K ++ [k0]) := by
  obtain ⟨R2, hR2, hw⟩ := (hs.mem_prePaths (D + 1) a K K2 ha hD).mp hmem
  have hRR : R2 = k0 :: R := by
    rw [hK2] at hR2
    exact (List.append_cancel_left hR2).symm
  rw [hRR, IntSetMap.walk_cons] at hw
  have hc : m.child (some a) k0 ≠ none := by
    intro e; rw [e] at hw; simp at hw
  obtain ⟨c, hc⟩ := Option.ne_none_iff_exists'.mp hc
  rw [hc] at hw
  have hin : (k0, some c) ∈ (m.load (some a)).next :=
    TMap.mem_of_get (by rwa [IntSetMap.child_some] at hc)
  obtain ⟨c', hc', hac, hclt⟩ := hs.entries a k0 (some c) hin
  have hcc : c' = c := by simpa using hc'.symm
  subst hcc
  refine ⟨c', hc, hin, hac, hclt, ?_⟩
  exact (hs.mem_prePaths D c' (K ++ [k0]) K2 hclt (by omega)).mpr ⟨R, by simp [hK2], hw⟩

/-- In the order of `prePaths` a path comes before each of its one-segment extensions. -/
theorem IntSetMap.Shape.parent_first {m : IntSetMap M} (hs : m.Shape) :
    ∀ (D : Nat) (a : Nat) (K K2 : List Int) (k : Int), a < m.mem.length →
      m.mem.length - a ≤ D → K2 ∈ m.prePaths D (some a) K →
      K2 ++ [k] ∈ m.prePaths D (some a) K →
      List.Sublist [K2, K2 ++ [k]] (m.prePaths D (some a) K) := by
  intro D
  induction D with
  | zero => intro a K K2 k ha hD; omega
  | succ D ih =>
    intro a K K2 k ha hD h1 h2
    obtain ⟨R, hR, _⟩ := (hs.mem_prePaths (D + 1) a K K2 ha hD).mp h1
    have hpre : m.prePaths (D + 1) (some a) K =
        K :: ((m.load (some a)).next.reverse.flatMap
          (fun e => m.prePaths D e.2 (K ++ [e.1]))) := rfl
    cases R with
    | nil =>
      have hK : K2 = K := by simpa using hR
      rw [hpre, hK] at h2 ⊢
      have hne : K ++ [k] ≠ K := by
        intro e
        have := congrArg List.length e
        simp at this
      rcases List.mem_cons.mp h2 with h | h
      · exact absurd h hne
      · exact List.Sublist.cons₂ _ (List.singleton_sublist.mpr h)
    | cons k0 R =>
      obtain ⟨c, hc, hin, hac, hclt, hm1⟩ := hs.locate_prePaths D ha hD h1 hR
      obtain ⟨c', hc', _, _, _, hm2⟩ := hs.locate_prePaths D ha hD h2
        (show K2 ++ [k] = K ++ k0 :: (R ++ [k]) by simp [hR])
      have hcc : c' = c := by
        rw [hc] at hc'; simpa using hc'.symm
      subst hcc
      have hsub := ih c' (K ++ [k0]) K2 k hclt (by omega) hm1 hm2
      rw [hpre]
      refine List.Sublist.cons _ (hsub.trans ?_)
      exact sublist_flatMap_of_mem (fun e : Int × Ptr => m.prePaths D e.2 (K ++ [e.1]))
        (List.mem_reverse.mpr hin)

/-- In the order of `prePaths`, of two one-segment extensions of a path the one with the
larger last segment comes first. -/
theorem IntSetMap.Shape.larger_key_first {m : IntSetMap M} (hs : m.Shape) :
    ∀ (D : Nat) (a : Nat) (K K2 : List Int) (k1 k2 : Int), a < m.mem.length →
      m.mem.length - a ≤ D → k1 < k2 → K2 ∈ m.prePaths D (some a) K →
      K2 ++ [k1] ∈ m.prePaths D (some a) K → K2 ++ [k2] ∈ m.prePaths D (some a) K →
      List.Sublist [K2 ++ [k2], K2 ++ [k1]] (m.prePaths D (some a) K) := by
  intro D
  induction D with
  | zero => intro a K K2 k1 k2 ha hD; omega
  | succ D ih =>
    intro a K K2 k1 k2 ha hD hlt h0 h1 h2
    obtain ⟨R, hR, _⟩ := (hs.mem_prePaths (D + 1) a K K2 ha hD).mp h0
    have hpre : m.prePaths (D + 1) (some a) K =
        K :: ((m.load (some a)).next.reverse.flatMap
          (fun e => m.prePaths D e.2 (K ++ [e.1]))) := rfl
    cases R with
    | nil =>
      have hK : K2 = K := by simpa using hR
      rw [hK] at h1 h2 ⊢
      obtain ⟨c1, _, hin1, _, _, hm1⟩ := hs.locate_prePaths D ha hD h1
        (show K ++ [k1] = K ++ k1 :: [] from rfl)
      obtain ⟨c2, _, hin2, _, _, hm2⟩ := hs.locate_prePaths D ha hD h2
        (show K ++ [k2] = K ++ k2 :: [] from rfl)
      have hord : List.Sublist [(k2, some c2), (k1, some c1)] (m.load (some a)).next.reverse := by
        have := (TMap.pair_sublist (hs.sorted a) hin1 hin2 hlt).reverse
        simpa using this
      rw [hpre]
      exact List.Sublist.cons _
        (pair_sublist_flatMap (fun e : Int × Ptr => m.prePaths D e.2 (K ++ [e.1])) hord hm2 hm1)
    | cons k0 R =>
      obtain ⟨c, hc, hin, hac, hclt, hm0⟩ := hs.locate_prePaths D ha hD h0 hR
      obtain ⟨c', hc', _, _, _, hm1⟩ := hs.locate_prePaths D ha hD h1
        (show K2 ++ [k1] = K ++ k0 :: (R ++ [k1]) by simp [hR])
      obtain ⟨c'', hc'', _, _, _, hm2⟩ := hs.locate_prePaths D ha hD h2
        (show K2 ++ [k2] = K ++ k0 :: (R ++ [k2]) by simp [hR])
      have hcc : c' = c := by
        rw [hc] at hc'; simpa using hc'.symm
      have hcc2 : c'' = c := by
        rw [hc] at hc''; simpa using hc''.symm
      subst hcc
      subst hcc2
      have hsub := ih c'' (K ++ [k0]) K2 k1 k2 hclt (by omega) hlt hm0 hm1 hm2
      rw [hpre]
      refine List.Sublist.cons _ (hsub.trans ?_)
      exact sublist_flatMap_of_mem (fun e : Int × Ptr => m.prePaths D e.2 (K ++ [e.1]))
        (List.mem_reverse.mpr hin)

/-- The paths of the whole tree in the order of the traversal: each path of the tree is
listed, once. -/
theorem IntSetMap.Shape.prePaths_root {m : IntSetMap M} (hm : m.Inv) (hs : m.Shape) :
    (∀ K, K ∈ m.prePaths m.mem.length (some 0) [] ↔ m.walk (some 0) K ≠ none) ∧
    (m.prePaths m.mem.length (some 0) []).Nodup ∧
    (m.prePaths m.mem.length (some 0) []).length = m.mem.length := by
  have h0 : 0 < m.mem.length := by have := hm.count; omega
  have hmem : ∀ K, K ∈ m.prePaths m.mem.length (some 0) [] ↔ m.walk (some 0) K ≠ none := by
    intro K
    rw [hs.mem_prePaths m.mem.length 0 [] K h0 (by omega)]
    constructor
    · rintro ⟨R, hR, hw⟩
      rw [hR]; simpa using hw
    · intro h
      exact ⟨K, by simp, h⟩
  have hnd := hs.nodup_prePaths m.mem.length 0 [] h0 (by omega)
  exact ⟨hmem, hnd, (hm.length_eq _ hnd hmem).symm⟩

/-- The result of `dump_helper` on the root: with at least as many iterations as the
store has nodes, the loop exits with empty stacks, having rendered the nodes in the order
of `prePaths`. -/
theorem IntSetMap.dump_helper_eq {m : IntSetMap M} (hm : m.Inv) (hs : m.Shape) {b : Nat}
    (hb : b < UINT_MOD) {fuel : Nat} (hfuel : m.mem.length ≤ fuel) :
    m.dump_helper fuel m.get_root b =
      some (DumpState.ofFrames []
        ((m.prePaths m.mem.length (some 0) []).map (m.visitOf b))) := by
  obtain ⟨_, _, hlen⟩ := hs.prePaths_root hm
  have hinit : m.dump_helper fuel m.get_root b =
      m.dump_loop fuel (DumpState.ofFrames (m.frameOf b [] :: []) []) := by
    unfold IntSetMap.dump_helper IntSetMap.get_root
    simp only [DumpState.ofFrames, IntSetMap.frameOf, hm.root, IntSetMap.walk_nil,
      List.getLastD_nil, List.length_nil, Nat.mul_zero, Nat.add_zero, Nat.mod_eq_of_lt hb,
      Stack.push, List.map_cons, List.map_nil, Option.isSome_some]
  have hsplit : fuel = (fuel - m.mem.length) +
      (m.prePaths m.mem.length (some 0) []).length := by
    rw [hlen]; omega
  rw [hinit, hsplit, IntSetMap.dump_loop_subtree hm hs b m.mem.length [] 0 rfl (by omega)]
  rw [IntSetMap.dump_loop_exit _ _ _ (by rfl)]
  simp

omit [Zero M] in
/-- The inner loop of `dump_helper` pushes non-null nodes only when the entries of the
child index are non-null, and then no assertion fails. -/
theorem IntSetMap.dump_push_nonnull (ind : Nat) (l : TMap) (hl : ∀ e ∈ l, e.2 ≠ none) :
    ∀ st : DumpState M, (∀ q ∈ st.mn_stack, q ≠ none) → st.asserts = true →
      (∀ q ∈ (IntSetMap.dump_push ind l st).mn_stack, q ≠ none) ∧
      (IntSetMap.dump_push ind l st).asserts = true := by
  induction l with
  | nil => intro st h1 h2; exact ⟨h1, h2⟩
  | cons e rest ih =>
    intro st h1 h2
    obtain ⟨k, q⟩ := e
    have hq : q ≠ none := hl (k, q) (List.mem_cons_self _ _)
    simp only [IntSetMap.dump_push]
    apply ih (fun e he => hl e (List.mem_cons_of_mem _ he))
    · intro q' hq'
      simp only [Stack.push, List.mem_cons] at hq'
      rcases hq' with h | h
      · rw [h]; exact hq
      · exact h1 q' h
    · obtain ⟨c, rfl⟩ := Option.ne_none_iff_exists'.mp hq
      simp [h2]

/-- Every state of `dump_helper` on the root holds non-null nodes only, and no assertion
has failed. -/
theorem IntSetMap.Shape.dump_state_nonnull {m : IntSetMap M} (hs : m.Shape)
    {mn : Ptr} (hmn : mn ≠ none) (b : Nat) (n : Nat) :
    (∀ q ∈ (m.dump_state n mn b).mn_stack, q ≠ none) ∧
    (m.dump_state n mn b).asserts = true := by
  induction n with
  | zero =>
    obtain ⟨c, rfl⟩ := Option.ne_none_iff_exists'.mp hmn
    simp [IntSetMap.dump_state, Stack.push]
  | succ n ih =>
    have hstep : m.dump_state (n + 1) mn b = m.dump_body (m.dump_state n mn b) := by
      unfold IntSetMap.dump_state
      rw [Function.iterate_succ_apply']
    rw [hstep]
    unfold IntSetMap.dump_body
    apply IntSetMap.dump_push_nonnull
    · intro e he
      cases hp : ((m.dump_state n mn b).mn_stack.pop none).1 with
      | none =>
        rw [hp] at he
        simp [IntSetMap.load, IntVal2Node.init] at he
      | some a =>
        rw [hp] at he
        obtain ⟨c, hc, _⟩ := hs.entries a e.1 e.2 he
        rw [hc]; simp
    · intro q hq
      exact ih.1 q (List.mem_of_mem_tail hq)
    · exact ih.2

section Checked
variable [DecidableEq M]

/-- The traversal of a container built by `set` calls: with at least as many iterations as
there are nodes, `dump_helper` on the root exits with empty stacks after rendering the
paths of a list `L` in order, where `L` lists every path of the tree once, each path
before its extensions, and of two extensions by one segment the larger segment first. -/
theorem IntSetMap.dump_run (calls : List (SetCall M)) {b : Nat} (hb : b < UINT_MOD)
    {fuel : Nat} (hfuel : (IntSetMap.run calls).mem.length ≤ fuel) :
    ∃ L : List (List Int),
      (IntSetMap.run calls).dump_helper fuel (IntSetMap.run calls).get_root b =
        some (DumpState.ofFrames [] (L.map ((IntSetMap.run calls).visitOf b))) ∧
      (∀ K, K ∈ L ↔ (IntSetMap.run calls).walk (some 0) K ≠ none) ∧
      L.Nodup ∧ L.length = (IntSetMap.run calls).mem.length ∧
      (∀ K k, K ++ [k] ∈ L → List.Sublist [K, K ++ [k]] L) ∧
      (∀ K k1 k2, k1 < k2 → K ++ [k1] ∈ L → K ++ [k2] ∈ L →
        List.Sublist [K ++ [k2], K ++ [k1]] L) := by
  have hm := IntSetMap.run_inv calls
  have hs := IntSetMap.run_shape calls
  obtain ⟨hmem, hnd, hlen⟩ := hs.prePaths_root hm
  have h0 : 0 < (IntSetMap.run calls).mem.length := by have := hm.count; omega
  have hpar : ∀ K k, K ++ [k] ∈ (IntSetMap.run calls).prePaths
      (IntSetMap.run calls).mem.length (some 0) [] →
      K ∈ (IntSetMap.run calls).prePaths (IntSetMap.run calls).mem.length (some 0) [] := by
    intro K k h
    rw [hmem] at h ⊢
    exact IntSetMap.walk_prefix _ _ (List.prefix_append K [k]) h
  refine ⟨_, IntSetMap.dump_helper_eq hm hs hb hfuel, hmem, hnd, hlen, ?_, ?_⟩
  · intro K k h
    exact hs.parent_first _ 0 [] K k h0 (by omega) (hpar K k h) h
  · intro K k1 k2 hlt h1 h2
    exact hs.larger_key_first _ 0 [] K k1 k2 h0 (by omega) hlt (hpar K k1 h1) h1 h2

end Checked

/-- The nodes rendered for a list of paths. -/
theorem IntSetMap.Inv.visit_nodes {m : IntSetMap M} (hm : m.Inv) (b : Nat)
    (L : List (List Int)) :
    (L.map (m.visitOf b)).map DumpVisit.node = L.map (m.walk (some 0)) := by
  rw [List.map_map]
  apply List.map_congr_left
  intro K _
  simp [IntSetMap.visitOf, hm.root]

/-- The paths of a tree are rendered as distinct nodes. -/
theorem IntSetMap.Inv.nodup_nodes {m : IntSetMap M} (hm : m.Inv) {L : List (List Int)}
    (hnd : L.Nodup) (hmem : ∀ K, K ∈ L → m.walk (some 0) K ≠ none) :
    (L.map (m.walk (some 0))).Nodup := by
  apply List.Nodup.map_on _ hnd
  intro K hK K' hK' e
  obtain ⟨a, ha⟩ := Option.ne_none_iff_exists'.mp (hmem K hK)
  rw [ha] at e
  exact hm.walk_inj ha e.symm

/-- Every node of the store is the node of a path. -/
theorem IntSetMap.Inv.exists_path {m : IntSetMap M} (hm : m.Inv) {a : Nat}
    (ha : a < m.mem.length) : ∃ K, m.walk (some 0) K = some a := by
  obtain ⟨path, h1, _⟩ := hm.tree
  exact ⟨path a, h1 a ha⟩

theorem IntSetMap.lt_of_get {m : IntSetMap M} {a : Nat} {k : Int} {c : Nat}
    (h : TMap.get (m.load (some a)).next k = some c) : a < m.mem.length := by
  by_contra hlt
  rw [IntSetMap.load_dangling m a (by omega)] at h
  simp [IntVal2Node.init, TMap.get] at h

/-- An element of a list without repetition occurs once. -/
theorem count_eq_one_of_nodup {α : Type} [BEq α] [LawfulBEq α] {a : α} {l : List α}
    (d : l.Nodup) (h : a ∈ l) : l.count a = 1 := by
  induction l with
  | nil => simp at h
  | cons x xs ih =>
    rw [List.nodup_cons] at d
    rw [List.count_cons]
    rcases List.mem_cons.mp h with h | h
    · subst h
      simp [List.count_eq_zero_of_not_mem d.1]
    · have hne : (x == a) = false := by
        rw [beq_eq_false_iff_ne]
        intro e; subst e; exact d.1 h
      simp [ih d.2 h, hne]

theorem cons_replicate_succ (n : Nat) (a : Int) :
    a :: List.replicate (n + 1) a = [a, a] ++ List.replicate n a := rfl

/-- The key of `2 ^ 31` ones starts with two ones. -/
theorem longKey_eq : longKey = [1, 1] ++ List.replicate 2147483646 1 :=
  cons_replicate_succ 2147483646 1

/-- The elements `find` visits of a sequence other than a non-empty key `K` of fewer than
`2 ^ 31` elements are not the sequence `K`. -/
theorem findKey_ne {K K2 : List Int} (hK : K ≠ []) (hK2 : K2.length < UINT_MOD)
    (hne : K2 ≠ K) : findKey K2 ≠ K := by
  by_cases h : K2.length < VecIdx_LIMIT
  · rw [findKey_of_lt h]; exact hne
  · rw [findKey_of_ge (by omega) hK2]; exact fun e => hK e.symm

omit [Zero M] in
theorem SetCall.short_concat {calls : List (SetCall M)}
    (hs : ∀ c ∈ calls, c.key.length < VecIdx_LIMIT) (c : SetCall M)
    (hc : c.key.length < VecIdx_LIMIT) :
    ∀ c2 ∈ calls ++ [c], c2.key.length < VecIdx_LIMIT := by
  intro c2 h
  rcases List.mem_append.mp h with h | h
  · exact hs c2 h
  · have : c2 = c := by simpa using h
    rw [this]; exact hc

section Checked
variable [DecidableEq M]

/-- The call `set(longKey, V)` acts as `set([1], V)`. -/
theorem IntSetMap.set_Vector_longKey (m : IntSetMap M) (V : M) :
    m.set_Vector ⟨longKey⟩ V = m.set_Vector ⟨[1]⟩ V :=
  (IntSetMap.set_Vector_setKey m longKey V).trans
    (congrArg (fun K => m.set_Vector ⟨K⟩ V) setKey_longKey)

omit [DecidableEq M] in
/-- The call `find(longKey)` acts as `find([])`. -/
theorem IntSetMap.find_Vector_longKey (m : IntSetMap M) (hroot : m.m_root_val2node ≠ none)
    (out : M) : m.find_Vector ⟨longKey⟩ out = m.find_Vector ⟨[]⟩ out :=
  (IntSetMap.find_Vector_findKey m hroot longKey out).trans
    (congrArg (fun K => m.find_Vector ⟨K⟩ out) findKey_longKey)

/-- After `set(K, V)` on a non-empty key of fewer than `2 ^ 31` elements, `find(K)`
reports `V`. -/
theorem IntSetMap.find_after_set (calls : List (SetCall M)) (K : List Int) (V out : M)
    (hK : K ≠ []) (hlen : K.length < VecIdx_LIMIT) :
    (((IntSetMap.run calls).set_Vector ⟨K⟩ V).1).find_Vector ⟨K⟩ out = (true, V) := by
  rw [IntSetMap.run_eff calls]
  have hs := SetCall.eff_short calls
  generalize calls.map SetCall.eff = calls at hs ⊢
  have h := IntSetMap.find_run (calls ++ [SetCall.vector ⟨K⟩ V])
    (SetCall.short_concat hs (SetCall.vector ⟨K⟩ V) hlen) K hlen out
  rw [IntSetMap.run_concat] at h
  have hmem : K = [] ∨
      ∃ c ∈ calls ++ [SetCall.vector ⟨K⟩ V], c.key ≠ [] ∧ K <+: c.key :=
    Or.inr ⟨SetCall.vector ⟨K⟩ V, by simp, hK, List.prefix_refl _⟩
  rw [if_pos hmem, lastSet_concat, if_pos ⟨rfl, hK⟩] at h
  exact h

/-- A second `set(K, V)` right after the first changes nothing, on a key of fewer than
`2 ^ 31` elements. -/
theorem IntSetMap.Inv.set_twice_short {m : IntSetMap M} (hm : m.Inv) {K : List Int}
    (hK : K ≠ []) (hlen : K.length < VecIdx_LIMIT) (V : M) :
    ((m.set_Vector ⟨K⟩ V).1.set_Vector ⟨K⟩ V).1 = (m.set_Vector ⟨K⟩ V).1 := by
  obtain ⟨s1, _, s3, _, _, _, s7⟩ := hm.set_Vector hK hlen V
  obtain ⟨c, hc⟩ := Option.ne_none_iff_exists'.mp s7
  have hv : ((m.set_Vector ⟨K⟩ V).1.load (some c)).mapped = V := by
    have := s3 K
    rw [if_pos rfl] at this
    unfold IntSetMap.valueAt at this
    rw [s1.root] at this
    rw [← hc]
    exact this
  have hlt := s1.walk_valid K c hc
  rw [IntSetMap.set_Vector_eq (m.set_Vector ⟨K⟩ V).1, if_neg hK, setKey_of_lt hlen, s1.root,
    IntSetMap.extend_present _ K (some 0) s7]
  show IntSetMap.storeMapped _ ((m.set_Vector ⟨K⟩ V).1.walk (some 0) K) V = _
  rw [hc]
  exact IntSetMap.storeMapped_self _ (some c) V hv (fun a e => by
    have : c = a := by simpa using e
    rw [← this]; exact hlt)

/-- A second `set(K, V)` right after the first changes nothing. -/
theorem IntSetMap.Inv.set_twice {m : IntSetMap M} (hm : m.Inv) (K : List Int) (V : M) :
    ((m.set_Vector ⟨K⟩ V).1.set_Vector ⟨K⟩ V).1 = (m.set_Vector ⟨K⟩ V).1 := by
  by_cases hK : K = []
  · rw [hK]; rfl
  · rw [IntSetMap.set_Vector_setKey m, IntSetMap.set_Vector_setKey _ K]
    exact hm.set_twice_short (setKey_ne_nil hK) (setKey_length_lt K) V

end Checked

/-- A walk that fails on the first two elements of `longKey` fails on `longKey`. -/
theorem IntSetMap.walk_longKey (m : IntSetMap M) (mn : Ptr) (h : m.walk mn [1, 1] = none) :
    m.walk mn longKey = none := by
  rw [longKey_eq, IntSetMap.walk_append, h, IntSetMap.walk_none]

theorem longKey_prefix : ([1, 1] : List Int) <+: longKey :=
  ⟨List.replicate 2147483646 1, longKey_eq.symm⟩

section Checked
variable [DecidableEq M]

theorem IntSetMap.call_vector (m : IntSetMap M) (K : Vector) (V : M) :
    m.call (SetCall.vector K V) = (m.set_Vector K V).1 := rfl

/-- A history ending in `set(longKey, V)` builds the container of the history ending in
`set([1], V)`. -/
theorem IntSetMap.run_longKey (calls : List (SetCall M)) (V : M) :
    IntSetMap.run (calls ++ [SetCall.vector ⟨longKey⟩ V]) =
      IntSetMap.run (calls ++ [SetCall.vector ⟨[1]⟩ V]) := by
  rw [IntSetMap.run_concat, IntSetMap.run_concat, IntSetMap.call_vector,
    IntSetMap.call_vector, IntSetMap.set_Vector_longKey]

/-- The history of the single call `set(longKey, V)` builds the container of
`set([1], V)`. -/
theorem IntSetMap.run_single_longKey (V : M) :
    IntSetMap.run [SetCall.vector ⟨longKey⟩ V] = IntSetMap.run [SetCall.vector ⟨[1]⟩ V] :=
  IntSetMap.run_longKey [] V

end Checked

section Checked
variable [DecidableEq M]

/-- The root of a container built by `set` calls holds the sentinel, and `find([])`
reports it. -/
theorem IntSetMap.find_nil_run (calls : List (SetCall M)) (out : M) :
    ((IntSetMap.run calls).load (IntSetMap.run calls).get_root).mapped = 0 ∧
    (IntSetMap.run calls).find_Vector ⟨[]⟩ out = (true, 0) := by
  rw [IntSetMap.run_eff calls]
  have hs := SetCall.eff_short calls
  generalize calls.map SetCall.eff = calls at hs ⊢
  obtain ⟨_, _, hvals⟩ := IntSetMap.run_spec calls hs
  constructor
  · have := hvals []
    rw [lastSet_nil] at this
    exact this
  · rw [IntSetMap.find_run calls hs [] (by decide), if_pos (Or.inl rfl), lastSet_nil]

/-- On a vector of `2 ^ 31` elements or more `find` reports the sentinel of the root. -/
theorem IntSetMap.find_long_run (calls : List (SetCall M)) (K : List Int)
    (h1 : VecIdx_LIMIT ≤ K.length) (h2 : K.length < UINT_MOD) (out : M) :
    (IntSetMap.run calls).find_Vector ⟨K⟩ out = (true, 0) := by
  have hroot : (IntSetMap.run calls).m_root_val2node ≠ none := by
    rw [(IntSetMap.run_inv calls).root]; simp
  rw [IntSetMap.find_Vector_findKey _ hroot, findKey_of_ge h1 h2]
  exact (IntSetMap.find_nil_run calls out).2

end Checked

end Lemmas

/-! ## The properties of `set`, `find`, `dump_helper` and `count_mem` -/

section Claims

variable {M : Type} [Zero M] [DecidableEq M]

/-- C1 (as amended): in any container obtained from a fresh one by `set` calls, for every
non-empty key sequence `K` of fewer than `2 ^ 31` elements and every value `V` other than
the sentinel `MappedObj(0)`, after `set(K, V)` the call `find(K)` returns true and writes
`V` to its output. -/
theorem C1_round_trip (calls : List (SetCall M)) (K : Vector) (V out : M)
    (hK : K.elems ≠ []) (hlen : K.elems.length < VecIdx_LIMIT) (_hV : V ≠ 0) :
    (((IntSetMap.run calls).set_Vector K V).1).find_Vector K out = (true, V) :=
  IntSetMap.find_after_set calls K.elems V out hK hlen

/-- C1, instance: `set([1,2], 7)` on the container holding `[1,3] ↦ 8`, then
`find([1,2])`. -/
theorem C1_round_trip_witness :
    (((IntSetMap.run [SetCall.vector ⟨[1, 3]⟩ (8 : Nat)]).set_Vector ⟨[1, 2]⟩ 7).1).find_Vector
      ⟨[1, 2]⟩ 0 = (true, 7) :=
  C1_round_trip [SetCall.vector ⟨[1, 3]⟩ (8 : Nat)] ⟨[1, 2]⟩ 7 0 (by decide) (by decide)
    (by decide)

/-- C1 fails for the empty key sequence: on a fresh container `set([], 5)` returns at
once, and `find([])` then reports the sentinel `0` of the root, not `5`. It fails also
for the key `longKey` of `2 ^ 31` ones: the count of elements, cast to the signed index
type, is negative, so `set(longKey, 7)` runs no loop iteration and stores `7` at the node
of the first element, and `find(longKey)` runs none either and reports the sentinel `0`
of the root, not `7`. -/
theorem C1_counterexample :
    ((5 : Nat) ≠ 0 ∧
      (((IntSetMap.run ([] : List (SetCall Nat))).set_Vector ⟨[]⟩ 5).1).find_Vector ⟨[]⟩ 9
        = (true, 0) ∧
      (((IntSetMap.run ([] : List (SetCall Nat))).set_Vector ⟨[]⟩ 5).1).find_Vector ⟨[]⟩ 9
        ≠ (true, 5)) ∧
    ((7 : Nat) ≠ 0 ∧ longKey ≠ [] ∧ longKey.length = 2 ^ 31 ∧
      (((IntSetMap.run ([] : List (SetCall Nat))).set_Vector ⟨longKey⟩ 7).1).find_Vector
        ⟨longKey⟩ 9 = (true, 0) ∧
      (((IntSetMap.run ([] : List (SetCall Nat))).set_Vector ⟨longKey⟩ 7).1).find_Vector
        ⟨longKey⟩ 9 ≠ (true, 7)) := by
  have h : (((IntSetMap.run ([] : List (SetCall Nat))).set_Vector ⟨longKey⟩ 7).1).find_Vector
      ⟨longKey⟩ 9 = (true, 0) := by
    rw [IntSetMap.set_Vector_longKey]
    exact (IntSetMap.find_Vector_longKey _ (by decide) 9).trans (by decide)
  refine ⟨by decide, by decide, longKey_ne_nil, longKey_length, h, ?_⟩
  rw [h]
  decide

/-- C2 (as amended): in any container obtained from a fresh one by `set` calls on key
sequences of fewer than `2 ^ 31` elements, for a key sequence `K` of fewer than `2 ^ 31`
elements, `find(K)` returns true if and only if `K` is empty or a prefix of some
non-empty key sequence previously passed to `set`; when it returns true the output is the
value stored at the terminal node of `K`, namely the value of the last `set` call whose
key is `K`, and the sentinel when `K` was never the full key of a `set` call; the found
keys are prefix-closed. -/
theorem C2_find_characterisation (calls : List (SetCall M)) (K : Vector) (out : M)
    (hs : ∀ c ∈ calls, c.key.length < VecIdx_LIMIT)
    (hlen : K.elems.length < VecIdx_LIMIT) :
    (((IntSetMap.run calls).find_Vector K out).1 = true ↔
      (K.elems = [] ∨ ∃ c ∈ calls, c.key ≠ [] ∧ K.elems <+: c.key)) ∧
    (((IntSetMap.run calls).find_Vector K out).1 = true →
      ((IntSetMap.run calls).find_Vector K out).2 = (IntSetMap.run calls).valueAt K.elems ∧
      ((IntSetMap.run calls).find_Vector K out).2 = lastSet calls K.elems ∧
      ((∀ c ∈ calls, c.key ≠ K.elems) → ((IntSetMap.run calls).find_Vector K out).2 = 0)) ∧
    (∀ K2 : Vector, K2.elems <+: K.elems →
      ((IntSetMap.run calls).find_Vector K out).1 = true →
      ((IntSetMap.run calls).find_Vector K2 out).1 = true) := by
  refine ⟨IntSetMap.found_run calls hs K.elems hlen out, fun h => ?_, fun K2 hpre h => ?_⟩
  · have hv : ((IntSetMap.run calls).find_Vector K out).2 = lastSet calls K.elems :=
      IntSetMap.found_value_run calls hs K.elems hlen out _ (Prod.ext h rfl)
    refine ⟨?_, hv, fun hno => ?_⟩
    · rw [hv, (IntSetMap.run_spec calls hs).2.2]
    · rw [hv, lastSet_of_not_mem calls K.elems hno]
  · have hlen2 : K2.elems.length < VecIdx_LIMIT := lt_of_le_of_lt hpre.length_le hlen
    rw [show K2 = ⟨K2.elems⟩ from rfl, IntSetMap.found_run calls hs K2.elems hlen2]
    rcases (IntSetMap.found_run calls hs K.elems hlen out).mp h with h0 | ⟨c, hc, h1, h2⟩
    · left
      rw [h0] at hpre
      exact List.prefix_nil.mp hpre
    · exact Or.inr ⟨c, hc, h1, hpre.trans h2⟩

/-- C2, instance: after `set([1,2], 7)` the prefix `[1]` is found with the sentinel. -/
theorem C2_find_characterisation_witness :
    ((IntSetMap.run [SetCall.vector ⟨[1, 2]⟩ (7 : Nat)]).find_Vector ⟨[1]⟩ 9).2 = 0 :=
  (C2_find_characterisation [SetCall.vector ⟨[1, 2]⟩ (7 : Nat)] ⟨[1]⟩ 9 (by decide)
    (by decide)).2.1 (by decide) |>.2.2 (by decide)

/-- C2 fails on a fresh container: `find([])` returns true although no key sequence was
ever passed to `set`, and so does `find(longKey)` for the key `longKey` of `2 ^ 31` ones,
of which `find` visits no element. It fails also after the single call
`set(longKey, 7)`, which stores `7` at the node of the first element: `find([1, 1])`
returns false although `[1, 1]` is a prefix of `longKey`, and `find([1])` reports `7`
although `[1]` was never the key of a `set` call. -/
theorem C2_counterexample :
    (((IntSetMap.run ([] : List (SetCall Nat))).find_Vector ⟨[]⟩ 9).1 = true ∧
      ¬ ∃ c ∈ ([] : List (SetCall Nat)), c.key ≠ [] ∧ ([] : List Int) <+: c.key) ∧
    (longKey ≠ [] ∧
      ((IntSetMap.run ([] : List (SetCall Nat))).find_Vector ⟨longKey⟩ 9).1 = true ∧
      ¬ ∃ c ∈ ([] : List (SetCall Nat)), c.key ≠ [] ∧ longKey <+: c.key) ∧
    ((∃ c ∈ [SetCall.vector ⟨longKey⟩ (7 : Nat)], c.key ≠ [] ∧ ([1, 1] : List Int) <+: c.key) ∧
      ((IntSetMap.run [SetCall.vector ⟨longKey⟩ (7 : Nat)]).find_Vector ⟨[1, 1]⟩ 9).1 = false ∧
      (IntSetMap.run [SetCall.vector ⟨longKey⟩ (7 : Nat)]).find_Vector ⟨[1]⟩ 9 = (true, 7) ∧
      ∀ c ∈ [SetCall.vector ⟨longKey⟩ (7 : Nat)], c.key ≠ [1]) := by
  have hno : ∀ K : List Int,
      ¬ ∃ c ∈ ([] : List (SetCall Nat)), c.key ≠ [] ∧ K <+: c.key := by
    rintro K ⟨c, hc, _⟩
    exact absurd hc (List.not_mem_nil c)
  refine ⟨⟨by decide, hno _⟩, ⟨longKey_ne_nil, ?_, hno _⟩, ⟨?_, ?_, ?_, ?_⟩⟩
  · rw [IntSetMap.find_Vector_longKey _ (by decide)]
    decide
  · exact ⟨_, List.mem_singleton_self _, longKey_ne_nil, longKey_prefix⟩
  · rw [IntSetMap.run_single_longKey]
    decide
  · rw [IntSetMap.run_single_longKey]
    decide
  · intro c hc
    rw [List.mem_singleton.mp hc]
    exact longKey_ne_one

/-- C3 (as amended): `set` only grows the structure. In any container obtained from a
fresh one by `set` calls, for a non-empty key `K` of fewer than `2 ^ 31` elements and a
value `V`: every key sequence `K2` other than `K` (a vector, of fewer than `2 ^ 32`
elements) that `find` reported as `(true, v)` before `set(K, V)` is reported as
`(true, v)` after it; every child-index entry present before is present, with the same
child, after; and the value of every node other than the terminal node of `K` is
unchanged. -/
theorem C3_set_only_grows (calls : List (SetCall M)) (K : Vector) (V : M)
    (hK : K.elems ≠ []) (hlen : K.elems.length < VecIdx_LIMIT) :
    (∀ (K2 : Vector) (out v : M), K2 ≠ K → K2.elems.length < UINT_MOD →
      (IntSetMap.run calls).find_Vector K2 out = (true, v) →
      (((IntSetMap.run calls).set_Vector K V).1).find_Vector K2 out = (true, v)) ∧
    (∀ (a : Nat) (k : Int) (q : Nat),
      TMap.get ((IntSetMap.run calls).load (some a)).next k = some q →
      TMap.get ((((IntSetMap.run calls).set_Vector K V).1).load (some a)).next k = some q) ∧
    (∀ p : Ptr,
      p ≠ (((IntSetMap.run calls).set_Vector K V).1).walk
            (((IntSetMap.run calls).set_Vector K V).1).get_root K.elems →
      ((((IntSetMap.run calls).set_Vector K V).1).load p).mapped =
        ((IntSetMap.run calls).load p).mapped) := by
  have hinv := IntSetMap.run_inv calls
  obtain ⟨s1, s2, s3, _, s5, s6, _⟩ := hinv.set_Vector hK hlen V
  refine ⟨fun K2 out v hne hlen2 hf => ?_, fun a k q hq => ?_, fun p hp => ?_⟩
  · have hne' : K2.elems ≠ K.elems := fun e => hne (by cases K2; cases K; simp_all)
    have hne2 : findKey K2.elems ≠ K.elems := findKey_ne hK hlen2 hne'
    have hr : (IntSetMap.run calls).m_root_val2node ≠ none := by rw [hinv.root]; simp
    have hr' : ((IntSetMap.run calls).set_Vector K V).1.m_root_val2node ≠ none := by
      rw [s1.root]; simp
    rw [show K2 = ⟨K2.elems⟩ from rfl] at hf ⊢
    rw [IntSetMap.find_Vector_eq _ hr, hinv.root] at hf
    rw [IntSetMap.find_Vector_eq _ hr', s1.root]
    split_ifs at hf with h0
    · simp at hf
    · have h1 := (s2 (findKey K2.elems)).mpr (Or.inl h0)
      rw [if_neg h1, s3 (findKey K2.elems), if_neg hne2]
      exact hf
  · have := s5 (some a) k q (by rw [IntSetMap.child_some]; exact hq)
    rwa [IntSetMap.child_some] at this
  · apply s6 p
    rw [IntSetMap.get_root, s1.root] at hp
    exact hp

/-- C3, instance: `[1,3] ↦ 8` survives `set([1,2], 7)`. -/
theorem C3_set_only_grows_witness :
    (((IntSetMap.run [SetCall.vector ⟨[1, 3]⟩ (8 : Nat)]).set_Vector ⟨[1, 2]⟩ 7).1).find_Vector
      ⟨[1, 3]⟩ 0 = (true, 8) :=
  (C3_set_only_grows [SetCall.vector ⟨[1, 3]⟩ (8 : Nat)] ⟨[1, 2]⟩ 7 (by decide) (by decide)).1
    ⟨[1, 3]⟩ 0 8 (by decide) (by decide) (by decide)

/-- C3 fails for the key `longKey` of `2 ^ 31` ones: on the container holding `[1,2] ↦ 9`
the call `find([1])` reports `(true, 0)`; `set(longKey, 7)` visits the first element of
its key only and stores `7` at the node of `[1]`, which is not the end of a path
`longKey` (there is none), and `find([1])` then reports `(true, 7)`. -/
theorem C3_counterexample :
    longKey ≠ [] ∧ (⟨[1]⟩ : Vector) ≠ ⟨longKey⟩ ∧
    (IntSetMap.run [SetCall.vector ⟨[1, 2]⟩ (9 : Nat)]).find_Vector ⟨[1]⟩ 0 = (true, 0) ∧
    (((IntSetMap.run [SetCall.vector ⟨[1, 2]⟩ (9 : Nat)]).set_Vector ⟨longKey⟩ 7).1).find_Vector
      ⟨[1]⟩ 0 = (true, 7) ∧
    (((IntSetMap.run [SetCall.vector ⟨[1, 2]⟩ (9 : Nat)]).set_Vector ⟨longKey⟩ 7).1).walk
      (((IntSetMap.run [SetCall.vector ⟨[1, 2]⟩ (9 : Nat)]).set_Vector ⟨longKey⟩ 7).1).get_root
      longKey = none := by
  refine ⟨longKey_ne_nil, ?_, by decide, ?_, ?_⟩
  · intro h
    exact longKey_ne_one (congrArg Vector.elems h).symm
  · rw [IntSetMap.set_Vector_longKey]
    decide
  · rw [IntSetMap.set_Vector_longKey]
    exact IntSetMap.walk_longKey _ _ (by decide)

/-- C4 (as amended): conflict detection. In any container obtained from a fresh one by
`set` calls, for a non-empty key `K` of fewer than `2 ^ 31` elements and a value `V`, the
check of `set(K, V)` (either overload) fails if and only if `find(K)` reports a value
that is neither the sentinel nor `V`, and passes otherwise. In particular
`set(K, V); set(K, V2)` with `V ≠ V2`, both non-empty, fails on the second call;
re-setting an equal value passes; setting a node that holds the sentinel passes. -/
theorem C4_conflict_detection (calls : List (SetCall M)) (K : Vector) (V : M)
    (hK : K.elems ≠ []) (hlen : K.elems.length < VecIdx_LIMIT) :
    (∀ out : M, ((IntSetMap.run calls).set_Vector K V).2 = Check.failed ↔
      ∃ v, (IntSetMap.run calls).find_Vector K out = (true, v) ∧ v ≠ 0 ∧ v ≠ V) ∧
    (∀ out : M, ((IntSetMap.run calls).set_Vector K V).2 = Check.passed ↔
      ¬ ∃ v, (IntSetMap.run calls).find_Vector K out = (true, v) ∧ v ≠ 0 ∧ v ≠ V) ∧
    ((IntSetMap.run calls).set_List ⟨K.elems⟩ V).2 = ((IntSetMap.run calls).set_Vector K V).2 ∧
    (∀ V2 : M, V ≠ 0 → V2 ≠ 0 → V ≠ V2 →
      ((((IntSetMap.run calls).set_Vector K V).1).set_Vector K V2).2 = Check.failed) ∧
    ((((IntSetMap.run calls).set_Vector K V).1).set_Vector K V).2 = Check.passed ∧
    (∀ out : M, (IntSetMap.run calls).find_Vector K out = (true, 0) →
      ((IntSetMap.run calls).set_Vector K V).2 = Check.passed) := by
  rw [IntSetMap.run_eff calls]
  have hs := SetCall.eff_short calls
  generalize calls.map SetCall.eff = calls at hs ⊢
  have hchk := IntSetMap.check_run calls hs K.elems hK hlen V
  have hfind := fun out => IntSetMap.find_run calls hs K.elems hlen out
  have key : ∀ out : M, (∃ v, (IntSetMap.run calls).find_Vector K out = (true, v) ∧ v ≠ 0 ∧ v ≠ V) ↔
      ¬ (lastSet calls K.elems = V ∨ lastSet calls K.elems = 0) := by
    intro out
    constructor
    · rintro ⟨v, hv, h0, hV⟩
      have := IntSetMap.found_value_run calls hs K.elems hlen out v hv
      rw [← this]
      rintro (h | h)
      · exact hV h
      · exact h0 h
    · intro h
      have h0 : lastSet calls K.elems ≠ 0 := fun e => h (Or.inr e)
      have hV : lastSet calls K.elems ≠ V := fun e => h (Or.inl e)
      obtain ⟨c, hc, hkey, _⟩ := lastSet_mem calls K.elems h0
      refine ⟨lastSet calls K.elems, ?_, h0, hV⟩
      show (IntSetMap.run calls).find_Vector ⟨K.elems⟩ out = _
      rw [hfind, if_pos (Or.inr ⟨c, hc, by rw [hkey]; exact hK, by rw [hkey]⟩)]
  have hchk' : ((IntSetMap.run calls).set_Vector K V).2 =
      if lastSet calls K.elems = V ∨ lastSet calls K.elems = 0 then Check.passed
      else Check.failed := hchk
  have hsecond : ∀ V2 : M, ((((IntSetMap.run calls).set_Vector K V).1).set_Vector K V2).2 =
      if V = V2 ∨ V = 0 then Check.passed else Check.failed := by
    intro V2
    have h := IntSetMap.check_run (calls ++ [SetCall.vector K V])
      (SetCall.short_concat hs (SetCall.vector K V) hlen) K.elems hK hlen V2
    have hl : lastSet (calls ++ [SetCall.vector K V]) K.elems = V := by
      rw [lastSet_concat, if_pos ⟨rfl, hK⟩]; rfl
    rw [IntSetMap.run_concat, hl] at h
    exact h
  refine ⟨fun out => ?_, fun out => ?_, ?_, fun V2 h1 _ h3 => ?_, ?_, fun out hf => ?_⟩
  · rw [key out, hchk']
    split_ifs with h <;> simp [h]
  · rw [key out, hchk']
    split_ifs with h <;> simp [h]
  · rw [IntSetMap.set_List_eq_set_Vector]
  · rw [hsecond, if_neg]
    rintro (h | h)
    · exact h3 h
    · exact h1 h
  · rw [hsecond, if_pos (Or.inl rfl)]
  · have := IntSetMap.found_value_run calls hs K.elems hlen out 0 hf
    rw [hchk', if_pos (Or.inr this.symm)]

/-- C4, instance: `set([1,2], 7)` then `set([1,2], 8)` fails the check of the second
call. -/
theorem C4_conflict_detection_witness :
    ((((IntSetMap.run ([] : List (SetCall Nat))).set_Vector ⟨[1, 2]⟩ 7).1).set_Vector
      ⟨[1, 2]⟩ 8).2 = Check.failed :=
  (C4_conflict_detection ([] : List (SetCall Nat)) ⟨[1, 2]⟩ 7 (by decide)
    (by decide)).2.2.2.1 8 (by decide) (by decide) (by decide)

/-- C4 fails for the key `longKey` of `2 ^ 31` ones: on the container holding `[1] ↦ 5`
there is no path `longKey`, and `find(longKey)`, which visits no element, reports the
sentinel of the root; yet the check of `set(longKey, 7)` fails, because the call stops
at the node of the first element, which holds `5`. -/
theorem C4_counterexample :
    longKey ≠ [] ∧
    ((IntSetMap.run [SetCall.vector ⟨[1]⟩ (5 : Nat)]).set_Vector ⟨longKey⟩ 7).2 = Check.failed ∧
    (IntSetMap.run [SetCall.vector ⟨[1]⟩ (5 : Nat)]).find_Vector ⟨longKey⟩ 9 = (true, 0) ∧
    (¬ ∃ v, (IntSetMap.run [SetCall.vector ⟨[1]⟩ (5 : Nat)]).find_Vector ⟨longKey⟩ 9 = (true, v) ∧
      v ≠ 0 ∧ v ≠ 7) ∧
    (IntSetMap.run [SetCall.vector ⟨[1]⟩ (5 : Nat)]).walk
      (IntSetMap.run [SetCall.vector ⟨[1]⟩ (5 : Nat)]).get_root longKey = none := by
  have h : (IntSetMap.run [SetCall.vector ⟨[1]⟩ (5 : Nat)]).find_Vector ⟨longKey⟩ 9 =
      (true, 0) :=
    (IntSetMap.find_Vector_longKey _ (by decide) 9).trans (by decide)
  refine ⟨longKey_ne_nil, ?_, h, ?_, IntSetMap.walk_longKey _ _ (by decide)⟩
  · rw [IntSetMap.set_Vector_longKey]
    decide
  · rintro ⟨v, hv, h0, _⟩
    rw [h] at hv
    exact h0 (Prod.mk.inj hv).2.symm

/-- C5: idempotence on equal re-set. In any container obtained from a fresh one by `set`
calls, for every key sequence `K` and value `V`, the state after `set(K, V); set(K, V)`
is the state after a single `set(K, V)`: the same node store (no node is allocated by the
second call, `m_num_node` is unchanged), the same stored values and child indices, hence
the same result of `find` for every key sequence. -/
theorem C5_equal_reset_idempotent (calls : List (SetCall M)) (K : Vector) (V : M) :
    ((((IntSetMap.run calls).set_Vector K V).1).set_Vector K V).1 =
      ((IntSetMap.run calls).set_Vector K V).1 ∧
    ((((IntSetMap.run calls).set_Vector K V).1).set_Vector K V).1.m_num_node =
      ((IntSetMap.run calls).set_Vector K V).1.m_num_node ∧
    (∀ (K2 : Vector) (out : M),
      (((((IntSetMap.run calls).set_Vector K V).1).set_Vector K V).1).find_Vector K2 out =
        (((IntSetMap.run calls).set_Vector K V).1).find_Vector K2 out) := by
  have main : ((((IntSetMap.run calls).set_Vector K V).1).set_Vector K V).1 =
      ((IntSetMap.run calls).set_Vector K V).1 :=
    (IntSetMap.run_inv calls).set_twice K.elems V
  exact ⟨main, by rw [main], fun K2 out => by rw [main]⟩

/-- C6 (as amended): in any container obtained from a fresh one by `set` calls, for key
sequences `K1 ≠ K2` (`K2` a vector, of fewer than `2 ^ 32` elements), after `set(K1, V)`
the call `find(K2)` returns true only if it returned true before the call or `K2` is a
prefix of `K1`; and, when `K1` and the keys of the earlier `set` calls have fewer than
`2 ^ 31` elements, it reports a value other than the sentinel only if `K2` itself was the
key of an earlier `set` call carrying that value. -/
theorem C6_prefix_distinctness (calls : List (SetCall M)) (K1 K2 : Vector) (V out : M)
    (hne : K1 ≠ K2) (hlen2 : K2.elems.length < UINT_MOD) :
    (((((IntSetMap.run calls).set_Vector K1 V).1).find_Vector K2 out).1 = true →
      (((IntSetMap.run calls).find_Vector K2 out).1 = true ∨ K2.elems <+: K1.elems)) ∧
    ((∀ c ∈ calls, c.key.length < VecIdx_LIMIT) → K1.elems.length < VecIdx_LIMIT →
      ∀ v : M, (((IntSetMap.run calls).set_Vector K1 V).1).find_Vector K2 out = (true, v) →
        v ≠ 0 → ∃ c ∈ calls, c.key = K2.elems ∧ c.value = v) := by
  have hne' : K1.elems ≠ K2.elems := fun e => hne (by cases K1; cases K2; simp_all)
  constructor
  · by_cases hshort : K2.elems.length < VecIdx_LIMIT
    · intro h
      have hrun : ((IntSetMap.run calls).set_Vector K1 V).1 =
          IntSetMap.run (calls.map SetCall.eff ++ [SetCall.vector ⟨setKey K1.elems⟩ V]) := by
        rw [IntSetMap.run_concat, ← IntSetMap.run_eff, IntSetMap.call_vector,
          ← IntSetMap.set_Vector_setKey]
      have hs := SetCall.eff_short calls
      have hs1 := SetCall.short_concat hs (SetCall.vector ⟨setKey K1.elems⟩ V)
        (setKey_length_lt K1.elems)
      rw [hrun] at h
      rw [IntSetMap.run_eff calls]
      rcases (IntSetMap.found_run _ hs1 K2.elems hshort out).mp h with h0 | ⟨c, hc, h1, h2⟩
      · exact Or.inl ((IntSetMap.found_run _ hs K2.elems hshort out).mpr (Or.inl h0))
      · rcases List.mem_append.mp hc with hc' | hc'
        · exact Or.inl ((IntSetMap.found_run _ hs K2.elems hshort out).mpr
            (Or.inr ⟨c, hc', h1, h2⟩))
        · have : c = SetCall.vector ⟨setKey K1.elems⟩ V := by simpa using hc'
          rw [this] at h2
          exact Or.inr (h2.trans (List.take_prefix _ _))
    · intro _
      left
      show ((IntSetMap.run calls).find_Vector ⟨K2.elems⟩ out).1 = true
      rw [IntSetMap.find_long_run calls K2.elems (by omega) hlen2]
  · intro hs hlen1 v hv hv0
    have hrun : ((IntSetMap.run calls).set_Vector K1 V).1 =
        IntSetMap.run (calls ++ [SetCall.vector K1 V]) := by
      rw [IntSetMap.run_concat]; rfl
    have hs1 := SetCall.short_concat hs (SetCall.vector K1 V) hlen1
    rw [hrun] at hv
    by_cases hshort : K2.elems.length < VecIdx_LIMIT
    · have := IntSetMap.found_value_run _ hs1 K2.elems hshort out v hv
      rw [lastSet_concat, if_neg (fun e => hne' e.1)] at this
      rw [this] at hv0 ⊢
      exact lastSet_mem calls K2.elems hv0
    · exfalso
      rw [show K2 = ⟨K2.elems⟩ from rfl,
        IntSetMap.find_long_run _ K2.elems (by omega) hlen2] at hv
      exact hv0 (Prod.mk.inj hv).2.symm

/-- C6, instance: after `[1,3] ↦ 8`, `set([1,2], 7)` leaves `find([1,3])` reporting a
value that an earlier call set. -/
theorem C6_prefix_distinctness_witness :
    ∃ c ∈ [SetCall.vector ⟨[1, 3]⟩ (8 : Nat)], c.key = [1, 3] ∧ c.value = 8 :=
  (C6_prefix_distinctness [SetCall.vector ⟨[1, 3]⟩ (8 : Nat)] ⟨[1, 2]⟩ ⟨[1, 3]⟩ 7 0
    (by decide) (by decide)).2 (by decide) (by decide) 8 (by decide) (by decide)

/-- C6 fails on a fresh container: after `set([1,2], 7)` alone, `find([1])` returns true
(with the sentinel) although `[1]` was never passed to `set`. And after
`set(longKey, 7)` alone, for the key `longKey` of `2 ^ 31` ones, `find([1])` reports the
value `7`, which no call ever set at `[1]`: `set` visits the first element of `longKey`
only. -/
theorem C6_counterexample :
    ((⟨[1, 2]⟩ : Vector) ≠ ⟨[1]⟩ ∧
      (((IntSetMap.run ([] : List (SetCall Nat))).set_Vector ⟨[1, 2]⟩ 7).1).find_Vector ⟨[1]⟩ 9
        = (true, 0) ∧
      ¬ ∃ c ∈ ([] : List (SetCall Nat)), c.key = [1]) ∧
    ((⟨longKey⟩ : Vector) ≠ ⟨[1]⟩ ∧
      (((IntSetMap.run ([] : List (SetCall Nat))).set_Vector ⟨longKey⟩ 7).1).find_Vector ⟨[1]⟩ 9
        = (true, 7) ∧
      (7 : Nat) ≠ 0 ∧
      ¬ ∃ c ∈ ([] : List (SetCall Nat)), c.key = [1] ∧ c.value = 7) := by
  refine ⟨⟨by decide, by decide, ?_⟩, ⟨?_, ?_, by decide, ?_⟩⟩
  · rintro ⟨c, hc, _⟩
    exact absurd hc (List.not_mem_nil c)
  · intro h
    exact longKey_ne_one (congrArg Vector.elems h)
  · rw [IntSetMap.set_Vector_longKey]
    decide
  · rintro ⟨c, hc, _⟩
    exact absurd hc (List.not_mem_nil c)

/-- C7: empty-sequence no-op. For every container state and value, `set` on an empty
sequence, in either representation, returns the state it was given (no node allocated,
no child entry added, no value changed), and the consistency check is not evaluated. -/
theorem C7_empty_sequence_noop (m : IntSetMap M) (V : M) :
    m.set_Vector ⟨[]⟩ V = (m, Check.notEvaluated) ∧
    m.set_List ⟨[]⟩ V = (m, Check.notEvaluated) :=
  ⟨rfl, rfl⟩

/-- C8: root sentinel invariant. In every container obtained from a fresh one by `set`
calls the value of the root node is the sentinel `MappedObj(0)`, and `find` on the empty
sequence returns true with the sentinel as the value. -/
theorem C8_root_sentinel (calls : List (SetCall M)) (out : M) :
    ((IntSetMap.run calls).load (IntSetMap.run calls).get_root).mapped = 0 ∧
    (IntSetMap.run calls).find_Vector ⟨[]⟩ out = (true, 0) :=
  IntSetMap.find_nil_run calls out

/-- C9 (as amended): absence for unknown path. On a freshly constructed container
`find(K)` returns false for every non-empty key sequence `K` of fewer than `2 ^ 31`
elements and leaves the output variable as it was. -/
theorem C9_fresh_absent (K : Vector) (out : M) (hK : K.elems ≠ [])
    (hlen : K.elems.length < VecIdx_LIMIT) :
    (IntSetMap.new : IntSetMap M).find_Vector K out = (false, out) := by
  have h := IntSetMap.find_run ([] : List (SetCall M))
    (fun c hc => absurd hc (List.not_mem_nil c)) K.elems hlen out
  rw [if_neg] at h
  · exact h
  · rintro (h0 | ⟨c, hc, _⟩)
    · exact hK h0
    · exact absurd hc (List.not_mem_nil c)

/-- C9, instance: `find([4, 5])` on a fresh container. -/
theorem C9_fresh_absent_witness :
    (IntSetMap.new : IntSetMap Nat).find_Vector ⟨[4, 5]⟩ 9 = (false, 9) :=
  C9_fresh_absent ⟨[4, 5]⟩ 9 (by decide) (by decide)

/-- C9 fails for the key `longKey` of `2 ^ 31` ones: its count of elements, cast to the
signed index type, is negative, so `find(longKey)` on a fresh container visits no element
and returns true at the root, writing the sentinel of the root to the output. -/
theorem C9_counterexample :
    longKey ≠ [] ∧ longKey.length = 2 ^ 31 ∧
    (IntSetMap.new : IntSetMap Nat).find_Vector ⟨longKey⟩ 9 = (true, 0) ∧
    (IntSetMap.new : IntSetMap Nat).find_Vector ⟨longKey⟩ 9 ≠ (false, 9) := by
  have h : (IntSetMap.new : IntSetMap Nat).find_Vector ⟨longKey⟩ 9 = (true, 0) :=
    (IntSetMap.find_Vector_longKey _ (by decide) 9).trans (by decide)
  refine ⟨longKey_ne_nil, longKey_length, h, ?_⟩
  rw [h]
  decide

/-- C10: the two `set` overloads agree. For every container state, value and integer
sequence `s`, `set` over the vector holding `s` and `set` over the linked list holding `s`
return the same state (same node store, same `m_num_node`, same values) and the same
outcome of the consistency check. -/
theorem C10_set_overloads_agree (m : IntSetMap M) (s : List Int) (V : M) :
    m.set_Vector ⟨s⟩ V = m.set_List ⟨s⟩ V :=
  (IntSetMap.set_List_eq_set_Vector m s V).symm

/-- C11: traversal completeness and pre-order. For every container obtained from a fresh
one by `set` calls and every base indent, `dump_helper` on the root terminates (any
number of iterations that is at least the number of nodes reaches the exit of the loop)
and renders every node of the tree exactly once, the root under the placeholder key `0`,
and every child after its parent. For the container populated with `[1,2]`, `[1,3]`,
`[4]` the nodes of the prefixes `[1]`, `[1,2]`, `[1,3]`, `[4]` (addresses 1, 2, 3, 4) are
each rendered once, each after its parent. -/
theorem C11_traversal_complete (calls : List (SetCall M)) (b fuel : Nat)
    (hb : b < UINT_MOD) (hfuel : (IntSetMap.run calls).mem.length ≤ fuel) :
    (∃ st, (IntSetMap.run calls).dump_helper fuel (IntSetMap.run calls).get_root b = some st ∧
      st.out.length = (IntSetMap.run calls).mem.length ∧
      (∀ a, a < (IntSetMap.run calls).mem.length →
        (st.out.map DumpVisit.node).count (some a) = 1) ∧
      (∀ K, (IntSetMap.run calls).walk (IntSetMap.run calls).get_root K ≠ none →
        (st.out.map DumpVisit.node).count
          ((IntSetMap.run calls).walk (IntSetMap.run calls).get_root K) = 1) ∧
      (∀ v ∈ st.out, v.node = (IntSetMap.run calls).get_root → v.ival = 0) ∧
      (∀ a k c, TMap.get ((IntSetMap.run calls).load (some a)).next k = some c →
        List.Sublist [some a, some c] (st.out.map DumpVisit.node))) ∧
    ((IntSetMap.run [SetCall.vector ⟨[1, 2]⟩ (7 : Nat), SetCall.vector ⟨[1, 3]⟩ 8,
        SetCall.vector ⟨[4]⟩ 9]).dump_helper 5 (some 0) 0).map
      (fun st => st.out.map DumpVisit.node) = some [some 0, some 4, some 1, some 3, some 2] ∧
    (IntSetMap.run [SetCall.vector ⟨[1, 2]⟩ (7 : Nat), SetCall.vector ⟨[1, 3]⟩ 8,
        SetCall.vector ⟨[4]⟩ 9]).walk (some 0) [1] = some 1 ∧
    (IntSetMap.run [SetCall.vector ⟨[1, 2]⟩ (7 : Nat), SetCall.vector ⟨[1, 3]⟩ 8,
        SetCall.vector ⟨[4]⟩ 9]).walk (some 0) [1, 2] = some 2 ∧
    (IntSetMap.run [SetCall.vector ⟨[1, 2]⟩ (7 : Nat), SetCall.vector ⟨[1, 3]⟩ 8,
        SetCall.vector ⟨[4]⟩ 9]).walk (some 0) [1, 3] = some 3 ∧
    (IntSetMap.run [SetCall.vector ⟨[1, 2]⟩ (7 : Nat), SetCall.vector ⟨[1, 3]⟩ 8,
        SetCall.vector ⟨[4]⟩ 9]).walk (some 0) [4] = some 4 := by
  refine ⟨?_, by decide, by decide, by decide, by decide, by decide⟩
  have hm := IntSetMap.run_inv calls
  obtain ⟨L, hdump, hmem, hnd, hlen, hpar, _⟩ := IntSetMap.dump_run calls hb hfuel
  have hroot : (IntSetMap.run calls).get_root = some 0 := hm.root
  have hnodes := hm.visit_nodes b L
  have hndn := hm.nodup_nodes hnd (fun K hK => (hmem K).mp hK)
  have hcount : ∀ K, (IntSetMap.run calls).walk (some 0) K ≠ none →
      (L.map ((IntSetMap.run calls).walk (some 0))).count
        ((IntSetMap.run calls).walk (some 0) K) = 1 := by
    intro K hK
    exact count_eq_one_of_nodup hndn (List.mem_map_of_mem _ ((hmem K).mpr hK))
  refine ⟨_, hdump, ?_, ?_, ?_, ?_, ?_⟩
  · simp [DumpState.ofFrames, hlen]
  · intro a ha
    obtain ⟨K, hK⟩ := hm.exists_path ha
    have := hcount K (by rw [hK]; simp)
    rw [hK] at this
    simpa [DumpState.ofFrames, hnodes] using this
  · intro K hK
    rw [hroot] at hK ⊢
    simpa [DumpState.ofFrames, hnodes] using hcount K hK
  · intro v hv hvr
    obtain ⟨K, hK, rfl⟩ := List.mem_map.mp hv
    have hnode : (IntSetMap.run calls).walk (some 0) K = some 0 := by
      rw [hroot] at hvr
      simpa [IntSetMap.visitOf, hm.root] using hvr
    have hK0 : K = [] := hm.walk_inj hnode rfl
    simp [IntSetMap.visitOf, hK0]
  · intro a k c hget
    obtain ⟨K, hK⟩ := hm.exists_path (IntSetMap.lt_of_get hget)
    have hKk : (IntSetMap.run calls).walk (some 0) (K ++ [k]) = some c := by
      rw [IntSetMap.walk_concat, hK, IntSetMap.child_some, hget]
    have hsub := (hpar K k ((hmem _).mpr (by rw [hKk]; simp))).map
      ((IntSetMap.run calls).walk (some 0))
    simp only [List.map_cons, List.map_nil, hK, hKk] at hsub
    simpa [DumpState.ofFrames, hnodes] using hsub

/-- C11, instance: the dump of the container holding `[1,2] ↦ 7` terminates within three
iterations. -/
theorem C11_traversal_complete_witness :
    ∃ st, (IntSetMap.run [SetCall.vector ⟨[1, 2]⟩ (7 : Nat)]).dump_helper 3
      (IntSetMap.run [SetCall.vector ⟨[1, 2]⟩ (7 : Nat)]).get_root 0 = some st ∧
      st.out.length = (IntSetMap.run [SetCall.vector ⟨[1, 2]⟩ (7 : Nat)]).mem.length :=
  let ⟨st, h1, h2, _⟩ :=
    (C11_traversal_complete [SetCall.vector ⟨[1, 2]⟩ (7 : Nat)] 0 3 (by decide) (by decide)).1
  ⟨st, h1, h2⟩

/-- C12 (as amended): sibling order in the dump. For every container obtained from a fresh
one by `set` calls and every node with two children keyed `k1 < k2`, `dump_helper`
renders the child keyed `k2` before the child keyed `k1`: siblings appear in descending
key order, because the children are pushed in ascending key order and popped from the top
of the stack. -/
theorem C12_sibling_order (calls : List (SetCall M)) (b fuel : Nat)
    (hb : b < UINT_MOD) (hfuel : (IntSetMap.run calls).mem.length ≤ fuel)
    (a : Nat) (k1 k2 : Int) (c1 c2 : Nat) (hlt : k1 < k2)
    (h1 : TMap.get ((IntSetMap.run calls).load (some a)).next k1 = some c1)
    (h2 : TMap.get ((IntSetMap.run calls).load (some a)).next k2 = some c2) :
    ∃ st, (IntSetMap.run calls).dump_helper fuel (IntSetMap.run calls).get_root b = some st ∧
      List.Sublist [some c2, some c1] (st.out.map DumpVisit.node) ∧
      ¬ List.Sublist [some c1, some c2] (st.out.map DumpVisit.node) := by
  have hm := IntSetMap.run_inv calls
  obtain ⟨L, hdump, hmem, hnd, _, _, hsib⟩ := IntSetMap.dump_run calls hb hfuel
  have hnodes := hm.visit_nodes b L
  have hndn := hm.nodup_nodes hnd (fun K hK => (hmem K).mp hK)
  obtain ⟨K, hK⟩ := hm.exists_path (IntSetMap.lt_of_get h1)
  have hK1 : (IntSetMap.run calls).walk (some 0) (K ++ [k1]) = some c1 := by
    rw [IntSetMap.walk_concat, hK, IntSetMap.child_some, h1]
  have hK2 : (IntSetMap.run calls).walk (some 0) (K ++ [k2]) = some c2 := by
    rw [IntSetMap.walk_concat, hK, IntSetMap.child_some, h2]
  have hsub := (hsib K k1 k2 hlt ((hmem _).mpr (by rw [hK1]; simp))
    ((hmem _).mpr (by rw [hK2]; simp))).map ((IntSetMap.run calls).walk (some 0))
  simp only [List.map_cons, List.map_nil, hK1, hK2] at hsub
  have hne : (some c1 : Ptr) ≠ some c2 := by
    intro e
    rw [← hK2] at e
    have := hm.walk_inj hK1 e.symm
    simp at this
    omega
  refine ⟨_, hdump, by simpa [DumpState.ofFrames, hnodes] using hsub, ?_⟩
  intro hrev
  have hrev' : List.Sublist [some c1, some c2]
      (L.map ((IntSetMap.run calls).walk (some 0))) := by
    simpa [DumpState.ofFrames, hnodes] using hrev
  -- both orders in a list without repetition force the two nodes to be equal
  have hnd2 : ∀ l : List Ptr, l.Nodup → List.Sublist [some c2, some c1] l →
      List.Sublist [some c1, some c2] l → False := by
    intro l
    induction l with
    | nil => intro _ h _; simp at h
    | cons x xs ih =>
      intro hn h1 h2
      rw [List.nodup_cons] at hn
      cases h1 with
      | cons _ h1' =>
        cases h2 with
        | cons _ h2' => exact ih hn.2 h1' h2'
        | cons₂ _ h2' =>
          exact hn.1 (h1'.subset (by simp))
      | cons₂ _ h1' =>
        cases h2 with
        | cons _ h2' => exact hn.1 (h2'.subset (by simp))
        | cons₂ _ h2' => exact hne rfl
  exact hnd2 _ hndn hsub hrev'

/-- C12, instance: in the container populated with `[1,2]`, `[1,3]`, `[4]` the node of
`[1,3]` (address 3) is rendered before the node of `[1,2]` (address 2). -/
theorem C12_sibling_order_witness :
    ∃ st, (IntSetMap.run [SetCall.vector ⟨[1, 2]⟩ (7 : Nat), SetCall.vector ⟨[1, 3]⟩ 8,
        SetCall.vector ⟨[4]⟩ 9]).dump_helper 5
      (IntSetMap.run [SetCall.vector ⟨[1, 2]⟩ (7 : Nat), SetCall.vector ⟨[1, 3]⟩ 8,
        SetCall.vector ⟨[4]⟩ 9]).get_root 0 = some st ∧
      List.Sublist [some 3, some 2] (st.out.map DumpVisit.node) ∧
      ¬ List.Sublist [some 2, some 3] (st.out.map DumpVisit.node) :=
  C12_sibling_order [SetCall.vector ⟨[1, 2]⟩ (7 : Nat), SetCall.vector ⟨[1, 3]⟩ 8,
    SetCall.vector ⟨[4]⟩ 9] 0 5 (by decide) (by decide) 1 2 3 2 3 (by decide) (by decide)
    (by decide)

/-- C12 fails on the container populated with `[1,2]`, `[1,3]`, `[4]`: the nodes of
`[1,2]` and `[1,3]` are the children of the node of `[1]` under the keys `2 < 3`, and the
dump renders the nodes in the order root, `[4]`, `[1]`, `[1,3]`, `[1,2]`, so the child
keyed `2` is not rendered before the child keyed `3`. -/
theorem C12_counterexample :
    (IntSetMap.run [SetCall.vector ⟨[1, 2]⟩ (7 : Nat), SetCall.vector ⟨[1, 3]⟩ 8,
        SetCall.vector ⟨[4]⟩ 9]).walk (some 0) [1, 2] = some 2 ∧
    (IntSetMap.run [SetCall.vector ⟨[1, 2]⟩ (7 : Nat), SetCall.vector ⟨[1, 3]⟩ 8,
        SetCall.vector ⟨[4]⟩ 9]).walk (some 0) [1, 3] = some 3 ∧
    ((IntSetMap.run [SetCall.vector ⟨[1, 2]⟩ (7 : Nat), SetCall.vector ⟨[1, 3]⟩ 8,
        SetCall.vector ⟨[4]⟩ 9]).dump_helper 5 (some 0) 0).map
      (fun st => st.out.map (fun v => (v.node, v.ival))) =
        some [(some 0, 0), (some 4, 4), (some 1, 1), (some 3, 3), (some 2, 2)] ∧
    ¬ List.Sublist [(some 2, 2), (some 3, 3)]
        [((some 0 : Ptr), (0 : Int)), (some 4, 4), (some 1, 1), (some 3, 3), (some 2, 2)] := by
  decide

/-- C13 (as amended): memory accounting. `count_mem` of a container returns the bytes
committed by the node arena plus the bytes committed by the child-index arena plus the
memory reported for the root node alone (the count of its child index plus the size of
its value). The nodes other than the root are not visited: the result falls short of the
sum taken over every node by what the non-root nodes report, which is positive as soon as
the tree has a non-root node. -/
theorem C13_count_mem (calls : List (SetCall M)) (pool_size rbtn_pool_size : Nat)
    (tmap_count_mem : TMap → Nat) (sizeof_mapped : Nat) :
    (IntSetMap.run calls).count_mem pool_size rbtn_pool_size tmap_count_mem sizeof_mapped =
      pool_size + rbtn_pool_size +
        (tmap_count_mem ((IntSetMap.run calls).load (IntSetMap.run calls).get_root).next +
          sizeof_mapped) ∧
    (IntSetMap.run calls).count_mem pool_size rbtn_pool_size tmap_count_mem sizeof_mapped +
        ((IntSetMap.run calls).mem.tail.map
          (IntVal2Node.count_mem tmap_count_mem sizeof_mapped)).sum =
      pool_size + rbtn_pool_size +
        ((IntSetMap.run calls).mem.map
          (IntVal2Node.count_mem tmap_count_mem sizeof_mapped)).sum ∧
    (0 < sizeof_mapped → 0 < (IntSetMap.run calls).m_num_node →
      (IntSetMap.run calls).count_mem pool_size rbtn_pool_size tmap_count_mem sizeof_mapped <
        pool_size + rbtn_pool_size +
          ((IntSetMap.run calls).mem.map
            (IntVal2Node.count_mem tmap_count_mem sizeof_mapped)).sum) := by
  have hm := IntSetMap.run_inv calls
  have hcount := hm.count
  have hroot : (IntSetMap.run calls).get_root = some 0 := hm.root
  cases hmem : (IntSetMap.run calls).mem with
  | nil => rw [hmem] at hcount; simp at hcount
  | cons r rest =>
    have hload : (IntSetMap.run calls).load (some 0) = r := by
      simp [IntSetMap.load, hmem]
    have hcm : (IntSetMap.run calls).count_mem pool_size rbtn_pool_size tmap_count_mem
        sizeof_mapped = pool_size + rbtn_pool_size + (tmap_count_mem r.next + sizeof_mapped) := by
      simp only [IntSetMap.count_mem, hroot, hload, IntVal2Node.count_mem]
    rw [hcm, hroot, hload]
    refine ⟨rfl, ?_, ?_⟩
    · simp only [List.tail_cons, List.map_cons, List.sum_cons, IntVal2Node.count_mem]
      omega
    · intro hsz hnum
      rw [hmem] at hcount
      simp only [List.length_cons] at hcount
      cases rest with
      | nil => simp at hcount; omega
      | cons x xs =>
        simp only [List.map_cons, List.sum_cons, IntVal2Node.count_mem]
        omega

/-- C13, instance: for the container holding `[1] ↦ 7`, with 8 bytes per value, the result
of `count_mem` is below the sum over every node. -/
theorem C13_count_mem_witness :
    (IntSetMap.run [SetCall.vector ⟨[1]⟩ (7 : Nat)]).count_mem 64 96
        (fun t => 24 * t.length) 8 <
      64 + 96 + ((IntSetMap.run [SetCall.vector ⟨[1]⟩ (7 : Nat)]).mem.map
        (IntVal2Node.count_mem (fun t => 24 * t.length) 8)).sum :=
  (C13_count_mem [SetCall.vector ⟨[1]⟩ (7 : Nat)] 64 96 (fun t => 24 * t.length) 8).2.2
    (by decide) (by decide)

/-- C13 fails on the container holding `[1] ↦ 7`: with arenas of 64 and 96 bytes, 24 bytes
per child-index entry and 8 bytes per value, `count_mem` returns `64 + 96 + 32 = 192`,
while the sum over both nodes of the tree gives `64 + 96 + 32 + 8 = 200`. -/
theorem C13_counterexample :
    (IntSetMap.run [SetCall.vector ⟨[1]⟩ (7 : Nat)]).count_mem 64 96
        (fun t => 24 * t.length) 8 = 192 ∧
    64 + 96 + ((IntSetMap.run [SetCall.vector ⟨[1]⟩ (7 : Nat)]).mem.map
        (IntVal2Node.count_mem (fun t => 24 * t.length) 8)).sum = 200 := by
  decide

omit [DecidableEq M] in

/-- C14: the two `find` overloads agree. For every container state and every integer
sequence `s`, the empty one included, `find` over the linked list holding `s` never reads
through a null iterator and returns the boolean and the output value of `find` over the
vector holding `s`; at the start of iteration `i` the iterator points at the `i`-th cell,
so that `it->val()` is the `i`-th element of `s`. -/
theorem C14_find_overloads_agree (m : IntSetMap M) (s : List Int) (out : M) :
    m.find_List ⟨s⟩ out = some (m.find_Vector ⟨s⟩ out) ∧
    (∀ i, LinkedList.iterAt ⟨s⟩ i = s.drop i) ∧
    (∀ i, i < LinkedList.get_elem_count ⟨s⟩ →
      (LinkedList.iterAt ⟨s⟩ i).val = some (Vector.get ⟨s⟩ i)) := by
  refine ⟨IntSetMap.find_List_eq_find_Vector m s out, fun i => LinkedList.iterAt_eq ⟨s⟩ i, ?_⟩
  intro i hi
  have hi' : i < s.length := hi
  rw [LinkedList.iterAt_eq, List.drop_eq_getElem_cons hi']
  simp [LinkedList.Iter.val, Vector.get, List.getD_eq_getElem?_getD,
    List.getElem?_eq_getElem hi']

/-- C14, instance: at iteration `1` over the list `[4, 5, 6]` the iterator reads `5`. -/
theorem C14_find_overloads_agree_witness :
    (LinkedList.iterAt ⟨[4, 5, 6]⟩ 1).val = some (Vector.get ⟨[4, 5, 6]⟩ 1) :=
  (C14_find_overloads_agree (IntSetMap.new : IntSetMap Nat) [4, 5, 6] 0).2.2 1 (by decide)

/-- C16 (as amended): intermediate nodes hold the sentinel. In every container obtained
from a fresh one by `set` calls on key sequences of fewer than `2 ^ 31` elements, every
node of the store is the node of a path, and a node whose path was never the key of a
`set` call holds the sentinel `MappedObj(0)`; equivalently, when `find(K)` (on a vector
`K`, of fewer than `2 ^ 32` elements) returns true with a value other than the sentinel,
an earlier call was `set(K, v)` with that value. -/
theorem C16_intermediate_sentinel (calls : List (SetCall M))
    (hs : ∀ c ∈ calls, c.key.length < VecIdx_LIMIT) :
    (∀ a, a < (IntSetMap.run calls).mem.length →
      ∃ K, (IntSetMap.run calls).walk (IntSetMap.run calls).get_root K = some a) ∧
    (∀ (K : List Int) (a : Nat),
      (IntSetMap.run calls).walk (IntSetMap.run calls).get_root K = some a →
      (∀ c ∈ calls, c.key ≠ K) → ((IntSetMap.run calls).load (some a)).mapped = 0) ∧
    (∀ (K : Vector) (out v : M), K.elems.length < UINT_MOD →
      (IntSetMap.run calls).find_Vector K out = (true, v) →
      v ≠ 0 → ∃ c ∈ calls, c.key = K.elems ∧ c.value = v) := by
  obtain ⟨hm, _, hvals⟩ := IntSetMap.run_spec calls hs
  have hroot : (IntSetMap.run calls).get_root = some 0 := hm.root
  rw [hroot]
  refine ⟨fun a ha => hm.exists_path ha, ?_, ?_⟩
  · intro K a hK hno
    have := hvals K
    rw [lastSet_of_not_mem calls K hno] at this
    unfold IntSetMap.valueAt at this
    rwa [hm.root, hK] at this
  · intro K out v hlen hf hv
    by_cases hshort : K.elems.length < VecIdx_LIMIT
    · have := IntSetMap.found_value_run calls hs K.elems hshort out v hf
      rw [this] at hv ⊢
      exact lastSet_mem calls K.elems hv
    · exfalso
      rw [show K = ⟨K.elems⟩ from rfl,
        IntSetMap.find_long_run calls K.elems (by omega) hlen] at hf
      exact hv (Prod.mk.inj hf).2.symm

/-- C16, instance: in the container holding `[1,2] ↦ 7` the node of the path `[1]`
(address 1) holds the sentinel. -/
theorem C16_intermediate_sentinel_witness :
    ((IntSetMap.run [SetCall.vector ⟨[1, 2]⟩ (7 : Nat)]).load (some 1)).mapped = 0 :=
  (C16_intermediate_sentinel [SetCall.vector ⟨[1, 2]⟩ (7 : Nat)] (by decide)).2.1 [1] 1
    (by decide) (by decide)

/-- C16 fails after the single call `set(longKey, 7)`, for the key `longKey` of `2 ^ 31`
ones: the call visits the first element only and stores `7` at the node of the path
`[1]` (address 1), so `find([1])` reports `7` although `[1]` was never the key of a `set`
call. -/
theorem C16_counterexample :
    (∀ c ∈ [SetCall.vector ⟨longKey⟩ (7 : Nat)], c.key ≠ [1]) ∧
    (IntSetMap.run [SetCall.vector ⟨longKey⟩ (7 : Nat)]).walk
      (IntSetMap.run [SetCall.vector ⟨longKey⟩ (7 : Nat)]).get_root [1] = some 1 ∧
    ((IntSetMap.run [SetCall.vector ⟨longKey⟩ (7 : Nat)]).load (some 1)).mapped = 7 ∧
    (IntSetMap.run [SetCall.vector ⟨longKey⟩ (7 : Nat)]).find_Vector ⟨[1]⟩ 9 = (true, 7) ∧
    (7 : Nat) ≠ 0 := by
  refine ⟨?_, ?_, ?_, ?_, by decide⟩
  · intro c hc
    rw [List.mem_singleton.mp hc]
    exact longKey_ne_one
  · rw [IntSetMap.run_single_longKey]
    decide
  · rw [IntSetMap.run_single_longKey]
    decide
  · rw [IntSetMap.run_single_longKey]
    decide

/-- C17 (as amended): dump indentation. For every container obtained from a fresh one by
`set` calls and every base indent `b` (a `UINT`), `dump_helper` renders the root at indent
`b` under the placeholder key `0`, and every child at its parent's indent plus `2` in
`UINT` arithmetic: the node of a path `K` is rendered with its stored value at indent
`(b + 2 * length K) mod 2^32`, which is `b + 2 * length K` whenever that sum is below
`2^32`, labelled with the last segment of `K`. -/
theorem C17_dump_indentation (calls : List (SetCall M)) (b fuel : Nat)
    (hb : b < UINT_MOD) (hfuel : (IntSetMap.run calls).mem.length ≤ fuel) :
    ∃ st, (IntSetMap.run calls).dump_helper fuel (IntSetMap.run calls).get_root b = some st ∧
      st.out.head? = some { node := (IntSetMap.run calls).get_root, indent := b, ival := 0,
                            mapped := 0 } ∧
      (∀ K, (IntSetMap.run calls).walk (IntSetMap.run calls).get_root K ≠ none →
        ∃ v ∈ st.out, v.node = (IntSetMap.run calls).walk (IntSetMap.run calls).get_root K) ∧
      (∀ v ∈ st.out, ∀ K,
        (IntSetMap.run calls).walk (IntSetMap.run calls).get_root K = v.node →
          v.indent = (b + 2 * K.length) % UINT_MOD ∧
          (b + 2 * K.length < UINT_MOD → v.indent = b + 2 * K.length) ∧
          v.ival = K.getLastD 0 ∧
          v.mapped = ((IntSetMap.run calls).load v.node).mapped) ∧
      (∀ a k c, TMap.get ((IntSetMap.run calls).load (some a)).next k = some c →
        ∀ va ∈ st.out, ∀ vc ∈ st.out, va.node = some a → vc.node = some c →
          vc.indent = (va.indent + 2) % UINT_MOD ∧ vc.ival = k) := by
  have hm := IntSetMap.run_inv calls
  obtain ⟨L, hdump, hmem, hnd, hlen, _, _⟩ := IntSetMap.dump_run calls hb hfuel
  have hroot : (IntSetMap.run calls).get_root = some 0 := hm.root
  have hvisit : ∀ v ∈ L.map ((IntSetMap.run calls).visitOf b), ∀ K,
      (IntSetMap.run calls).walk (some 0) K = v.node →
      v = (IntSetMap.run calls).visitOf b K := by
    intro v hv K hK
    obtain ⟨K', hK', rfl⟩ := List.mem_map.mp hv
    have hw : (IntSetMap.run calls).walk (some 0) K' ≠ none := (hmem K').mp hK'
    obtain ⟨a, ha⟩ := Option.ne_none_iff_exists'.mp hw
    have hnode : ((IntSetMap.run calls).visitOf b K').node = some a := by
      simp [IntSetMap.visitOf, hm.root, ha]
    rw [hnode] at hK
    rw [hm.walk_inj ha hK]
  refine ⟨_, hdump, ?_, ?_, ?_, ?_⟩
  · -- the first path of the list is the empty one
    have h0 : 0 < (IntSetMap.run calls).mem.length := by have := hm.count; omega
    obtain ⟨n, hn⟩ : ∃ n, (IntSetMap.run calls).mem.length = n + 1 := ⟨_, (Nat.succ_pred_eq_of_pos h0).symm⟩
    have hL : ∃ T, (IntSetMap.run calls).prePaths (IntSetMap.run calls).mem.length (some 0) []
        = [] :: T := by
      rw [hn]; exact ⟨_, rfl⟩
    have hdump' := IntSetMap.dump_helper_eq hm (IntSetMap.run_shape calls) hb hfuel
    rw [hdump] at hdump'
    obtain ⟨T, hT⟩ := hL
    rw [hT] at hdump'
    have hout := congrArg DumpState.out (Option.some.inj hdump')
    simp only [DumpState.ofFrames] at hout
    simp only [DumpState.ofFrames, hout, List.map_cons, List.head?_cons]
    have hv0 : (IntSetMap.run calls).valueAt [] = 0 := (IntSetMap.find_nil_run calls (0 : M)).1
    simp [IntSetMap.visitOf, hv0, Nat.mod_eq_of_lt hb, IntSetMap.get_root]
  · intro K hK
    rw [hroot] at hK ⊢
    refine ⟨(IntSetMap.run calls).visitOf b K, ?_, ?_⟩
    · exact List.mem_map_of_mem _ ((hmem K).mpr hK)
    · simp [IntSetMap.visitOf, hm.root]
  · intro v hv K hK
    rw [hroot] at hK
    have hv' := hvisit v hv K hK
    rw [hv']
    refine ⟨rfl, fun hlt => Nat.mod_eq_of_lt hlt, rfl, ?_⟩
    simp [IntSetMap.visitOf, IntSetMap.valueAt, hm.root]
  · intro a k c hget va hva vc hvc hna hnc
    obtain ⟨K, hK⟩ := hm.exists_path (IntSetMap.lt_of_get hget)
    have hKk : (IntSetMap.run calls).walk (some 0) (K ++ [k]) = some c := by
      rw [IntSetMap.walk_concat, hK, IntSetMap.child_some, hget]
    have e1 := hvisit va hva K (by rw [hK, hna])
    have e2 := hvisit vc hvc (K ++ [k]) (by rw [hKk, hnc])
    rw [e1, e2]
    simp only [IntSetMap.visitOf, List.length_append, List.length_singleton, UINT_MOD]
    refine ⟨by omega, by simp⟩

/-- C17, instance: in the dump of the container holding `[1,2] ↦ 7` from base indent `3`,
the first rendered line is the root at indent `3` under the key `0`. -/
theorem C17_dump_indentation_witness :
    ∃ st, (IntSetMap.run [SetCall.vector ⟨[1, 2]⟩ (7 : Nat)]).dump_helper 3
      (IntSetMap.run [SetCall.vector ⟨[1, 2]⟩ (7 : Nat)]).get_root 3 = some st ∧
      st.out.head? = some { node := (IntSetMap.run [SetCall.vector ⟨[1, 2]⟩ (7 : Nat)]).get_root,
                            indent := 3, ival := 0, mapped := 0 } :=
  let ⟨st, h1, h2, _⟩ :=
    C17_dump_indentation [SetCall.vector ⟨[1, 2]⟩ (7 : Nat)] 3 3 (by decide) (by decide)
  ⟨st, h1, h2⟩

/-- C17 fails for the base indent `4294967295`: in the container holding `[1] ↦ 7` the
node of `[1]` has depth `1` and is rendered at indent `1`, not at `4294967295 + 2`, as the
sum `ind + 2` is taken in the type `UINT`. -/
theorem C17_counterexample :
    ((IntSetMap.run [SetCall.vector ⟨[1]⟩ (7 : Nat)]).dump_helper 2 (some 0) 4294967295).map
      (fun st => st.out) =
        some [{ node := some 0, indent := 4294967295, ival := 0, mapped := 0 },
              { node := some 1, indent := 1, ival := 1, mapped := 7 }] ∧
    (IntSetMap.run [SetCall.vector ⟨[1]⟩ (7 : Nat)]).walk (some 0) [1] = some 1 ∧
    (1 : Nat) ≠ 4294967295 + 2 * [(1 : Int)].length := by
  decide

/-- C18 (as amended): last write wins when the check is compiled out. In every container
obtained from a fresh one by `set` calls, for every non-empty key sequence `K` of fewer
than `2 ^ 31` elements and every value `V` (the sentinel included, whatever the terminal
node held before), after `set(K, V)` the call `find(K)` returns `(true, V)`. In every
state the result of `set` on such a key is the unconditional assignment of `V` at the
node reached by the same descent step applied to the root for the first element and to
the node reached so far for every later element. -/
theorem C18_last_write_wins (calls : List (SetCall M)) (K : Vector) (V out : M)
    (hK : K.elems ≠ []) (hlen : K.elems.length < VecIdx_LIMIT) :
    (((IntSetMap.run calls).set_Vector K V).1).find_Vector K out = (true, V) ∧
    (∀ m : IntSetMap M,
      (m.set_Vector K V).1 =
        (K.elems.foldl (fun r k => r.1.set_step r.2 k) (m, m.m_root_val2node)).1.storeMapped
          (K.elems.foldl (fun r k => r.1.set_step r.2 k) (m, m.m_root_val2node)).2 V) := by
  constructor
  · exact IntSetMap.find_after_set calls K.elems V out hK hlen
  · intro m
    have := IntSetMap.set_Vector_eq m K.elems V
    rw [if_neg hK, setKey_of_lt hlen] at this
    exact congrArg Prod.fst this

/-- C18, instance: on the container holding `[1,2] ↦ 7`, `set([1,2], 0)` makes `find([1,2])`
return the sentinel. -/
theorem C18_last_write_wins_witness :
    (((IntSetMap.run [SetCall.vector ⟨[1, 2]⟩ (7 : Nat)]).set_Vector ⟨[1, 2]⟩ 0).1).find_Vector
      ⟨[1, 2]⟩ 9 = (true, 0) :=
  (C18_last_write_wins [SetCall.vector ⟨[1, 2]⟩ (7 : Nat)] ⟨[1, 2]⟩ 0 9 (by decide)
    (by decide)).1

/-- C18 fails for the key `longKey` of `2 ^ 31` ones: on the container holding `[1] ↦ 5`,
`set(longKey, 7)` assigns `7` at the node of the first element, so that `find([1])`
reports `7`, and `find(longKey)`, which visits no element, reports the sentinel of the
root and not `7`. -/
theorem C18_counterexample :
    longKey ≠ [] ∧
    (((IntSetMap.run [SetCall.vector ⟨[1]⟩ (5 : Nat)]).set_Vector ⟨longKey⟩ 7).1).find_Vector
      ⟨longKey⟩ 9 = (true, 0) ∧
    (((IntSetMap.run [SetCall.vector ⟨[1]⟩ (5 : Nat)]).set_Vector ⟨longKey⟩ 7).1).find_Vector
      ⟨longKey⟩ 9 ≠ (true, 7) ∧
    (((IntSetMap.run [SetCall.vector ⟨[1]⟩ (5 : Nat)]).set_Vector ⟨longKey⟩ 7).1).find_Vector
      ⟨[1]⟩ 9 = (true, 7) := by
  have h : (((IntSetMap.run [SetCall.vector ⟨[1]⟩ (5 : Nat)]).set_Vector
      ⟨longKey⟩ 7).1).find_Vector ⟨longKey⟩ 9 = (true, 0) := by
    rw [IntSetMap.set_Vector_longKey]
    exact (IntSetMap.find_Vector_longKey _ (by decide) 9).trans (by decide)
  refine ⟨longKey_ne_nil, h, ?_, ?_⟩
  · rw [h]
    decide
  · rw [IntSetMap.set_Vector_longKey]
    decide

/-- C19 (as amended): sets on distinct keys commute. In every container obtained from a
fresh one by `set` calls, for non-empty key sequences `K1 ≠ K2` of fewer than `2 ^ 31`
elements each and values `V1`, `V2`, the containers
reached by `set(K1, V1); set(K2, V2)` and by `set(K2, V2); set(K1, V1)` have the same
paths, the same number of nodes, the same value at every path and the same result of
`find` for every key sequence; and the check of each call has the same outcome in both
orders. -/
theorem C19_sets_commute (calls : List (SetCall M)) (K1 K2 : Vector) (V1 V2 : M)
    (h1 : K1.elems ≠ []) (h2 : K2.elems ≠ []) (hne : K1 ≠ K2)
    (hl1 : K1.elems.length < VecIdx_LIMIT) (hl2 : K2.elems.length < VecIdx_LIMIT) :
    (∀ K, ((((IntSetMap.run calls).set_Vector K1 V1).1).set_Vector K2 V2).1.walk (some 0) K ≠ none ↔
      ((((IntSetMap.run calls).set_Vector K2 V2).1).set_Vector K1 V1).1.walk (some 0) K ≠ none) ∧
    ((((IntSetMap.run calls).set_Vector K1 V1).1).set_Vector K2 V2).1.m_num_node =
      ((((IntSetMap.run calls).set_Vector K2 V2).1).set_Vector K1 V1).1.m_num_node ∧
    ((((IntSetMap.run calls).set_Vector K1 V1).1).set_Vector K2 V2).1.mem.length =
      ((((IntSetMap.run calls).set_Vector K2 V2).1).set_Vector K1 V1).1.mem.length ∧
    (∀ K, ((((IntSetMap.run calls).set_Vector K1 V1).1).set_Vector K2 V2).1.valueAt K =
      ((((IntSetMap.run calls).set_Vector K2 V2).1).set_Vector K1 V1).1.valueAt K) ∧
    (∀ (K : Vector) (out : M),
      ((((IntSetMap.run calls).set_Vector K1 V1).1).set_Vector K2 V2).1.find_Vector K out =
        ((((IntSetMap.run calls).set_Vector K2 V2).1).set_Vector K1 V1).1.find_Vector K out) ∧
    ((IntSetMap.run calls).set_Vector K1 V1).2 =
      ((((IntSetMap.run calls).set_Vector K2 V2).1).set_Vector K1 V1).2 ∧
    ((((IntSetMap.run calls).set_Vector K1 V1).1).set_Vector K2 V2).2 =
      ((IntSetMap.run calls).set_Vector K2 V2).2 := by
  rw [IntSetMap.run_eff calls]
  have hs := SetCall.eff_short calls
  generalize calls.map SetCall.eff = calls at hs ⊢
  have hs1 := SetCall.short_concat hs (SetCall.vector K1 V1) hl1
  have hs2 := SetCall.short_concat hs (SetCall.vector K2 V2) hl2
  have hs12 := SetCall.short_concat hs1 (SetCall.vector K2 V2) hl2
  have hs21 := SetCall.short_concat hs2 (SetCall.vector K1 V1) hl1
  have hne' : K1.elems ≠ K2.elems := fun e => hne (by cases K1; cases K2; simp_all)
  have hA : (((IntSetMap.run calls).set_Vector K1 V1).1).set_Vector K2 V2 =
      (IntSetMap.run (calls ++ [SetCall.vector K1 V1])).set_Vector K2 V2 := by
    rw [IntSetMap.run_concat]; rfl
  have hB : (((IntSetMap.run calls).set_Vector K2 V2).1).set_Vector K1 V1 =
      (IntSetMap.run (calls ++ [SetCall.vector K2 V2])).set_Vector K1 V1 := by
    rw [IntSetMap.run_concat]; rfl
  have hA1 : ((IntSetMap.run (calls ++ [SetCall.vector K1 V1])).set_Vector K2 V2).1 =
      IntSetMap.run (calls ++ [SetCall.vector K1 V1] ++ [SetCall.vector K2 V2]) := by
    rw [IntSetMap.run_concat (calls ++ [SetCall.vector K1 V1])]; rfl
  have hB1 : ((IntSetMap.run (calls ++ [SetCall.vector K2 V2])).set_Vector K1 V1).1 =
      IntSetMap.run (calls ++ [SetCall.vector K2 V2] ++ [SetCall.vector K1 V1]) := by
    rw [IntSetMap.run_concat (calls ++ [SetCall.vector K2 V2])]; rfl
  obtain ⟨iA, pA, vA⟩ :=
    IntSetMap.run_spec (calls ++ [SetCall.vector K1 V1] ++ [SetCall.vector K2 V2]) hs12
  obtain ⟨iB, pB, vB⟩ :=
    IntSetMap.run_spec (calls ++ [SetCall.vector K2 V2] ++ [SetCall.vector K1 V1]) hs21
  have hpaths : ∀ K,
      (IntSetMap.run (calls ++ [SetCall.vector K1 V1] ++ [SetCall.vector K2 V2])).walk
          (some 0) K ≠ none ↔
        (IntSetMap.run (calls ++ [SetCall.vector K2 V2] ++ [SetCall.vector K1 V1])).walk
          (some 0) K ≠ none := by
    intro K
    rw [pA K, pB K]
    have hiff : ∀ c, c ∈ calls ++ [SetCall.vector K1 V1] ++ [SetCall.vector K2 V2] ↔
        c ∈ calls ++ [SetCall.vector K2 V2] ++ [SetCall.vector K1 V1] := by
      intro c
      simp only [List.mem_append, List.mem_singleton]
      tauto
    constructor
    · rintro (h | ⟨c, hc, h⟩)
      · exact Or.inl h
      · exact Or.inr ⟨c, (hiff c).mp hc, h⟩
    · rintro (h | ⟨c, hc, h⟩)
      · exact Or.inl h
      · exact Or.inr ⟨c, (hiff c).mpr hc, h⟩
  have hlast : ∀ K,
      lastSet (calls ++ [SetCall.vector K1 V1] ++ [SetCall.vector K2 V2]) K =
        lastSet (calls ++ [SetCall.vector K2 V2] ++ [SetCall.vector K1 V1]) K := by
    intro K
    simp only [lastSet_concat, SetCall.key, SetCall.value]
    by_cases e1 : K1.elems = K
    · have e2 : ¬ K2.elems = K := fun e => hne' (e1.trans e.symm)
      simp [e1, e2]
    · by_cases e2 : K2.elems = K
      · simp [e1, e2]
      · simp [e1, e2]
  have hvals : ∀ K,
      (IntSetMap.run (calls ++ [SetCall.vector K1 V1] ++ [SetCall.vector K2 V2])).valueAt K =
        (IntSetMap.run (calls ++ [SetCall.vector K2 V2] ++ [SetCall.vector K1 V1])).valueAt K := by
    intro K
    rw [vA K, vB K, hlast K]
  have hnum := iA.num_node_eq iB hpaths
  rw [hA, hB, hA1, hB1]
  refine ⟨hpaths, hnum, ?_, hvals, ?_, ?_, ?_⟩
  · have c1 := iA.count
    have c2 := iB.count
    omega
  · intro K out
    show IntSetMap.find_Vector _ ⟨K.elems⟩ out = IntSetMap.find_Vector _ ⟨K.elems⟩ out
    rw [IntSetMap.find_Vector_eq _ (by rw [iA.root]; simp),
      IntSetMap.find_Vector_eq _ (by rw [iB.root]; simp), iA.root, iB.root,
      hvals (findKey K.elems)]
    by_cases h : (IntSetMap.run
        (calls ++ [SetCall.vector K1 V1] ++ [SetCall.vector K2 V2])).walk (some 0)
          (findKey K.elems) = none
    · have h' : (IntSetMap.run
          (calls ++ [SetCall.vector K2 V2] ++ [SetCall.vector K1 V1])).walk (some 0)
            (findKey K.elems) = none := by
        by_contra hc
        exact ((hpaths (findKey K.elems)).mpr hc) h
      rw [if_pos h, if_pos h']
    · rw [if_neg h, if_neg ((hpaths (findKey K.elems)).mp h)]
  · show ((IntSetMap.run calls).set_Vector ⟨K1.elems⟩ V1).2 =
      ((IntSetMap.run (calls ++ [SetCall.vector K2 V2])).set_Vector ⟨K1.elems⟩ V1).2
    have hl : lastSet (calls ++ [SetCall.vector K2 V2]) K1.elems = lastSet calls K1.elems := by
      rw [lastSet_concat, if_neg (fun e => hne' e.1.symm)]
    rw [IntSetMap.check_run calls hs K1.elems h1 hl1,
      IntSetMap.check_run _ hs2 K1.elems h1 hl1, hl]
  · show ((IntSetMap.run (calls ++ [SetCall.vector K1 V1])).set_Vector ⟨K2.elems⟩ V2).2 =
      ((IntSetMap.run calls).set_Vector ⟨K2.elems⟩ V2).2
    have hl : lastSet (calls ++ [SetCall.vector K1 V1]) K2.elems = lastSet calls K2.elems := by
      rw [lastSet_concat, if_neg (fun e => hne' e.1)]
    rw [IntSetMap.check_run calls hs K2.elems h2 hl2,
      IntSetMap.check_run _ hs1 K2.elems h2 hl2, hl]

/-- C19, instance: on a fresh container `set([1,2], 7); set([1,3], 8)` and
`set([1,3], 8); set([1,2], 7)` allocate the same number of nodes. -/
theorem C19_sets_commute_witness :
    ((((IntSetMap.run ([] : List (SetCall Nat))).set_Vector ⟨[1, 2]⟩ 7).1).set_Vector
        ⟨[1, 3]⟩ 8).1.m_num_node =
      ((((IntSetMap.run ([] : List (SetCall Nat))).set_Vector ⟨[1, 3]⟩ 8).1).set_Vector
        ⟨[1, 2]⟩ 7).1.m_num_node :=
  (C19_sets_commute ([] : List (SetCall Nat)) ⟨[1, 2]⟩ ⟨[1, 3]⟩ 7 8 (by decide) (by decide)
    (by decide) (by decide) (by decide)).2.1

/-- C19 fails for the key `longKey` of `2 ^ 31` ones and the key `[1]`: both calls assign
at the node of `[1]`, since `set(longKey, 7)` visits the first element only. On a fresh
container `set(longKey, 7); set([1], 8)` leaves `find([1])` reporting `8` and
`set([1], 8); set(longKey, 7)` leaves it reporting `7`; and the check of
`set(longKey, 7)` passes when the call comes first and fails when it comes second. -/
theorem C19_counterexample :
    longKey ≠ [] ∧ ([1] : List Int) ≠ [] ∧ (⟨longKey⟩ : Vector) ≠ ⟨[1]⟩ ∧
    ((((IntSetMap.run ([] : List (SetCall Nat))).set_Vector ⟨longKey⟩ 7).1).set_Vector
      ⟨[1]⟩ 8).1.find_Vector ⟨[1]⟩ 9 = (true, 8) ∧
    ((((IntSetMap.run ([] : List (SetCall Nat))).set_Vector ⟨[1]⟩ 8).1).set_Vector
      ⟨longKey⟩ 7).1.find_Vector ⟨[1]⟩ 9 = (true, 7) ∧
    ((IntSetMap.run ([] : List (SetCall Nat))).set_Vector ⟨longKey⟩ 7).2 = Check.passed ∧
    ((((IntSetMap.run ([] : List (SetCall Nat))).set_Vector ⟨[1]⟩ 8).1).set_Vector
      ⟨longKey⟩ 7).2 = Check.failed := by
  refine ⟨longKey_ne_nil, by decide, ?_, ?_, ?_, ?_, ?_⟩
  · intro h
    exact longKey_ne_one (congrArg Vector.elems h)
  · rw [IntSetMap.set_Vector_longKey]
    decide
  · rw [IntSetMap.set_Vector_longKey]
    decide
  · rw [IntSetMap.set_Vector_longKey]
    decide
  · rw [IntSetMap.set_Vector_longKey]
    decide

/-- C20: child pointers are never null. In every container obtained from a fresh one by
`set` calls, every entry of every child index holds a non-null pointer to a node of the
store; no node is the child of two entries, and no node is reached by two paths. Hence
the pointer `mn` asserted at the end of `set`, reached by the descent along the elements
of the key that `set` visits, is non-null, no `ASSERT0(nextmn)` of
`dump_helper` fails, and in every state of the loop of `dump_helper` the top of the node
stack is null only when the stack is empty; the loop exits with an empty stack. -/
theorem C20_child_pointers_non_null (calls : List (SetCall M)) :
    (∀ a k q, (k, q) ∈ ((IntSetMap.run calls).load (some a)).next →
      ∃ c, q = some c ∧ c < (IntSetMap.run calls).mem.length) ∧
    (∀ a a2 k k2 c, (k, some c) ∈ ((IntSetMap.run calls).load (some a)).next →
      (k2, some c) ∈ ((IntSetMap.run calls).load (some a2)).next → a = a2 ∧ k = k2) ∧
    (∀ K K2 c, (IntSetMap.run calls).walk (IntSetMap.run calls).get_root K = some c →
      (IntSetMap.run calls).walk (IntSetMap.run calls).get_root K2 = some c → K = K2) ∧
    (∀ (K : Vector) (V : M), K.elems ≠ [] →
      ((IntSetMap.run calls).extend (IntSetMap.run calls).m_root_val2node
        (setKey K.elems)).2 ≠ none ∧
      (IntSetMap.run calls).set_Vector K V =
        (((IntSetMap.run calls).extend (IntSetMap.run calls).m_root_val2node
            (setKey K.elems)).1.storeMapped
          ((IntSetMap.run calls).extend (IntSetMap.run calls).m_root_val2node
            (setKey K.elems)).2 V,
         ((IntSetMap.run calls).extend (IntSetMap.run calls).m_root_val2node
            (setKey K.elems)).1.set_check
          ((IntSetMap.run calls).extend (IntSetMap.run calls).m_root_val2node
            (setKey K.elems)).2 V)) ∧
    (∀ b n : Nat,
      ((IntSetMap.run calls).dump_state n (IntSetMap.run calls).get_root b).asserts = true ∧
      (((IntSetMap.run calls).dump_state n (IntSetMap.run calls).get_root b).mn_stack.get_top
          none = none →
        ((IntSetMap.run calls).dump_state n (IntSetMap.run calls).get_root b).mn_stack = [])) ∧
    (∀ b fuel : Nat, b < UINT_MOD → (IntSetMap.run calls).mem.length ≤ fuel →
      ∃ st, (IntSetMap.run calls).dump_helper fuel (IntSetMap.run calls).get_root b = some st ∧
        st.asserts = true ∧ st.mn_stack = []) := by
  have hm := IntSetMap.run_inv calls
  have hs := IntSetMap.run_shape calls
  have hroot : (IntSetMap.run calls).get_root = some 0 := hm.root
  have hlt : ∀ a k q, (k, q) ∈ ((IntSetMap.run calls).load (some a)).next →
      a < (IntSetMap.run calls).mem.length := by
    intro a k q h
    by_contra hge
    rw [IntSetMap.load_dangling _ a (by omega)] at h
    simp [IntVal2Node.init] at h
  refine ⟨?_, ?_, ?_, ?_, ?_, ?_⟩
  · intro a k q h
    obtain ⟨c, hc, _, hclt⟩ := hs.entries a k q h
    exact ⟨c, hc, hclt⟩
  · intro a a2 k k2 c h1 h2
    obtain ⟨K, hK⟩ := hm.exists_path (hlt a k _ h1)
    obtain ⟨K2, hK2⟩ := hm.exists_path (hlt a2 k2 _ h2)
    have e1 : (IntSetMap.run calls).walk (some 0) (K ++ [k]) = some c := by
      rw [IntSetMap.walk_concat, hK, IntSetMap.child_some, TMap.get_of_mem (hs.sorted a) h1]
    have e2 : (IntSetMap.run calls).walk (some 0) (K2 ++ [k2]) = some c := by
      rw [IntSetMap.walk_concat, hK2, IntSetMap.child_some, TMap.get_of_mem (hs.sorted a2) h2]
    obtain ⟨hKK, hkk⟩ := List.append_inj' (hm.walk_inj e1 e2) rfl
    refine ⟨?_, by simpa using hkk⟩
    rw [hKK, hK2] at hK
    simpa using hK.symm
  · intro K K2 c h1 h2
    rw [hroot] at h1 h2
    exact hm.walk_inj h1 h2
  · intro K V hK
    constructor
    · rw [hm.root]
      obtain ⟨_, _, ⟨c, hc, _⟩, _⟩ := hm.extend (setKey K.elems) [] 0 rfl
      rw [hc]; simp
    · have := IntSetMap.set_Vector_eq (IntSetMap.run calls) K.elems V
      rw [if_neg hK] at this
      exact this
  · intro b n
    obtain ⟨h1, h2⟩ := hs.dump_state_nonnull (show (IntSetMap.run calls).get_root ≠ none by
      rw [hroot]; simp) b n
    refine ⟨h2, fun htop => ?_⟩
    cases hst : ((IntSetMap.run calls).dump_state n (IntSetMap.run calls).get_root b).mn_stack with
    | nil => rfl
    | cons q rest =>
      rw [hst] at htop h1
      simp only [Stack.get_top, List.headD_cons] at htop
      exact absurd htop (h1 q (List.mem_cons_self _ _))
  · intro b fuel hb hfuel
    obtain ⟨L, hdump, _⟩ := IntSetMap.dump_run calls hb hfuel
    exact ⟨_, hdump, rfl, rfl⟩

/-- C20, instance: in the container holding `[1,2] ↦ 7` the entry `(1, some 1)` of the
child index of the root points to a node of the store. -/
theorem C20_child_pointers_non_null_witness :
    ∃ c, (some 1 : Ptr) = some c ∧ c < (IntSetMap.run [SetCall.vector ⟨[1, 2]⟩ (7 : Nat)]).mem.length :=
  (C20_child_pointers_non_null [SetCall.vector ⟨[1, 2]⟩ (7 : Nat)]).1 0 1 (some 1) (by decide)

end Claims

end xcom
